import Mathlib

/-!
# P-256 scalar multiplication engine (`system/gd/security/ecc/p_256_ecc_pp.cc`)

A shallow embedding of `ECC_Double`, `ECC_Add`, `ECC_NAF`,
`ECC_PointMult_Bin_NAF` and `ECC_ValidatePoint`, and theorems about them.

Conventions of the embedding.

* A coordinate buffer `uint32_t[KEY_LENGTH_DWORDS_P256]` of a `Point` is
  represented by the 256-bit number it holds (little-endian limbs).
* The scalar handed to `ECC_NAF` is indexed limb by limb in the source, so
  it is a list of limbs; `limbsValue` gives the number it holds.
* The modulus `modp = curve_p256.p` and the constant `curve_p256.b` are
  initialised outside this translation unit; the functions take them as the
  arguments `modp` and `b`.  The NIST values are `curve_p256_p`,
  `curve_p256_b`, `curve_p256_G` and `curve_p256_n`.
* The `multiprecision_*` primitives live in `multprecision.cc`, which is not
  part of the sources at hand; they are modelled from the specification.
* Output parameters are returned as values.  Distinct pointer arguments are
  assumed not to overlap, as in every call of the source.
-/

namespace Ecc

/-! ## Data model -/

/-- Modelled from the spec: the macro `KEY_LENGTH_DWORDS_P256` (its header
is not among the sources); a 256-bit value is 8 limbs of 32 bits. -/
def KEY_LENGTH_DWORDS_P256 : Nat := 8

/-- The struct `Point` (declared in `p_256_ecc_pp.h`), with the three
coordinate buffers `x`, `y`, `z` the source reads and writes. -/
structure Point where
  x : Nat
  y : Nat
  z : Nat
deriving DecidableEq, Repr

/-- Ways in which a run of the C code can leave the defined behaviour of the
model: an array index outside its buffer, or a loop of the model that used
up its iteration budget. -/
inductive Fault where
  | outOfBounds
  | outOfFuel
deriving DecidableEq, Repr

/-- The number held by a little-endian limb vector. -/
def limbsValue : List Nat → Nat
  | [] => 0
  | l :: ls => l + 2 ^ 32 * limbsValue ls

/-- The limb vector of `len` limbs holding `n` (reduced mod `2^(32*len)`). -/
def limbsOfValue : Nat → Nat → List Nat
  | 0, _ => []
  | len + 1, n => n % 2 ^ 32 :: limbsOfValue len (n / 2 ^ 32)

/-- A well-formed scalar buffer: 8 limbs, each below `2^32`. -/
def LimbsWF (k : List Nat) : Prop :=
  k.length = KEY_LENGTH_DWORDS_P256 ∧ ∀ l ∈ k, l < 2 ^ 32

instance (k : List Nat) : Decidable (LimbsWF k) := by
  unfold LimbsWF; infer_instance

/-! ## Multi-precision primitives -/

/-- Modelled from the spec: `multiprecision_init` (multprecision.cc is not
among the sources) clears a value to zero. -/
def multiprecision_init : Nat := 0

/-- Modelled from the spec: `multiprecision_copy` (`copy` of BigInt), the
destination receives the source value. -/
def multiprecision_copy (a : Nat) : Nat := a

/-- Modelled from the spec: `multiprecision_iszero` (`isZero` of BigInt),
true exactly for the all-zero value. -/
def multiprecision_iszero (a : Nat) : Bool := decide (a = 0)

/-- Modelled from the spec: `multiprecision_compare` (`compare` of BigInt),
the sign of `a - b` as `1`, `-1` or `0`. -/
def multiprecision_compare (a b : Nat) : Int :=
  if b < a then 1 else if a < b then -1 else 0

/-- Modelled from the spec: the bit count behind
`multiprecision_most_signbits`, by repeated halving; `fuel` bounds the
number of halvings and is never used up when it is at least `n`. -/
def bitLengthAux : Nat → Nat → Nat
  | 0, _ => 0
  | fuel + 1, n => if n = 0 then 0 else bitLengthAux fuel (n / 2) + 1

/-- Modelled from the spec: `multiprecision_most_signbits`
(`mostSignificantBitLength` of BigInt), the bit length of the value held by
the limbs; it is `0` only for the all-zero value. -/
def multiprecision_most_signbits (k : List Nat) : Nat :=
  bitLengthAux (limbsValue k) (limbsValue k)

/-- Modelled from the spec: `multiprecision_rshift` (`rightShiftOne` of
BigInt) shifts the entire value by one bit, carrying a bit across limb
boundaries. -/
def multiprecision_rshift (k : List Nat) : List Nat :=
  limbsOfValue k.length (limbsValue k / 2)

/-- Modelled from the spec: `multiprecision_sub` (`subtractWithBorrow` of
BigInt without modulus), the 256-bit difference; the borrow-out is not used
by the callers embedded here. -/
def multiprecision_sub (a b : Nat) : Nat :=
  (a + (2 ^ 256 - b % 2 ^ 256)) % 2 ^ 256

/-- Modelled from the spec: `multiprecision_add_mod` (`addMod`),
`(a + b) mod p` in canonical range. -/
def multiprecision_add_mod (a b modp : Nat) : Nat := (a + b) % modp

/-- Modelled from the spec: `multiprecision_sub_mod` (`subMod`),
`(a - b) mod p` in canonical range (the modulus is added back when the
difference would go negative). -/
def multiprecision_sub_mod (a b modp : Nat) : Nat :=
  (a + (modp - b % modp)) % modp

/-- Modelled from the spec: `multiprecision_lshift_mod` (`doubleMod`),
`(2a) mod p`. -/
def multiprecision_lshift_mod (a modp : Nat) : Nat := (2 * a) % modp

/-- Modelled from the spec: `multiprecision_mersenns_mult_mod` (`mulMod`),
the full product reduced to canonical range. -/
def multiprecision_mersenns_mult_mod (a b modp : Nat) : Nat := (a * b) % modp

/-- Modelled from the spec: `multiprecision_mersenns_squa_mod` (`sqrMod`),
the full square reduced to canonical range. -/
def multiprecision_mersenns_squa_mod (a modp : Nat) : Nat := (a * a) % modp

/-- Modelled from the spec: the exponentiation `a ^ e mod m` behind
`multiprecision_inv_mod`, by squaring and multiplying; `fuel` bounds the
number of halvings of the exponent and is never used up when it is at least
`e` (`powModAux_eq`). -/
def powModAux : Nat → Nat → Nat → Nat → Nat
  | 0, _, _, m => 1 % m
  | fuel + 1, a, e, m =>
    if e = 0 then 1 % m
    else
      let h := powModAux fuel (a * a % m) (e / 2) m
      if e % 2 = 1 then a * h % m else h

/-- Modelled from the spec: `multiprecision_inv_mod` (`invMod`), the
multiplicative inverse of `a` modulo the prime `p` for `a` in `[1, p-1]`,
here `a^(p-2) mod p`.  The specification leaves the behaviour at `a = 0`
undefined: what this total function takes there is not part of the model,
and no property below is derived from it. -/
def multiprecision_inv_mod (a modp : Nat) : Nat :=
  powModAux modp a (modp - 2) modp

/-! ## Point operations -/

/-- The function `p_256_init_point`: `memset` of the whole point. -/
def p_256_init_point : Point := ⟨0, 0, 0⟩

/-- The function `p_256_copy_point`: `memcpy` of the whole point. -/
def p_256_copy_point (p : Point) : Point := p

/-- The function `ECC_Double(q, p)`; `q` is the previous content of the
output point, the result is its new content. -/
def ECC_Double (modp : Nat) (q p : Point) : Point :=
  if multiprecision_iszero p.z then
    { q with z := multiprecision_init }
  else
    let x1 := p.x
    let y1 := p.y
    let z1 := p.z
    let t1 := multiprecision_mersenns_squa_mod z1 modp
    let t2 := multiprecision_sub_mod x1 t1 modp
    let t1 := multiprecision_add_mod x1 t1 modp
    let t2 := multiprecision_mersenns_mult_mod t1 t2 modp
    let t3 := multiprecision_lshift_mod t2 modp
    let t2 := multiprecision_add_mod t3 t2 modp
    let z3 := multiprecision_mersenns_mult_mod y1 z1 modp
    let z3 := multiprecision_lshift_mod z3 modp
    let y3 := multiprecision_mersenns_squa_mod y1 modp
    let y3 := multiprecision_lshift_mod y3 modp
    let t3 := multiprecision_mersenns_mult_mod y3 x1 modp
    let t3 := multiprecision_lshift_mod t3 modp
    let y3 := multiprecision_mersenns_squa_mod y3 modp
    let y3 := multiprecision_lshift_mod y3 modp
    let x3 := multiprecision_mersenns_squa_mod t2 modp
    let t1 := multiprecision_lshift_mod t3 modp
    let x3 := multiprecision_sub_mod x3 t1 modp
    let t1 := multiprecision_sub_mod t3 x3 modp
    let t1 := multiprecision_mersenns_mult_mod t1 t2 modp
    let y3 := multiprecision_sub_mod t1 y3 modp
    ⟨x3, y3, z3⟩

/-- The function `ECC_Add(r, p, q)`; `r` is the previous content of the
output point.  The source uses `p->z` as scratch space in the general
branch, so the result is the pair (new `r`, new `p`). -/
def ECC_Add (modp : Nat) (r p q : Point) : Point × Point :=
  let x1 := p.x
  let y1 := p.y
  let z1 := p.z
  let x2 := q.x
  let y2 := q.y
  let z2 := q.z
  if multiprecision_iszero z2 then
    (p_256_copy_point p, p)
  else if multiprecision_iszero z1 then
    (p_256_copy_point q, p)
  else
    let t1 := multiprecision_mersenns_squa_mod z1 modp
    let t2 := multiprecision_mersenns_mult_mod z1 t1 modp
    let t1 := multiprecision_mersenns_mult_mod x2 t1 modp
    let t2 := multiprecision_mersenns_mult_mod y2 t2 modp
    let t1 := multiprecision_sub_mod t1 x1 modp
    let t2 := multiprecision_sub_mod t2 y1 modp
    if multiprecision_iszero t1 then
      if multiprecision_iszero t2 then
        (ECC_Double modp r q, p)
      else
        ({ r with z := multiprecision_init }, p)
    else
      let z3 := multiprecision_mersenns_mult_mod z1 t1 modp
      let y3 := multiprecision_mersenns_squa_mod t1 modp
      let z1 := multiprecision_mersenns_mult_mod y3 t1 modp
      let y3 := multiprecision_mersenns_mult_mod y3 x1 modp
      let t1 := multiprecision_lshift_mod y3 modp
      let x3 := multiprecision_mersenns_squa_mod t2 modp
      let x3 := multiprecision_sub_mod x3 t1 modp
      let x3 := multiprecision_sub_mod x3 z1 modp
      let y3 := multiprecision_sub_mod y3 x3 modp
      let y3 := multiprecision_mersenns_mult_mod y3 t2 modp
      let z1 := multiprecision_mersenns_mult_mod z1 y1 modp
      let y3 := multiprecision_sub_mod y3 z1 modp
      (⟨x3, y3, z3⟩, { p with z := z1 })

/-! ## NAF encoding -/

/-- The inner loop `do { k[j]++; } while (k[j++] == 0);` of `ECC_NAF`.
An index `j` outside the limb vector is a fault. -/
def ECC_NAF_carry : Nat → List Nat → Nat → Except Fault (List Nat)
  | 0, _, _ => .error .outOfFuel
  | fuel + 1, k, j =>
    if j < k.length then
      let k := k.set j ((k.getD j 0 + 1) % 2 ^ 32)
      if k.getD j 0 = 0 then ECC_NAF_carry fuel k (j + 1) else .ok k
    else .error .outOfBounds

/-- The digit step of `ECC_NAF` (source lines 171-189): the 2-bit code
`sign` of the digit and the scalar after `k = k - naf[i]`. -/
def ECC_NAF_digit (k : List Nat) : Except Fault (Nat × List Nat) :=
  if k.getD 0 0 &&& 0x01 ≠ 0 then
    let sign := k.getD 0 0 &&& 0x03
    if sign = 1 then
      .ok (sign, k.set 0 (k.getD 0 0 &&& 0xFFFFFFFE))
    else
      let k := k.set 0 ((k.getD 0 0 + 1) % 2 ^ 32)
      if k.getD 0 0 = 0 then
        (ECC_NAF_carry KEY_LENGTH_DWORDS_P256 k 1).map fun k => (sign, k)
      else .ok (sign, k)
  else .ok (0, k)

/-- The `while` loop of `ECC_NAF`, from digit index `i` on.  The result is
the final `naf` buffer, the final `i` and the final content of `k`. -/
def ECC_NAF_loop : Nat → List Nat → List Nat → Nat →
    Except Fault (List Nat × Nat × List Nat)
  | 0, _, _, _ => .error .outOfFuel
  | fuel + 1, naf, k, i =>
    if multiprecision_most_signbits k ≥ 1 then
      match ECC_NAF_digit k with
      | .error e => .error e
      | .ok (sign, k) =>
        let k := multiprecision_rshift k
        if i / 4 < naf.length then
          let naf := naf.set (i / 4)
            ((naf.getD (i / 4) 0 ||| (sign <<< ((i % 4) * 2))) % 2 ^ 8)
          ECC_NAF_loop fuel naf k (i + 1)
        else .error .outOfBounds
    else .ok (naf, i, k)

/-- Iteration budget of the model of the `while` loop of `ECC_NAF`; an
8-limb scalar needs at most 257 iterations and one final test. -/
def ECC_NAF_fuel : Nat := 258

/-- The function `ECC_NAF(naf, NumNAF, k)`: the new `naf` buffer, `*NumNAF`
and the final content of `k`. -/
def ECC_NAF (naf k : List Nat) : Except Fault (List Nat × Nat × List Nat) :=
  ECC_NAF_loop ECC_NAF_fuel naf k 0

/-- The digit code read back by `ECC_PointMult_Bin_NAF`:
`(naf[i / 4] >> ((i % 4) * 2)) & 0x03`. -/
def nafSign (naf : List Nat) (i : Nat) : Nat :=
  (naf.getD (i / 4) 0 >>> ((i % 4) * 2)) &&& 0x03

/-- The signed digit denoted by a 2-bit code: `1` is `+1`, `3` is `-1`. -/
def nafDigit (sign : Nat) : Int :=
  if sign = 1 then 1 else if sign = 3 then -1 else 0

/-! ## Scalar multiplication -/

/-- Size of the local buffer `uint8_t naf[256 / 4 + 1]`. -/
def NAF_BYTES : Nat := 256 / 4 + 1

/-- One pass of the `for` loop body of `ECC_PointMult_Bin_NAF` at index `i`,
on the pair (`q`, `r`). -/
def ECC_PointMult_step (modp : Nat) (naf : List Nat) (p minus_p : Point)
    (i : Nat) (qr : Point × Point) : Except Fault (Point × Point) :=
  let q := qr.1
  let r := p_256_copy_point q
  let q := ECC_Double modp q r
  if i / 4 < naf.length then
    let sign := nafSign naf i
    if sign = 1 then
      let r := p_256_copy_point q
      .ok (ECC_Add modp q r p)
    else if sign = 3 then
      let r := p_256_copy_point q
      .ok (ECC_Add modp q r minus_p)
    else .ok (q, r)
  else .error .outOfBounds

/-- The loop `for (int i = NumNaf - 1; i >= 0; i--)`; the first argument
is `i + 1`. -/
def ECC_PointMult_loop (modp : Nat) (naf : List Nat) (p minus_p : Point) :
    Nat → Point × Point → Except Fault (Point × Point)
  | 0, qr => .ok qr
  | i + 1, qr =>
    match ECC_PointMult_step modp naf p minus_p i qr with
    | .error e => .error e
    | .ok qr => ECC_PointMult_loop modp naf p minus_p i qr

/-- Lines 237-241 of `ECC_PointMult_Bin_NAF`: the conversion of the
accumulator `q` from Jacobian to affine coordinates. -/
def ECC_PointMult_finish (modp : Nat) (q : Point) : Point :=
  let minus_p_x := multiprecision_inv_mod q.z modp
  let qz := multiprecision_mersenns_squa_mod minus_p_x modp
  let qx := multiprecision_mersenns_mult_mod q.x qz modp
  let qz := multiprecision_mersenns_mult_mod qz minus_p_x modp
  let qy := multiprecision_mersenns_mult_mod q.y qz modp
  ⟨qx, qy, qz⟩

/-- The accumulator left by the loop of `ECC_PointMult_Bin_NAF`, together
with the final content of the scalar buffer `n`. -/
def ECC_PointMult_acc (modp : Nat) (p : Point) (n : List Nat) :
    Except Fault (Point × List Nat) :=
  let r := p_256_init_point
  let q := p_256_init_point
  let minus_p : Point :=
    ⟨multiprecision_copy p.x, multiprecision_sub modp p.y, 1⟩
  let naf := List.replicate NAF_BYTES 0
  match ECC_NAF naf n with
  | .error e => .error e
  | .ok (naf, NumNaf, n) =>
    match ECC_PointMult_loop modp naf p minus_p NumNaf (q, r) with
    | .error e => .error e
    | .ok (q, _) => .ok (q, n)

/-- The function `ECC_PointMult_Bin_NAF(q, p, n)`: the new content of `q`
and the final content of the scalar buffer `n`. -/
def ECC_PointMult_Bin_NAF (modp : Nat) (p : Point) (n : List Nat) :
    Except Fault (Point × List Nat) :=
  match ECC_PointMult_acc modp p n with
  | .error e => .error e
  | .ok (q, n) => .ok (ECC_PointMult_finish modp q, n)

/-! ## Point validation -/

/-- The function `ECC_ValidatePoint(pt)`. -/
def ECC_ValidatePoint (modp b : Nat) (pt : Point) : Bool :=
  let y2_mod := multiprecision_mersenns_squa_mod pt.y modp
  let rhs := multiprecision_mersenns_squa_mod pt.x modp
  let three := 3
  let rhs := multiprecision_sub_mod rhs three modp
  let rhs := multiprecision_mersenns_mult_mod rhs pt.x modp
  let rhs := multiprecision_add_mod rhs b modp
  decide (multiprecision_compare rhs y2_mod = 0)

/-! ## The NIST P-256 constants -/

/-- Modelled from the spec: the P-256 prime `curve_p256.p`
(`2^256 - 2^224 + 2^192 + 2^96 - 1`); its initialiser is not among the
sources. -/
def curve_p256_p : Nat :=
  0xffffffff00000001000000000000000000000000ffffffffffffffffffffffff

/-- Modelled from the spec: the P-256 coefficient `curve_p256.b`. -/
def curve_p256_b : Nat :=
  0x5ac635d8aa3a93e7b3ebbd55769886bc651d06b0cc53b0f63bce3c3e27d2604b

/-- Modelled from the spec: the standard NIST P-256 base point
`curve_p256.G`, with `Z = 1`. -/
def curve_p256_G : Point :=
  ⟨0x6b17d1f2e12c4247f8bce6e563a440f277037d812deb33a0f4a13945d898c296,
   0x4fe342e2fe1a7f9b8ee7eb4a7c0f9e162bce33576b315ececbb6406837bf51f5,
   1⟩

/-- Modelled from the spec: the order `curve_p256.r` of the base point. -/
def curve_p256_n : Nat :=
  0xffffffff00000000ffffffffffffffffbce6faada7179e84f3b9cac2fc632551

/-! ## Definitions used to state and prove the properties -/

deriving instance DecidableEq for Except

/-- Value-level trace of the `while` loop of `ECC_NAF`: the digit codes the
loop emits, least significant first, when the scalar buffer holds `v`. -/
def nafCodes : Nat → Nat → List Nat
  | 0, _ => []
  | fuel + 1, v =>
    if v = 0 then []
    else if v % 2 = 1 then
      if v % 4 = 1 then 1 :: nafCodes fuel ((v - 1) / 2)
      else 3 :: nafCodes fuel ((v + 1) / 2)
    else 0 :: nafCodes fuel (v / 2)

/-- The number denoted by a list of digit codes, least significant first. -/
def codesValue : List Nat → Int
  | [] => 0
  | c :: cs => nafDigit c + 2 * codesValue cs

/-- The part of a `naf` buffer from digit index `i` on is still clear. -/
def NafClean (naf : List Nat) (i : Nat) : Prop :=
  (∀ b, i / 4 < b → naf.getD b 0 = 0) ∧ naf.getD (i / 4) 0 < 4 ^ (i % 4)

/-- The curve `y^2 = x^3 - 3x + b` over the integers modulo `modp`. -/
def curve (modp b : Nat) : WeierstrassCurve.Affine (ZMod modp) :=
  { a₁ := 0, a₂ := 0, a₃ := 0, a₄ := -3, a₆ := (b : ZMod modp) }

/-- The Jacobian triple `q`, with `Z` in canonical range, stands for the
group element `A` of the curve: `Z = 0` for the point at infinity, and
`(X / Z^2, Y / Z^3)` otherwise. -/
def Represents (modp b : Nat) (q : Point) (A : (curve modp b).Point) : Prop :=
  q.z < modp ∧
  match A with
  | .zero => q.z = 0
  | @WeierstrassCurve.Affine.Point.some _ _ _ x y _ =>
    q.z ≠ 0 ∧ (q.x : ZMod modp) = x * (q.z : ZMod modp) ^ 2 ∧
      (q.y : ZMod modp) = y * (q.z : ZMod modp) ^ 3
/-- The value of `t1` after line 136 of `ECC_Add`: `x2 * z1^2 - x1`. -/
def ECC_Add_t1 (modp : Nat) (p q : Point) : Nat :=
  multiprecision_sub_mod
    (multiprecision_mersenns_mult_mod q.x (multiprecision_mersenns_squa_mod p.z modp) modp)
    p.x modp

/-- The value of `t2` after line 137 of `ECC_Add`: `y2 * z1^3 - y1`. -/
def ECC_Add_t2 (modp : Nat) (p q : Point) : Nat :=
  multiprecision_sub_mod
    (multiprecision_mersenns_mult_mod q.y
      (multiprecision_mersenns_mult_mod p.z (multiprecision_mersenns_squa_mod p.z modp) modp)
      modp)
    p.y modp

/-- The computational part of a Lucas primality certificate for `p`: a base
`a` of order `p - 1` and the prime-power factorisation `fs` of `p - 1`. -/
def lucasCheck (p a : Nat) (fs : List (Nat × Nat)) : Bool :=
  decide (1 < p) && decide ((fs.map fun qe => qe.1 ^ qe.2).prod = p - 1) &&
    decide (powModAux p a (p - 1) p = 1) &&
    fs.all fun qe => decide (powModAux p a ((p - 1) / qe.1) p ≠ 1)

/-- The P-256 base point in Jacobian coordinates with `Z = 2`:
`(4 * x, 8 * y, 2)`. -/
def curve_p256_G_z2 : Point :=
  ⟨4 * curve_p256_G.x % curve_p256_p, 8 * curve_p256_G.y % curve_p256_p, 2⟩

/-- The `z` coordinate of the accumulator left by the loop of
`ECC_PointMult_Bin_NAF`, `none` on a fault. -/
def accZ (modp : Nat) (p : Point) (n : List Nat) : Option Nat :=
  match ECC_PointMult_acc modp p n with
  | .ok (q, _) => some q.z
  | .error _ => none

/-- Two chained calls of `ECC_PointMult_Bin_NAF`: the point returned by the
call with scalar `first` is handed, as it is, to a call with scalar `second`. -/
def ECC_PointMult_chain (modp : Nat) (g : Point) (first second : List Nat) :
    Except Fault Point :=
  match ECC_PointMult_Bin_NAF modp g first with
  | .error e => .error e
  | .ok (q, _) =>
    match ECC_PointMult_Bin_NAF modp q second with
    | .error e => .error e
    | .ok (q2, _) => .ok q2

/-- Two chained calls where the caller rebuilds the base point of the second
call from the affine coordinates of the first result, with `Z = 1`. -/
def ECC_PointMult_chain_affine (modp : Nat) (g : Point) (first second : List Nat) :
    Except Fault Point :=
  match ECC_PointMult_Bin_NAF modp g first with
  | .error e => .error e
  | .ok (q, _) =>
    match ECC_PointMult_Bin_NAF modp ⟨q.x, q.y, 1⟩ second with
    | .error e => .error e
    | .ok (q2, _) => .ok q2

/-- The value the specification gives to the scalar after one pass of the
`while` loop of `ECC_NAF` that started with the value `v`: `v / 2`,
`(v - 1) / 2` or `(v + 1) / 2`; the loop of `ECC_NAF` is compared with it. -/
def nafNext (v : Nat) : Nat :=
  (if v % 2 = 1 then (if v % 4 = 1 then v - 1 else v + 1) else v) / 2

/-- The term `M = 3 (X1 - Z1^2) (X1 + Z1^2)` of the doubling formulas, as the
specification writes it; `ECC_Double` is compared with it. -/
def ECC_Double_M (modp : Nat) (P : Point) : ZMod modp :=
  3 * ((P.x : ZMod modp) - (P.z : ZMod modp) ^ 2) * ((P.x : ZMod modp) + (P.z : ZMod modp) ^ 2)

/-- The term `S = 4 X1 Y1^2` of the doubling formulas, as the specification
writes it; `ECC_Double` is compared with it. -/
def ECC_Double_S (modp : Nat) (P : Point) : ZMod modp :=
  4 * (P.x : ZMod modp) * (P.y : ZMod modp) ^ 2

/-- The term `H = x2 Z1^2 - X1` of the addition formulas, as the specification
writes it; `ECC_Add` is compared with it. -/
def ECC_Add_H (modp : Nat) (P Q : Point) : ZMod modp :=
  (Q.x : ZMod modp) * (P.z : ZMod modp) ^ 2 - (P.x : ZMod modp)

/-- The term `R = y2 Z1^3 - Y1` of the addition formulas, as the specification
writes it; `ECC_Add` is compared with it. -/
def ECC_Add_R (modp : Nat) (P Q : Point) : ZMod modp :=
  (Q.y : ZMod modp) * (P.z : ZMod modp) ^ 3 - (P.y : ZMod modp)

/-- Lines 212-217 of `ECC_PointMult_Bin_NAF`: the content of `minus_p` after
`multiprecision_copy(minus_p.x, p->x)`, `multiprecision_sub(minus_p.y, modp,
p->y)`, `multiprecision_init(minus_p.z)` and `minus_p.z[0] = 1`. -/
def ECC_PointMult_minus_p (modp : Nat) (p : Point) : Point :=
  ⟨multiprecision_copy p.x, multiprecision_sub modp p.y, 1⟩

/-- The Jacobian curve equation `Y^2 = X^3 - 3 X Z^4 + b Z^6 (mod p)`, as the
specification writes it; the term `3 X Z^4` stands on the left so that both
sides are natural numbers. -/
def JacobianEq (modp b : Nat) (P : Point) : Prop :=
  (P.y ^ 2 + 3 * P.x * P.z ^ 4) % modp = (P.x ^ 3 + b * P.z ^ 6) % modp

instance (modp b : Nat) (P : Point) : Decidable (JacobianEq modp b P) := by
  unfold JacobianEq; infer_instance

/-- Product of `a0 + a1 x + a2 x^2` and `b0 + b1 x + b2 x^2` modulo the
cubic `x^3 - 3x + b` and the modulus `modp` (used to show that the cubic has
no root). -/
def cubicMul (modp b : Nat) (A B : Nat × Nat × Nat) : Nat × Nat × Nat :=
  let nb := modp - b % modp
  let c0 := A.1 * B.1
  let c1 := A.1 * B.2.1 + A.2.1 * B.1
  let c2 := A.1 * B.2.2 + A.2.1 * B.2.1 + A.2.2 * B.1
  let c3 := A.2.1 * B.2.2 + A.2.2 * B.2.1
  let c4 := A.2.2 * B.2.2
  ((c0 + c3 * nb) % modp, (c1 + 3 * c3 + c4 * nb) % modp, (c2 + 3 * c4) % modp)

/-- Power `A ^ e` modulo the cubic `x^3 - 3x + b` and `modp`, by squaring and
multiplying; `fuel` bounds the number of halvings of the exponent. -/
def cubicPow (modp b : Nat) : Nat → Nat × Nat × Nat → Nat → Nat × Nat × Nat
  | 0, _, _ => (1 % modp, 0, 0)
  | fuel + 1, A, e =>
    if e = 0 then (1 % modp, 0, 0)
    else
      let h := cubicPow modp b fuel (cubicMul modp b A A) (e / 2)
      if e % 2 = 1 then cubicMul modp b A h else h

/-- The value of `a0 + a1 x + a2 x^2` at `r`, in `ZMod modp`. -/
def cubicEval (modp : Nat) (A : Nat × Nat × Nat) (r : ZMod modp) : ZMod modp :=
  (A.1 : ZMod modp) + (A.2.1 : ZMod modp) * r + (A.2.2 : ZMod modp) * r ^ 2

/-- The function `ECC_Add(r, p, q)` as a function of the three buffers its
arguments point to: the contents of `*r`, `*p` and `*q` after the call.  The
third argument is a `const Point*`, read through the `const uint32_t*`
pointers `x2`, `y2`, `z2` (and handed to `ECC_Double` as its `const`
operand); no statement of the source writes through it. -/
def ECC_Add_mem (modp : Nat) (r p q : Point) : Point × Point × Point :=
  let x1 := p.x
  let y1 := p.y
  let z1 := p.z
  let x2 := q.x
  let y2 := q.y
  let z2 := q.z
  if multiprecision_iszero z2 then
    (p_256_copy_point p, p, q)
  else if multiprecision_iszero z1 then
    (p_256_copy_point q, p, q)
  else
    let t1 := multiprecision_mersenns_squa_mod z1 modp
    let t2 := multiprecision_mersenns_mult_mod z1 t1 modp
    let t1 := multiprecision_mersenns_mult_mod x2 t1 modp
    let t2 := multiprecision_mersenns_mult_mod y2 t2 modp
    let t1 := multiprecision_sub_mod t1 x1 modp
    let t2 := multiprecision_sub_mod t2 y1 modp
    if multiprecision_iszero t1 then
      if multiprecision_iszero t2 then
        (ECC_Double modp r q, p, q)
      else
        ({ r with z := multiprecision_init }, p, q)
    else
      let z3 := multiprecision_mersenns_mult_mod z1 t1 modp
      let y3 := multiprecision_mersenns_squa_mod t1 modp
      let z1 := multiprecision_mersenns_mult_mod y3 t1 modp
      let y3 := multiprecision_mersenns_mult_mod y3 x1 modp
      let t1 := multiprecision_lshift_mod y3 modp
      let x3 := multiprecision_mersenns_squa_mod t2 modp
      let x3 := multiprecision_sub_mod x3 t1 modp
      let x3 := multiprecision_sub_mod x3 z1 modp
      let y3 := multiprecision_sub_mod y3 x3 modp
      let y3 := multiprecision_mersenns_mult_mod y3 t2 modp
      let z1 := multiprecision_mersenns_mult_mod z1 y1 modp
      let y3 := multiprecision_sub_mod y3 z1 modp
      (⟨x3, y3, z3⟩, { p with z := z1 }, q)

/-- One pass of the `for` loop body of `ECC_PointMult_Bin_NAF` at index `i`,
on the four buffers (`q`, `r`, `p`, `minus_p`): the output point, the local
copy, the base point behind the `const Point* p`, and the local negated
point.  The calls are `ECC_Add(q, &r, p)` and `ECC_Add(q, &r, &minus_p)`. -/
def ECC_PointMult_step_mem (modp : Nat) (naf : List Nat) (i : Nat)
    (s : Point × Point × Point × Point) : Except Fault (Point × Point × Point × Point) :=
  let q := s.1
  let p := s.2.2.1
  let minus_p := s.2.2.2
  let r := p_256_copy_point q
  let q := ECC_Double modp q r
  if i / 4 < naf.length then
    let sign := nafSign naf i
    if sign = 1 then
      let r := p_256_copy_point q
      let res := ECC_Add_mem modp q r p
      .ok (res.1, res.2.1, res.2.2, minus_p)
    else if sign = 3 then
      let r := p_256_copy_point q
      let res := ECC_Add_mem modp q r minus_p
      .ok (res.1, res.2.1, p, res.2.2)
    else .ok (q, r, p, minus_p)
  else .error .outOfBounds

/-- The loop `for (int i = NumNaf - 1; i >= 0; i--)` on the four buffers;
the first argument is `i + 1`. -/
def ECC_PointMult_loop_mem (modp : Nat) (naf : List Nat) :
    Nat → Point × Point × Point × Point → Except Fault (Point × Point × Point × Point)
  | 0, s => .ok s
  | i + 1, s =>
    match ECC_PointMult_step_mem modp naf i s with
    | .error e => .error e
    | .ok s => ECC_PointMult_loop_mem modp naf i s

/-- The function `ECC_PointMult_Bin_NAF(q, p, n)` as a function of the three
buffers its arguments point to: the contents of `*q`, of `*p` and of the
scalar buffer `n` after the call. -/
def ECC_PointMult_Bin_NAF_mem (modp : Nat) (p : Point) (n : List Nat) :
    Except Fault (Point × Point × List Nat) :=
  let r := p_256_init_point
  let q := p_256_init_point
  let minus_p : Point :=
    ⟨multiprecision_copy p.x, multiprecision_sub modp p.y, 1⟩
  let naf := List.replicate NAF_BYTES 0
  match ECC_NAF naf n with
  | .error e => .error e
  | .ok (naf, NumNaf, n) =>
    match ECC_PointMult_loop_mem modp naf NumNaf (q, r, p, minus_p) with
    | .error e => .error e
    | .ok (q, _, p, _) => .ok (ECC_PointMult_finish modp q, p, n)

/-! # Theorems -/

set_option maxRecDepth 100000

/-! ## Limb vectors -/

theorem limbsValue_lt : ∀ (k : List Nat), (∀ l ∈ k, l < 2 ^ 32) →
    limbsValue k < 2 ^ (32 * k.length) := by
  intro k
  induction k with
  | nil => intro _; simp [limbsValue]
  | cons l ls ih =>
    intro h
    have hl : l < 2 ^ 32 := h l (List.mem_cons_self _ _)
    have hls := ih (fun x hx => h x (List.mem_cons_of_mem _ hx))
    have hpow : 2 ^ (32 * (l :: ls).length) = 2 ^ 32 * 2 ^ (32 * ls.length) := by
      rw [List.length_cons, Nat.mul_succ, Nat.pow_add, Nat.mul_comm]
    rw [hpow, limbsValue]
    nlinarith

theorem LimbsWF_value_lt {k : List Nat} (h : LimbsWF k) : limbsValue k < 2 ^ 256 := by
  have := limbsValue_lt k h.2
  rw [h.1] at this
  exact this

theorem limbsOfValue_length : ∀ (len n : Nat), (limbsOfValue len n).length = len := by
  intro len
  induction len with
  | zero => intro n; rfl
  | succ len ih => intro n; simp [limbsOfValue, ih]

theorem limbsOfValue_lt : ∀ (len n : Nat), ∀ l ∈ limbsOfValue len n, l < 2 ^ 32 := by
  intro len
  induction len with
  | zero => intro n l hl; simp [limbsOfValue] at hl
  | succ len ih =>
    intro n l hl
    simp only [limbsOfValue, List.mem_cons] at hl
    rcases hl with rfl | hl
    · exact Nat.mod_lt _ (by norm_num)
    · exact ih _ l hl

theorem limbsValue_limbsOfValue : ∀ (len n : Nat), n < 2 ^ (32 * len) →
    limbsValue (limbsOfValue len n) = n := by
  intro len
  induction len with
  | zero => intro n h; simp at h; simp [limbsOfValue, limbsValue, h]
  | succ len ih =>
    intro n h
    have hlt : n / 2 ^ 32 < 2 ^ (32 * len) := by
      rw [Nat.div_lt_iff_lt_mul (by norm_num)]
      rw [Nat.mul_succ, Nat.pow_add] at h
      exact h
    rw [limbsOfValue, limbsValue, ih _ hlt]
    exact Nat.mod_add_div n (2 ^ 32)

theorem limbsOfValue_wf (n : Nat) : LimbsWF (limbsOfValue KEY_LENGTH_DWORDS_P256 n) :=
  ⟨limbsOfValue_length _ _, limbsOfValue_lt _ _⟩

theorem bitLengthAux_pos (fuel n : Nat) (hf : 0 < fuel) (hn : 0 < n) :
    1 ≤ bitLengthAux fuel n := by
  cases fuel with
  | zero => omega
  | succ f => simp [bitLengthAux, Nat.pos_iff_ne_zero.mp hn]

theorem most_signbits_ge_one_iff (k : List Nat) :
    multiprecision_most_signbits k ≥ 1 ↔ limbsValue k ≠ 0 := by
  unfold multiprecision_most_signbits
  constructor
  · intro h h0
    rw [h0] at h
    simp [bitLengthAux] at h
  · intro h
    exact bitLengthAux_pos _ _ (Nat.pos_of_ne_zero h) (Nat.pos_of_ne_zero h)

theorem rshift_value {k : List Nat} (h : LimbsWF k) :
    limbsValue (multiprecision_rshift k) = limbsValue k / 2 ∧
    LimbsWF (multiprecision_rshift k) := by
  unfold multiprecision_rshift
  rw [h.1]
  refine ⟨?_, limbsOfValue_wf _⟩
  apply limbsValue_limbsOfValue
  have := LimbsWF_value_lt h
  show limbsValue k / 2 < 2 ^ (32 * 8)
  omega

/-- A well-formed scalar buffer is its lowest limb followed by seven more. -/
theorem limb0 {k : List Nat} (h : LimbsWF k) :
    ∃ l ls, k = l :: ls ∧ l < 2 ^ 32 ∧ ls.length = 7 ∧ (∀ x ∈ ls, x < 2 ^ 32) := by
  obtain ⟨hlen, hlt⟩ := h
  cases k with
  | nil => simp [KEY_LENGTH_DWORDS_P256] at hlen
  | cons l ls =>
    refine ⟨l, ls, rfl, hlt l (List.mem_cons_self _ _), ?_, fun x hx => hlt x (List.mem_cons_of_mem _ hx)⟩
    simpa [KEY_LENGTH_DWORDS_P256] using hlen


theorem land_one (l : Nat) : l &&& 1 = l % 2 :=
  Nat.and_pow_two_sub_one_eq_mod l 1

theorem land_three (l : Nat) : l &&& 3 = l % 4 := by
  simpa using Nat.and_pow_two_sub_one_eq_mod l 2

theorem land_clear_low (l : Nat) (hl : l < 2 ^ 32) : l &&& 0xFFFFFFFE = l - l % 2 := by
  have hdiv : (l &&& 0xFFFFFFFE) / 2 = l / 2 := by
    rw [Nat.and_div_two]
    have h := Nat.and_pow_two_sub_one_eq_mod (l / 2) 31
    have e : (0xFFFFFFFE : Nat) / 2 = 2 ^ 31 - 1 := by norm_num
    rw [e, h]
    apply Nat.mod_eq_of_lt
    omega
  have hmod : (l &&& 0xFFFFFFFE) % 2 = 0 := by
    rcases Nat.mod_two_eq_zero_or_one (l &&& 0xFFFFFFFE) with h | h
    · exact h
    · rw [Nat.and_mod_two_eq_one] at h
      omega
  omega

/-- The carry loop started at limb `j = pre.length` adds one to the number
held by the limbs from `j` on, and runs out of the buffer exactly when that
number is all ones. -/
theorem ECC_NAF_carry_spec : ∀ (suf : List Nat) (fuel : Nat) (pre : List Nat),
    suf.length < fuel → (∀ x ∈ suf, x < 2 ^ 32) →
    (limbsValue suf + 1 < 2 ^ (32 * suf.length) →
      ∃ suf2, ECC_NAF_carry fuel (pre ++ suf) pre.length = .ok (pre ++ suf2) ∧
        limbsValue suf2 = limbsValue suf + 1 ∧ suf2.length = suf.length ∧
        ∀ x ∈ suf2, x < 2 ^ 32) ∧
    (¬ limbsValue suf + 1 < 2 ^ (32 * suf.length) →
      ECC_NAF_carry fuel (pre ++ suf) pre.length = .error .outOfBounds) := by
  intro suf
  induction suf with
  | nil =>
    intro fuel pre hf _
    cases fuel with
    | zero => simp at hf
    | succ f =>
      constructor
      · intro h; simp [limbsValue] at h
      · intro _; simp [ECC_NAF_carry]
  | cons l ls ih =>
    intro fuel pre hf hlt
    cases fuel with
    | zero => simp at hf
    | succ f =>
      have hl : l < 2 ^ 32 := hlt l (List.mem_cons_self _ _)
      have hls : ∀ x ∈ ls, x < 2 ^ 32 := fun x hx => hlt x (List.mem_cons_of_mem _ hx)
      have hlsv := limbsValue_lt ls hls
      have hf2 : ls.length < f := by simpa using hf
      have hpow : 2 ^ (32 * (l :: ls).length) = 2 ^ 32 * 2 ^ (32 * ls.length) := by
        rw [List.length_cons, Nat.mul_succ, Nat.pow_add, Nat.mul_comm]
      have hidx : pre.length < (pre ++ l :: ls).length := by simp
      have hget : (pre ++ l :: ls).getD pre.length 0 = l := by
        rw [List.getD_append_right _ _ _ _ (Nat.le_refl _)]; simp
      have hset : ∀ v, (pre ++ l :: ls).set pre.length v = pre ++ v :: ls := by
        intro v; rw [List.set_append_right _ _ (Nat.le_refl _)]; simp
      have hget2 : ∀ v, (pre ++ v :: ls).getD pre.length 0 = v := by
        intro v; rw [List.getD_append_right _ _ _ _ (Nat.le_refl _)]; simp
      unfold ECC_NAF_carry
      simp only [hidx, if_true, hget, hset, hget2]
      by_cases hov : (l + 1) % 2 ^ 32 = 0
      · have hl1 : l + 1 = 2 ^ 32 := by omega
        simp only [hov, if_true]
        have happ : pre ++ 0 :: ls = (pre ++ [0]) ++ ls := by simp
        have hlen : pre.length + 1 = (pre ++ [0]).length := by simp
        rw [happ, hlen]
        obtain ⟨ih1, ih2⟩ := ih f (pre ++ [0]) hf2 hls
        constructor
        · intro hlt2
          rw [hpow, limbsValue] at hlt2
          have hlt3 : limbsValue ls + 1 < 2 ^ (32 * ls.length) := by nlinarith
          obtain ⟨suf2, he, hv, hlen2, hb⟩ := ih1 hlt3
          refine ⟨0 :: suf2, ?_, ?_, ?_, ?_⟩
          · rw [he]; simp
          · rw [limbsValue, limbsValue, hv]; omega
          · simp [hlen2]
          · intro x hx
            simp only [List.mem_cons] at hx
            rcases hx with rfl | hx
            · norm_num
            · exact hb x hx
        · intro hge
          apply ih2
          intro hlt3
          apply hge
          rw [hpow, limbsValue]
          nlinarith
      · simp only [hov, if_false]
        have hl1 : l + 1 < 2 ^ 32 := by omega
        constructor
        · intro _
          refine ⟨(l + 1) % 2 ^ 32 :: ls, rfl, ?_, by simp, ?_⟩
          · rw [limbsValue, limbsValue, Nat.mod_eq_of_lt hl1]; omega
          · intro x hx
            simp only [List.mem_cons] at hx
            rcases hx with rfl | hx
            · exact Nat.mod_lt _ (by norm_num)
            · exact hls x hx
        · intro hge
          exfalso
          apply hge
          rw [hpow, limbsValue]
          nlinarith

/-! ## The `naf` buffer -/

theorem naf_byte_write (B s r : Nat) (hr : r < 4) (hs : s < 4) (hB : B < 4 ^ r) :
    (B ||| (s <<< (r * 2))) % 2 ^ 8 = B + s * 4 ^ r := by
  have h4 : (4 : Nat) ^ r = 2 ^ (r * 2) := by
    rw [Nat.mul_comm, Nat.pow_mul]
  rw [h4] at hB
  rw [Nat.lor_comm, Nat.shiftLeft_eq, Nat.mul_comm s, ← Nat.mul_add_lt_is_or hB, ← h4,
    Nat.add_comm, Nat.mul_comm]
  apply Nat.mod_eq_of_lt
  rw [← h4] at hB
  interval_cases r <;> simp at hB ⊢ <;> omega

theorem nafSign_eq (naf : List Nat) (i : Nat) :
    nafSign naf i = naf.getD (i / 4) 0 / 4 ^ (i % 4) % 4 := by
  unfold nafSign
  rw [land_three, Nat.shiftRight_eq_div_pow, Nat.mul_comm, Nat.pow_mul]

theorem getD_set_eq (naf : List Nat) (a v b : Nat) (ha : a < naf.length) :
    (naf.set a v).getD b 0 = if b = a then v else naf.getD b 0 := by
  simp only [List.getD_eq_getElem?_getD, List.getElem?_set]
  by_cases hb : a = b
  · subst hb; simp [ha]
  · have hb2 : ¬ b = a := fun h => hb h.symm
    simp [hb, hb2]

theorem naf_write_spec (naf : List Nat) (i s : Nat) (hs : s < 4)
    (hi : i / 4 < naf.length) (hc : NafClean naf i) :
    (naf.set (i / 4) ((naf.getD (i / 4) 0 ||| (s <<< ((i % 4) * 2))) % 2 ^ 8)).length
      = naf.length ∧
    nafSign (naf.set (i / 4) ((naf.getD (i / 4) 0 ||| (s <<< ((i % 4) * 2))) % 2 ^ 8)) i
      = s ∧
    (∀ j < i,
      nafSign (naf.set (i / 4) ((naf.getD (i / 4) 0 ||| (s <<< ((i % 4) * 2))) % 2 ^ 8)) j
        = nafSign naf j) ∧
    NafClean (naf.set (i / 4) ((naf.getD (i / 4) 0 ||| (s <<< ((i % 4) * 2))) % 2 ^ 8))
      (i + 1) := by
  obtain ⟨hz, hB⟩ := hc
  have hr : i % 4 < 4 := Nat.mod_lt _ (by norm_num)
  rw [naf_byte_write _ s (i % 4) hr hs hB]
  refine ⟨by simp, ?_, ?_, ?_, ?_⟩
  · rw [nafSign_eq, getD_set_eq _ _ _ _ hi, if_pos rfl]
    generalize naf.getD (i / 4) 0 = B at hB ⊢
    generalize i % 4 = r at hr hB ⊢
    interval_cases r <;> simp at hB ⊢ <;> omega
  · intro j hj
    rw [nafSign_eq, nafSign_eq, getD_set_eq _ _ _ _ hi]
    by_cases hb : j / 4 = i / 4
    · rw [if_pos hb, hb]
      have hjr : j % 4 < i % 4 := by omega
      generalize naf.getD (i / 4) 0 = B at hB ⊢
      generalize i % 4 = r at hr hB hjr ⊢
      generalize j % 4 = r2 at hjr ⊢
      interval_cases r <;> interval_cases r2 <;> simp at hB ⊢ <;> omega
    · rw [if_neg hb]
  · intro b hb
    rw [getD_set_eq _ _ _ _ hi]
    have hb2 : ¬ b = i / 4 := by omega
    rw [if_neg hb2]
    apply hz
    omega
  · rw [getD_set_eq _ _ _ _ hi]
    by_cases hb : (i + 1) / 4 = i / 4
    · rw [if_pos hb]
      have hr1 : (i + 1) % 4 = i % 4 + 1 := by omega
      rw [hr1]
      have hr3 : i % 4 < 3 := by omega
      generalize naf.getD (i / 4) 0 = B at hB ⊢
      generalize i % 4 = r at hr hB hr3 ⊢
      interval_cases r <;> simp at hB ⊢ <;> omega
    · rw [if_neg hb]
      have hr1 : (i + 1) % 4 = 0 := by omega
      rw [hr1, hz _ (by omega)]
      norm_num

/-! ## The loop of `ECC_NAF` -/

/-- The digit step of `ECC_NAF` on the value `v` held by `k`: code 0 and
`k` unchanged for even `v`, code 1 and `v - 1` for `v mod 4 = 1`, code 3 and
`v + 1` for `v mod 4 = 3`, the latter leaving the buffer when
`v = 2^256 - 1`. -/
theorem ECC_NAF_digit_spec {k : List Nat} (h : LimbsWF k) :
    (limbsValue k % 2 = 0 → ECC_NAF_digit k = .ok (0, k)) ∧
    (limbsValue k % 4 = 1 → ∃ k2, ECC_NAF_digit k = .ok (1, k2) ∧ LimbsWF k2 ∧
      limbsValue k2 = limbsValue k - 1) ∧
    (limbsValue k % 4 = 3 → limbsValue k + 1 < 2 ^ 256 →
      ∃ k2, ECC_NAF_digit k = .ok (3, k2) ∧ LimbsWF k2 ∧
        limbsValue k2 = limbsValue k + 1) ∧
    (limbsValue k % 4 = 3 → ¬ limbsValue k + 1 < 2 ^ 256 →
      ECC_NAF_digit k = .error .outOfBounds) := by
  obtain ⟨l, ls, rfl, hl, hlen, hls⟩ := limb0 h
  have hlsv := limbsValue_lt ls hls
  rw [hlen] at hlsv
  simp only [limbsValue]
  have e2 : (l + 2 ^ 32 * limbsValue ls) % 2 = l % 2 := by omega
  have e4 : (l + 2 ^ 32 * limbsValue ls) % 4 = l % 4 := by omega
  rw [e2, e4]
  unfold ECC_NAF_digit
  simp only [List.getD_cons_zero, List.set_cons_zero, land_one, land_three]
  refine ⟨?_, ?_, ?_, ?_⟩
  · intro h0
    simp [h0]
  · intro h1
    have h2 : l % 2 ≠ 0 := by omega
    simp only [h2, ne_eq, not_false_eq_true, if_true, h1]
    refine ⟨_, rfl, ⟨by simpa [KEY_LENGTH_DWORDS_P256] using hlen, ?_⟩, ?_⟩
    · intro x hx
      simp only [List.mem_cons] at hx
      rcases hx with rfl | hx
      · rw [land_clear_low l hl]; omega
      · exact hls x hx
    · rw [limbsValue, land_clear_low l hl]; omega
  · intro h3 hlt
    have h2 : l % 2 ≠ 0 := by omega
    have h31 : ¬ (3 = 1) := by decide
    simp only [h2, ne_eq, not_false_eq_true, if_true, h3, h31, if_false]
    by_cases hov : (l + 1) % 2 ^ 32 = 0
    · simp only [hov, if_true]
      have hl1 : l + 1 = 2 ^ 32 := by omega
      obtain ⟨c1, _⟩ := ECC_NAF_carry_spec ls KEY_LENGTH_DWORDS_P256 [0]
        (by rw [hlen]; decide) hls
      have hc : limbsValue ls + 1 < 2 ^ (32 * ls.length) := by
        rw [hlen]; omega
      obtain ⟨suf2, he, hv, hlen2, hb⟩ := c1 hc
      simp only [List.singleton_append, List.length_singleton] at he
      rw [he]
      refine ⟨_, rfl, ⟨by simp [KEY_LENGTH_DWORDS_P256, hlen2, hlen], ?_⟩, ?_⟩
      · intro x hx
        simp only [List.mem_cons] at hx
        rcases hx with rfl | hx
        · norm_num
        · exact hb x hx
      · rw [limbsValue, hv]; omega
    · simp only [hov, if_false]
      have hl1 : l + 1 < 2 ^ 32 := by omega
      refine ⟨_, rfl, ⟨by simpa [KEY_LENGTH_DWORDS_P256] using hlen, ?_⟩, ?_⟩
      · intro x hx
        simp only [List.mem_cons] at hx
        rcases hx with rfl | hx
        · exact Nat.mod_lt _ (by norm_num)
        · exact hls x hx
      · rw [limbsValue, Nat.mod_eq_of_lt hl1]; omega
  · intro h3 hge
    have h2 : l % 2 ≠ 0 := by omega
    have h31 : ¬ (3 = 1) := by decide
    simp only [h2, ne_eq, not_false_eq_true, if_true, h3, h31, if_false]
    have hl1 : l + 1 = 2 ^ 32 := by omega
    have hov : (l + 1) % 2 ^ 32 = 0 := by omega
    simp only [hov, if_true]
    obtain ⟨_, c2⟩ := ECC_NAF_carry_spec ls KEY_LENGTH_DWORDS_P256 [0]
      (by rw [hlen]; decide) hls
    have hc : ¬ limbsValue ls + 1 < 2 ^ (32 * ls.length) := by
      rw [hlen]; omega
    have he := c2 hc
    simp only [List.singleton_append, List.length_singleton] at he
    rw [he]
    rfl

theorem ECC_NAF_digit_codes {k : List Nat} (h : LimbsWF k) (fuel : Nat)
    (hv : limbsValue k ≠ 0) (hlt : limbsValue k + 1 < 2 ^ 256) :
    ∃ s k2, ECC_NAF_digit k = .ok (s, k2) ∧ LimbsWF k2 ∧ s < 4 ∧
      nafCodes (fuel + 1) (limbsValue k) = s :: nafCodes fuel (limbsValue k2 / 2) ∧
      limbsValue k2 ≤ limbsValue k + 1 ∧
      (limbsValue k = 1 → limbsValue k2 = 0) := by
  obtain ⟨d0, d1, d3, _⟩ := ECC_NAF_digit_spec h
  by_cases h2 : limbsValue k % 2 = 1
  · by_cases h4 : limbsValue k % 4 = 1
    · obtain ⟨k2, he, hwf, hval⟩ := d1 h4
      refine ⟨1, k2, he, hwf, by norm_num, ?_, by omega, by omega⟩
      rw [nafCodes, if_neg hv, if_pos h2, if_pos h4, hval]
    · have h43 : limbsValue k % 4 = 3 := by omega
      obtain ⟨k2, he, hwf, hval⟩ := d3 h43 hlt
      refine ⟨3, k2, he, hwf, by norm_num, ?_, by omega, by omega⟩
      rw [nafCodes, if_neg hv, if_pos h2, if_neg h4, hval]
  · have h20 : limbsValue k % 2 = 0 := by omega
    refine ⟨0, k, d0 h20, h, by norm_num, ?_, by omega, by omega⟩
    rw [nafCodes, if_neg hv, if_neg h2]

/-- The `while` loop of `ECC_NAF` returns when the fuel is at least the bit
bound of the scalar plus two, and writes the codes `nafCodes` from digit
index `i` on. -/
theorem ECC_NAF_loop_spec : ∀ (fuel m : Nat) (naf k : List Nat) (i : Nat),
    LimbsWF k → limbsValue k + 1 < 2 ^ 256 →
    ((limbsValue k = 0 ∧ 1 ≤ fuel) ∨
      (limbsValue k ≤ 2 ^ m ∧ m + 2 ≤ fuel ∧ i + m < 4 * naf.length)) →
    NafClean naf i →
    ∃ naf2 k2, ECC_NAF_loop fuel naf k i =
        .ok (naf2, i + (nafCodes fuel (limbsValue k)).length, k2) ∧
      LimbsWF k2 ∧ limbsValue k2 = 0 ∧ naf2.length = naf.length ∧
      (∀ j < i, nafSign naf2 j = nafSign naf j) ∧
      (∀ j, j < (nafCodes fuel (limbsValue k)).length →
        nafSign naf2 (i + j) = (nafCodes fuel (limbsValue k)).getD j 0) ∧
      NafClean naf2 (i + (nafCodes fuel (limbsValue k)).length) := by
  intro fuel
  induction fuel with
  | zero =>
    intro m naf k i _ _ hf _
    omega
  | succ f ih =>
    intro m naf k i hwf hlt hf hc
    by_cases hv : limbsValue k = 0
    · have hms : ¬ multiprecision_most_signbits k ≥ 1 := by
        rw [most_signbits_ge_one_iff]; simp [hv]
      refine ⟨naf, k, ?_, hwf, hv, rfl, fun _ _ => rfl, ?_, ?_⟩
      · rw [ECC_NAF_loop, if_neg hms, hv]; simp [nafCodes]
      · intro j hj; rw [hv] at hj; simp [nafCodes] at hj
      · rw [hv]; simpa [nafCodes] using hc
    · have hms : multiprecision_most_signbits k ≥ 1 :=
        (most_signbits_ge_one_iff k).mpr hv
      rcases hf with ⟨h0, _⟩ | ⟨hle, hfuel, hbuf⟩
      · exact absurd h0 hv
      obtain ⟨s, k2, he, hwf2, hs, hcodes, hk2le, hk2one⟩ :=
        ECC_NAF_digit_codes hwf f hv hlt
      obtain ⟨hrv, hrwf⟩ := rshift_value hwf2
      have hidx : i / 4 < naf.length := by omega
      obtain ⟨hlen, hsign, hold, hclean⟩ := naf_write_spec naf i s hs hidx hc
      have hf2 : (limbsValue (multiprecision_rshift k2) = 0 ∧ 1 ≤ f) ∨
          (limbsValue (multiprecision_rshift k2) ≤ 2 ^ (m - 1) ∧ (m - 1) + 2 ≤ f ∧
            (i + 1) + (m - 1) <
              4 * (naf.set (i / 4)
                ((naf.getD (i / 4) 0 ||| (s <<< ((i % 4) * 2))) % 2 ^ 8)).length) := by
        rw [hrv, hlen]
        by_cases hm : m = 0
        · left
          subst hm
          have h1 : limbsValue k = 1 := by
            have : limbsValue k ≤ 1 := by simpa using hle
            omega
          rw [hk2one h1]
          exact ⟨rfl, by omega⟩
        · right
          have hpow : 2 ^ m = 2 * 2 ^ (m - 1) := by
            rw [← Nat.pow_succ']; congr 1; omega
          refine ⟨by omega, by omega, by omega⟩
      have hlt2 : limbsValue (multiprecision_rshift k2) + 1 < 2 ^ 256 := by
        rw [hrv]; omega
      obtain ⟨naf2, k3, hloop, hwf3, hv3, hlen3, hold3, hnew3, hclean3⟩ :=
        ih (m - 1) _ (multiprecision_rshift k2) (i + 1) hrwf hlt2 hf2 hclean
      rw [hrv] at hloop hnew3 hclean3
      have hlenc : (nafCodes (f + 1) (limbsValue k)).length =
          1 + (nafCodes f (limbsValue k2 / 2)).length := by
        rw [hcodes, List.length_cons, Nat.add_comm]
      refine ⟨naf2, k3, ?_, hwf3, hv3, by rw [hlen3, hlen], ?_, ?_, ?_⟩
      · rw [ECC_NAF_loop, if_pos hms, he]
        simp only [hidx, if_true]
        rw [hloop, hlenc, Nat.add_assoc]
      · intro j hj
        rw [hold3 j (by omega), hold j hj]
      · intro j hj
        rw [hcodes]
        cases j with
        | zero =>
          simp only [Nat.add_zero, List.getD_cons_zero]
          rw [hold3 i (by omega), hsign]
        | succ j =>
          simp only [List.getD_cons_succ]
          rw [hlenc] at hj
          have := hnew3 j (by omega)
          rw [← this]
          congr 1
          omega
      · rw [hlenc, ← Nat.add_assoc]; exact hclean3

/-! ## The digits of the non-adjacent form -/

theorem nafCodes_mem : ∀ (fuel v : Nat), ∀ c ∈ nafCodes fuel v, c = 0 ∨ c = 1 ∨ c = 3 := by
  intro fuel
  induction fuel with
  | zero => intro v c hc; simp [nafCodes] at hc
  | succ f ih =>
    intro v c hc
    unfold nafCodes at hc
    split_ifs at hc
    · simp at hc
    · rcases List.mem_cons.mp hc with rfl | h
      · simp
      · exact ih _ c h
    · rcases List.mem_cons.mp hc with rfl | h
      · simp
      · exact ih _ c h
    · rcases List.mem_cons.mp hc with rfl | h
      · simp
      · exact ih _ c h

theorem nafCodes_head_even (fuel v : Nat) (hv : v % 2 = 0) :
    (nafCodes fuel v).getD 0 0 = 0 := by
  cases fuel with
  | zero => simp [nafCodes]
  | succ f =>
    unfold nafCodes
    have h2 : ¬ v % 2 = 1 := by omega
    by_cases h0 : v = 0
    · simp [h0]
    · simp [h0, h2]

theorem nafCodes_nonadjacent : ∀ (fuel v j : Nat),
    (nafCodes fuel v).getD j 0 = 0 ∨ (nafCodes fuel v).getD (j + 1) 0 = 0 := by
  intro fuel
  induction fuel with
  | zero => intro v j; simp [nafCodes]
  | succ f ih =>
    intro v j
    unfold nafCodes
    by_cases h0 : v = 0
    · simp [h0]
    · simp only [h0, if_false]
      by_cases h2 : v % 2 = 1
      · simp only [h2, if_true]
        by_cases h4 : v % 4 = 1
        · simp only [h4, if_true]
          cases j with
          | zero =>
            right
            simp only [List.getD_cons_succ]
            exact nafCodes_head_even _ _ (by omega)
          | succ j => simpa using ih _ j
        · simp only [h4, if_false]
          cases j with
          | zero =>
            right
            simp only [List.getD_cons_succ]
            exact nafCodes_head_even _ _ (by omega)
          | succ j => simpa using ih _ j
      · simp only [h2, if_false]
        cases j with
        | zero => left; simp
        | succ j => simpa using ih _ j

theorem nafCodes_value : ∀ (fuel m v : Nat),
    (v = 0 ∨ (v ≤ 2 ^ m ∧ m + 1 ≤ fuel)) → codesValue (nafCodes fuel v) = (v : Int) := by
  intro fuel
  induction fuel with
  | zero =>
    intro m v h
    rcases h with rfl | ⟨_, h⟩
    · simp [nafCodes, codesValue]
    · omega
  | succ f ih =>
    intro m v h
    unfold nafCodes
    by_cases h0 : v = 0
    · simp [h0, codesValue]
    · rcases h with h | ⟨hle, hf⟩
      · exact absurd h h0
      have hnext : ∀ w : Nat, w ≤ (v + 1) / 2 → (v = 1 → w = 0) →
          codesValue (nafCodes f w) = (w : Int) := by
        intro w hw h1
        apply ih (m - 1)
        by_cases hm : m = 0
        · left
          subst hm
          have : v ≤ 1 := by simpa using hle
          exact h1 (by omega)
        · right
          have hpow : 2 ^ m = 2 * 2 ^ (m - 1) := by
            rw [← Nat.pow_succ']; congr 1; omega
          exact ⟨by omega, by omega⟩
      simp only [h0, if_false]
      by_cases h2 : v % 2 = 1
      · simp only [h2, if_true]
        by_cases h4 : v % 4 = 1
        · simp only [h4, if_true, codesValue, nafDigit]
          rw [hnext _ (by omega) (by omega)]
          norm_num
          omega
        · simp only [h4, if_false, codesValue, nafDigit]
          rw [hnext _ (by omega) (by omega)]
          norm_num
          omega
      · simp only [h2, if_false, codesValue, nafDigit]
        rw [hnext _ (by omega) (by omega)]
        norm_num
        omega

theorem nafCodes_length_le : ∀ (fuel m v : Nat), v ≤ 2 ^ m →
    (nafCodes fuel v).length ≤ m + 1 := by
  intro fuel
  induction fuel with
  | zero => intro m v _; simp [nafCodes]
  | succ f ih =>
    intro m v hle
    unfold nafCodes
    by_cases h0 : v = 0
    · simp [h0]
    · have hnext : ∀ w : Nat, w ≤ (v + 1) / 2 → (v = 1 → w = 0) →
          (nafCodes f w).length ≤ m := by
        intro w hw h1
        by_cases hm : m = 0
        · subst hm
          have : v ≤ 1 := by simpa using hle
          rw [h1 (by omega)]
          cases f <;> simp [nafCodes]
        · have hpow : 2 ^ m = 2 * 2 ^ (m - 1) := by
            rw [← Nat.pow_succ']; congr 1; omega
          have := ih (m - 1) w (by omega)
          omega
      simp only [h0, if_false]
      split_ifs
      · simpa using hnext _ (by omega) (by omega)
      · simpa using hnext _ (by omega) (by omega)
      · simpa using hnext _ (by omega) (by omega)

theorem sum_codes : ∀ (cs : List Nat) (g : Nat → Nat),
    (∀ j, j < cs.length → g j = cs.getD j 0) →
    (∑ j ∈ Finset.range cs.length, nafDigit (g j) * 2 ^ j) = codesValue cs := by
  intro cs
  induction cs with
  | nil => intro g _; simp [codesValue]
  | cons c cs ih =>
    intro g hg
    rw [List.length_cons, Finset.sum_range_succ', codesValue]
    have h0 : g 0 = c := by simpa using hg 0 (by simp)
    have hs := ih (fun j => g (j + 1)) (fun j hj => by
      simpa using hg (j + 1) (by simpa using hj))
    rw [h0, ← hs, Finset.mul_sum]
    simp only [pow_zero, mul_one]
    rw [add_comm]
    congr 1
    apply Finset.sum_congr rfl
    intro j _
    rw [pow_succ]
    ring

/-! ## Field primitives as operations of `ZMod modp` -/

theorem cast_add_mod (a b p : Nat) :
    ((multiprecision_add_mod a b p : Nat) : ZMod p) = (a : ZMod p) + b := by
  simp [multiprecision_add_mod]

theorem cast_sub_mod (a b p : Nat) (hp : 0 < p) :
    ((multiprecision_sub_mod a b p : Nat) : ZMod p) = (a : ZMod p) - b := by
  have hlt : b % p < p := Nat.mod_lt _ hp
  simp only [multiprecision_sub_mod, ZMod.natCast_mod]
  rw [Nat.cast_add, Nat.cast_sub (Nat.le_of_lt hlt), ZMod.natCast_self, ZMod.natCast_mod]
  ring

theorem cast_lshift_mod (a p : Nat) :
    ((multiprecision_lshift_mod a p : Nat) : ZMod p) = 2 * (a : ZMod p) := by
  simp [multiprecision_lshift_mod]

theorem cast_mult_mod (a b p : Nat) :
    ((multiprecision_mersenns_mult_mod a b p : Nat) : ZMod p) = (a : ZMod p) * b := by
  simp [multiprecision_mersenns_mult_mod]

theorem cast_squa_mod (a p : Nat) :
    ((multiprecision_mersenns_squa_mod a p : Nat) : ZMod p) = (a : ZMod p) * a := by
  simp [multiprecision_mersenns_squa_mod]

theorem cast_eq_iff_of_lt {a b p : Nat} (ha : a < p) (hb : b < p) :
    ((a : ZMod p) = (b : ZMod p)) ↔ a = b := by
  rw [ZMod.natCast_eq_natCast_iff', Nat.mod_eq_of_lt ha, Nat.mod_eq_of_lt hb]

theorem add_mod_lt (a b p : Nat) (hp : 0 < p) : multiprecision_add_mod a b p < p :=
  Nat.mod_lt _ hp

theorem sub_mod_lt (a b p : Nat) (hp : 0 < p) : multiprecision_sub_mod a b p < p :=
  Nat.mod_lt _ hp

theorem lshift_mod_lt (a p : Nat) (hp : 0 < p) : multiprecision_lshift_mod a p < p :=
  Nat.mod_lt _ hp

theorem mult_mod_lt (a b p : Nat) (hp : 0 < p) : multiprecision_mersenns_mult_mod a b p < p :=
  Nat.mod_lt _ hp

theorem squa_mod_lt (a p : Nat) (hp : 0 < p) : multiprecision_mersenns_squa_mod a p < p :=
  Nat.mod_lt _ hp

theorem multiprecision_compare_eq_zero (a b : Nat) :
    multiprecision_compare a b = 0 ↔ a = b := by
  unfold multiprecision_compare
  split_ifs with h1 h2
  · constructor
    · intro h; exact absurd h (by decide)
    · intro h; omega
  · constructor
    · intro h; exact absurd h (by decide)
    · intro h; omega
  · constructor
    · intro _; omega
    · intro _; rfl

theorem ECC_ValidatePoint_cast (modp b : Nat) (hp : 0 < modp) (pt : Point) :
    ECC_ValidatePoint modp b pt = true ↔
      (pt.y : ZMod modp) ^ 2 = (pt.x : ZMod modp) ^ 3 - 3 * pt.x + b := by
  unfold ECC_ValidatePoint
  simp only [decide_eq_true_eq, multiprecision_compare_eq_zero]
  rw [← cast_eq_iff_of_lt (add_mod_lt _ _ _ hp) (squa_mod_lt _ _ hp), cast_add_mod, cast_mult_mod,
    cast_sub_mod _ _ _ hp, cast_squa_mod, cast_squa_mod]
  constructor
  · intro h
    rw [pow_two, ← h]; push_cast; ring
  · intro h
    rw [← pow_two (pt.y : ZMod modp), h]; push_cast; ring

theorem powModAux_eq (m : Nat) : ∀ (fuel a e : Nat), e ≤ fuel →
    powModAux fuel a e m = a ^ e % m := by
  intro fuel
  induction fuel with
  | zero =>
    intro a e he
    have : e = 0 := by omega
    subst this
    simp [powModAux]
  | succ f ih =>
    intro a e he
    unfold powModAux
    by_cases h0 : e = 0
    · simp [h0]
    · simp only [h0, if_false]
      have hle : e / 2 ≤ f := by omega
      rw [ih _ _ hle]
      have hsq : (a * a % m) ^ (e / 2) % m = (a * a) ^ (e / 2) % m := by
        rw [Nat.pow_mod, Nat.mod_mod, ← Nat.pow_mod]
      rw [hsq, ← pow_two, ← pow_mul]
      by_cases h1 : e % 2 = 1
      · simp only [h1, if_true]
        have he2 : e = 2 * (e / 2) + 1 := by omega
        conv_rhs => rw [he2, pow_succ, Nat.mul_comm]
        rw [Nat.mul_mod, Nat.mod_mod, ← Nat.mul_mod]
      · simp only [h1, if_false]
        have he2 : 2 * (e / 2) = e := by omega
        rw [he2]

theorem multiprecision_inv_mod_eq (a modp : Nat) :
    multiprecision_inv_mod a modp = a ^ (modp - 2) % modp :=
  powModAux_eq modp modp a (modp - 2) (Nat.sub_le _ _)

theorem getD_replicate_zero (n b : Nat) : (List.replicate n 0).getD b 0 = 0 := by
  simp only [List.getD_eq_getElem?_getD, List.getElem?_replicate]
  split_ifs <;> rfl

/-- On a cleared 65-byte buffer and a scalar `k < 2^256 - 1`, `ECC_NAF`
returns with `k` shifted down to zero and the codes of `nafCodes` in `naf`. -/
theorem ECC_NAF_spec (k : List Nat) (hk : LimbsWF k) (hlt : limbsValue k < 2 ^ 256 - 1) :
    ∃ naf k2, ECC_NAF (List.replicate NAF_BYTES 0) k =
        .ok (naf, (nafCodes ECC_NAF_fuel (limbsValue k)).length, k2) ∧
      LimbsWF k2 ∧ limbsValue k2 = 0 ∧ naf.length = NAF_BYTES ∧
      (∀ j, j < (nafCodes ECC_NAF_fuel (limbsValue k)).length →
        nafSign naf j = (nafCodes ECC_NAF_fuel (limbsValue k)).getD j 0) := by
  have hclean : NafClean (List.replicate NAF_BYTES 0) 0 :=
    ⟨fun b _ => getD_replicate_zero _ _, by rw [getD_replicate_zero]; norm_num⟩
  have hle : limbsValue k ≤ 2 ^ 256 := by omega
  obtain ⟨naf, k2, he, hwf, hv, hlen, _, hnew, _⟩ :=
    ECC_NAF_loop_spec ECC_NAF_fuel 256 (List.replicate NAF_BYTES 0) k 0 hk (by omega)
      (Or.inr ⟨hle, by decide, by simp [NAF_BYTES]⟩) hclean
  refine ⟨naf, k2, ?_, hwf, hv, by simpa using hlen, ?_⟩
  · rw [ECC_NAF, he, Nat.zero_add]
  · intro j hj
    simpa using hnew j hj

/-! ## Point operations and the group law -/

open WeierstrassCurve.Affine

variable {modp b : Nat}

theorem cast_ne_zero_of_lt {a p : Nat} (h0 : a ≠ 0) (hlt : a < p) : (a : ZMod p) ≠ 0 := by
  intro h
  apply h0
  have hp : 0 < p := by omega
  have := (cast_eq_iff_of_lt hlt hp).mp (by simpa using h)
  exact this

theorem curve_negY (x y : ZMod modp) : (curve modp b).negY x y = -y := by
  simp [WeierstrassCurve.Affine.negY, curve]

/-- The doubling formulas computed by `ECC_Double` for `Z ≠ 0`, read in
`ZMod modp`. -/
theorem ECC_Double_cast (hp : 0 < modp) (q0 q : Point) (hz : q.z ≠ 0) :
    ((ECC_Double modp q0 q).x : ZMod modp) =
        (3 * ((q.x : ZMod modp) - q.z ^ 2) * (q.x + q.z ^ 2)) ^ 2 - 2 * (4 * q.x * q.y ^ 2) ∧
    ((ECC_Double modp q0 q).y : ZMod modp) =
        (3 * ((q.x : ZMod modp) - q.z ^ 2) * (q.x + q.z ^ 2)) *
          (4 * q.x * q.y ^ 2 - ((3 * ((q.x : ZMod modp) - q.z ^ 2) * (q.x + q.z ^ 2)) ^ 2
            - 2 * (4 * q.x * q.y ^ 2))) - 8 * (q.y : ZMod modp) ^ 4 ∧
    ((ECC_Double modp q0 q).z : ZMod modp) = 2 * q.y * q.z ∧
    (ECC_Double modp q0 q).z < modp := by
  simp only [ECC_Double, multiprecision_iszero, hz, decide_False, Bool.false_eq_true,
    if_false]
  refine ⟨?_, ?_, ?_, lshift_mod_lt _ _ hp⟩
  · simp only [cast_sub_mod _ _ _ hp, cast_add_mod, cast_lshift_mod, cast_mult_mod,
      cast_squa_mod]
    ring
  · simp only [cast_sub_mod _ _ _ hp, cast_add_mod, cast_lshift_mod, cast_mult_mod,
      cast_squa_mod]
    ring
  · simp only [cast_lshift_mod, cast_mult_mod]
    ring

/-- The function `ECC_Double` computes the group double. -/
theorem ECC_Double_represents [Fact modp.Prime] (q0 q : Point) (A : (curve modp b).Point)
    (h : Represents modp b q A) : Represents modp b (ECC_Double modp q0 q) (A + A) := by
  have hp : 0 < modp := (Fact.out : modp.Prime).pos
  obtain ⟨hzlt, hA⟩ := h
  cases A with
  | zero =>
    simp only at hA
    have : ECC_Double modp q0 q = { q0 with z := 0 } := by
      simp [ECC_Double, multiprecision_iszero, hA, multiprecision_init]
    rw [this]
    exact ⟨hp, rfl⟩
  | @some x y hns =>
    simp only at hA
    obtain ⟨hz, hX, hY⟩ := hA
    have hzc : (q.z : ZMod modp) ≠ 0 := cast_ne_zero_of_lt hz hzlt
    obtain ⟨hx3, hy3, hz3, hz3lt⟩ := ECC_Double_cast hp q0 q hz
    simp only [hX, hY] at hx3 hy3 hz3
    by_cases hy : y = (curve modp b).negY x y
    · rw [Point.add_self_of_Y_eq hy]
      refine ⟨hz3lt, ?_⟩
      show _ = 0
      rw [← cast_eq_iff_of_lt hz3lt hp, hz3]
      rw [curve_negY] at hy
      have h2 : 2 * y = 0 := by linear_combination hy
      push_cast
      linear_combination (q.z : ZMod modp) ^ 4 * h2
    · rw [Point.add_self_of_Y_ne hy]
      have hy2 : 2 * y ≠ 0 := by
        intro h2
        apply hy
        rw [curve_negY]
        linear_combination h2
      have hz3c : ((ECC_Double modp q0 q).z : ZMod modp) ≠ 0 := by
        rw [hz3]
        have h3 : 2 * (y * (q.z : ZMod modp) ^ 3) * q.z = (2 * y) * (q.z : ZMod modp) ^ 4 := by
          ring
        rw [h3]
        exact mul_ne_zero hy2 (pow_ne_zero _ hzc)
      have hy0 : y ≠ 0 := right_ne_zero_of_mul hy2
      have h20 : (2 : ZMod modp) ≠ 0 := left_ne_zero_of_mul hy2
      have hden : y - -y = 2 * y := by ring
      refine ⟨hz3lt, ?_, ?_, ?_⟩
      · intro h0
        apply hz3c
        rw [h0]; simp
      · rw [hx3, hz3, slope_of_Y_ne rfl hy, curve_negY, hden]
        simp only [curve, addX]
        field_simp
        ring
      · rw [hy3, hz3, slope_of_Y_ne rfl hy, curve_negY, hden]
        simp only [curve, addY, negAddY, addX, negY]
        field_simp
        ring

theorem ECC_Add_branch_q_inf (r p q : Point) (hq : q.z = 0) :
    ECC_Add modp r p q = (p, p) := by
  simp [ECC_Add, multiprecision_iszero, hq, p_256_copy_point]

theorem ECC_Add_branch_p_inf (r p q : Point) (hq : q.z ≠ 0) (hp : p.z = 0) :
    ECC_Add modp r p q = (q, p) := by
  simp [ECC_Add, multiprecision_iszero, hq, hp, p_256_copy_point]

theorem ECC_Add_branch_double (r p q : Point) (hq : q.z ≠ 0) (hp : p.z ≠ 0)
    (h1 : ECC_Add_t1 modp p q = 0) (h2 : ECC_Add_t2 modp p q = 0) :
    ECC_Add modp r p q = (ECC_Double modp r q, p) := by
  unfold ECC_Add_t1 at h1
  unfold ECC_Add_t2 at h2
  simp only [ECC_Add, multiprecision_iszero, hq, hp, h1, h2, decide_False, decide_True,
    Bool.false_eq_true, if_false, if_true]

theorem ECC_Add_branch_opposite (r p q : Point) (hq : q.z ≠ 0) (hp : p.z ≠ 0)
    (h1 : ECC_Add_t1 modp p q = 0) (h2 : ECC_Add_t2 modp p q ≠ 0) :
    ECC_Add modp r p q = ({ r with z := 0 }, p) := by
  unfold ECC_Add_t1 at h1
  unfold ECC_Add_t2 at h2
  simp only [ECC_Add, multiprecision_iszero, hq, hp, h1, h2, decide_False, decide_True,
    Bool.false_eq_true, if_false, if_true, multiprecision_init]

/-- The formulas computed by the general branch of `ECC_Add`, read in
`ZMod modp`. -/
theorem ECC_Add_cast (hm : 0 < modp) (r p q : Point) (hq : q.z ≠ 0) (hp : p.z ≠ 0)
    (h1 : ECC_Add_t1 modp p q ≠ 0) :
    ((ECC_Add modp r p q).1.x : ZMod modp) =
        (ECC_Add_t2 modp p q : ZMod modp) ^ 2 - (ECC_Add_t1 modp p q : ZMod modp) ^ 3
          - 2 * p.x * (ECC_Add_t1 modp p q : ZMod modp) ^ 2 ∧
    ((ECC_Add modp r p q).1.y : ZMod modp) =
        (ECC_Add_t2 modp p q : ZMod modp) *
          (p.x * (ECC_Add_t1 modp p q : ZMod modp) ^ 2 -
            ((ECC_Add_t2 modp p q : ZMod modp) ^ 2 - (ECC_Add_t1 modp p q : ZMod modp) ^ 3
              - 2 * p.x * (ECC_Add_t1 modp p q : ZMod modp) ^ 2))
          - p.y * (ECC_Add_t1 modp p q : ZMod modp) ^ 3 ∧
    ((ECC_Add modp r p q).1.z : ZMod modp) = p.z * (ECC_Add_t1 modp p q : ZMod modp) ∧
    (ECC_Add modp r p q).1.z < modp := by
  have h1c := h1
  unfold ECC_Add_t1 at h1c
  simp only [ECC_Add, multiprecision_iszero, hq, hp, h1c, decide_False,
    Bool.false_eq_true, if_false]
  unfold ECC_Add_t1 ECC_Add_t2
  refine ⟨?_, ?_, ?_, mult_mod_lt _ _ _ hm⟩
  · simp only [cast_sub_mod _ _ _ hm, cast_lshift_mod, cast_mult_mod, cast_squa_mod]
    ring
  · simp only [cast_sub_mod _ _ _ hm, cast_lshift_mod, cast_mult_mod, cast_squa_mod]
    ring
  · simp only [cast_sub_mod _ _ _ hm, cast_mult_mod, cast_squa_mod]

/-- The function `ECC_Add` computes the group sum of the accumulator and a
point given with `Z = 1`. -/
theorem ECC_Add_represents [Fact modp.Prime] (r0 r Q : Point) (A : (curve modp b).Point)
    {x2 y2 : ZMod modp} (h2 : (curve modp b).Nonsingular x2 y2)
    (hQx : (Q.x : ZMod modp) = x2) (hQy : (Q.y : ZMod modp) = y2) (hQz : Q.z = 1)
    (hA : Represents modp b r A) :
    Represents modp b (ECC_Add modp r0 r Q).1 (A + Point.some h2) := by
  have hpr : modp.Prime := Fact.out
  have hp : 0 < modp := hpr.pos
  have hp1 : 1 < modp := hpr.one_lt
  have hq : Q.z ≠ 0 := by rw [hQz]; exact one_ne_zero
  have hQrep : Represents modp b Q (Point.some h2) := by
    refine ⟨by omega, hq, ?_, ?_⟩
    · rw [hQx, hQz]; simp
    · rw [hQy, hQz]; simp
  obtain ⟨hzlt, hA⟩ := hA
  cases A with
  | zero =>
    simp only at hA
    rw [ECC_Add_branch_p_inf r0 r Q hq hA]
    have : (Point.zero : (curve modp b).Point) + Point.some h2 = Point.some h2 := zero_add _
    rw [this]
    exact hQrep
  | @some x1 y1 h1 =>
    simp only at hA
    obtain ⟨hz, hX, hY⟩ := hA
    have hzc : (r.z : ZMod modp) ≠ 0 := cast_ne_zero_of_lt hz hzlt
    have ht1 : (ECC_Add_t1 modp r Q : ZMod modp) = (x2 - x1) * (r.z : ZMod modp) ^ 2 := by
      unfold ECC_Add_t1
      rw [cast_sub_mod _ _ _ hp, cast_mult_mod, cast_squa_mod, hQx, hX]
      ring
    have ht2 : (ECC_Add_t2 modp r Q : ZMod modp) = (y2 - y1) * (r.z : ZMod modp) ^ 3 := by
      unfold ECC_Add_t2
      rw [cast_sub_mod _ _ _ hp, cast_mult_mod, cast_mult_mod, cast_squa_mod, hQy, hY]
      ring
    have ht1lt : ECC_Add_t1 modp r Q < modp := sub_mod_lt _ _ _ hp
    have ht2lt : ECC_Add_t2 modp r Q < modp := sub_mod_lt _ _ _ hp
    by_cases e1 : ECC_Add_t1 modp r Q = 0
    · have hx : x1 = x2 := by
        have : (x2 - x1) * (r.z : ZMod modp) ^ 2 = 0 := by rw [← ht1, e1]; simp
        rcases mul_eq_zero.mp this with h | h
        · exact (sub_eq_zero.mp h).symm
        · exact absurd (pow_eq_zero_iff (by norm_num) |>.mp h) hzc
      by_cases e2 : ECC_Add_t2 modp r Q = 0
      · have hy : y1 = y2 := by
          have : (y2 - y1) * (r.z : ZMod modp) ^ 3 = 0 := by rw [← ht2, e2]; simp
          rcases mul_eq_zero.mp this with h | h
          · exact (sub_eq_zero.mp h).symm
          · exact absurd (pow_eq_zero_iff (by norm_num) |>.mp h) hzc
        subst hx hy
        rw [ECC_Add_branch_double r0 r Q hq hz e1 e2]
        exact ECC_Double_represents r0 Q _ hQrep
      · have hy : y1 ≠ y2 := by
          intro hy
          apply e2
          rw [← cast_eq_iff_of_lt ht2lt hp, ht2, hy]
          simp
        have hneg : y1 = (curve modp b).negY x2 y2 := by
          rcases Y_eq_of_X_eq h1.1 h2.1 hx with h | h
          · exact absurd h hy
          · exact h
        rw [ECC_Add_branch_opposite r0 r Q hq hz e1 e2, Point.add_of_Y_eq hx hneg]
        exact ⟨hp, rfl⟩
    · have hx : x1 ≠ x2 := by
        intro hx
        apply e1
        rw [← cast_eq_iff_of_lt ht1lt hp, ht1, hx]
        simp
      have hxs : x1 - x2 ≠ 0 := sub_ne_zero.mpr hx
      have hxs2 : x2 - x1 ≠ 0 := sub_ne_zero.mpr (Ne.symm hx)
      obtain ⟨hx3, hy3, hz3, hz3lt⟩ := ECC_Add_cast hp r0 r Q hq hz e1
      simp only [ht1, ht2, hX, hY] at hx3 hy3
      rw [ht1] at hz3
      rw [Point.add_of_X_ne hx]
      have hz3c : ((ECC_Add modp r0 r Q).1.z : ZMod modp) ≠ 0 := by
        rw [hz3]
        exact mul_ne_zero hzc (mul_ne_zero hxs2 (pow_ne_zero _ hzc))
      refine ⟨hz3lt, ?_, ?_, ?_⟩
      · intro h0
        apply hz3c
        rw [h0]; simp
      · rw [hx3, hz3, slope_of_X_ne hx]
        simp only [curve, addX]
        field_simp
        ring
      · rw [hy3, hz3, slope_of_X_ne hx]
        simp only [curve, addY, negAddY, addX, negY]
        field_simp
        ring

theorem loop_algebra {G : Type*} [AddCommGroup G] (A B : G) (d S : Int) (i : Nat) :
    (2 : Int) ^ i • (A + A + d • B) + S • B =
      ((2 : Int) ^ (i + 1)) • A + (S + d * 2 ^ i) • B := by
  rw [pow_succ]
  module

theorem cast_inv_mod [Fact modp.Prime] (a : Nat) (ha : (a : ZMod modp) ≠ 0) :
    ((multiprecision_inv_mod a modp : Nat) : ZMod modp) = (a : ZMod modp)⁻¹ := by
  have hpr : modp.Prime := Fact.out
  rw [multiprecision_inv_mod_eq, ZMod.natCast_mod, Nat.cast_pow]
  have h1 : (a : ZMod modp) ^ (modp - 1) = 1 := ZMod.pow_card_sub_one_eq_one ha
  have h2 : modp - 1 = (modp - 2) + 1 := by have := hpr.two_le; omega
  rw [h2, pow_succ] at h1
  exact eq_inv_of_mul_eq_one_left h1

theorem cast_multiprecision_sub (y : Nat) (hm : modp < 2 ^ 256) (hy : y ≤ modp) :
    ((multiprecision_sub modp y : Nat) : ZMod modp) = -(y : ZMod modp) := by
  have e : multiprecision_sub modp y = modp - y := by
    unfold multiprecision_sub
    have : y % 2 ^ 256 = y := Nat.mod_eq_of_lt (by omega)
    rw [this]
    have h2 : modp + (2 ^ 256 - y) = (modp - y) + 2 ^ 256 := by omega
    rw [h2, Nat.add_mod_right]
    exact Nat.mod_eq_of_lt (by omega)
  rw [e, Nat.cast_sub hy, ZMod.natCast_self]
  ring

theorem ECC_PointMult_step_represents [Fact modp.Prime] (naf : List Nat) (p minus_p : Point)
    {x y : ZMod modp} (h : (curve modp b).Nonsingular x y)
    (hpx : (p.x : ZMod modp) = x) (hpy : (p.y : ZMod modp) = y) (hpz : p.z = 1)
    (hmx : (minus_p.x : ZMod modp) = x) (hmy : (minus_p.y : ZMod modp) = -y)
    (hmz : minus_p.z = 1)
    (i : Nat) (hi : i / 4 < naf.length) (qr : Point × Point) (A : (curve modp b).Point)
    (hA : Represents modp b qr.1 A) :
    ∃ qr2, ECC_PointMult_step modp naf p minus_p i qr = .ok qr2 ∧
      Represents modp b qr2.1 (A + A + nafDigit (nafSign naf i) • Point.some h) := by
  have hd := ECC_Double_represents (b := b) qr.1 (p_256_copy_point qr.1) A hA
  unfold ECC_PointMult_step
  simp only [hi, if_true]
  by_cases s1 : nafSign naf i = 1
  · simp only [s1, if_true]
    refine ⟨_, rfl, ?_⟩
    have : nafDigit 1 = 1 := rfl
    rw [this, one_zsmul]
    exact ECC_Add_represents _ _ p _ h hpx hpy hpz hd
  · by_cases s3 : nafSign naf i = 3
    · have h31 : ¬ (3 = 1) := by decide
      simp only [s3, h31, if_true, if_false]
      refine ⟨_, rfl, ?_⟩
      have : nafDigit 3 = -1 := rfl
      rw [this, neg_zsmul, one_zsmul, Point.neg_some]
      refine ECC_Add_represents _ _ minus_p _ (nonsingular_neg h) hmx ?_ hmz hd
      rw [hmy, curve_negY]
    · simp only [s1, s3, if_false]
      refine ⟨_, rfl, ?_⟩
      have : nafDigit (nafSign naf i) = 0 := by simp [nafDigit, s1, s3]
      rw [this, zero_zsmul, add_zero]
      exact hd

/-- Invariant of the double-and-add loop: after the passes for the digit
indices below `cnt`, an accumulator that stood for `A` stands for
`2^cnt • A + (Σ digit_j 2^j) • P`. -/
theorem ECC_PointMult_loop_represents [Fact modp.Prime] (naf : List Nat) (p minus_p : Point)
    {x y : ZMod modp} (h : (curve modp b).Nonsingular x y)
    (hpx : (p.x : ZMod modp) = x) (hpy : (p.y : ZMod modp) = y) (hpz : p.z = 1)
    (hmx : (minus_p.x : ZMod modp) = x) (hmy : (minus_p.y : ZMod modp) = -y)
    (hmz : minus_p.z = 1) :
    ∀ (cnt : Nat), cnt ≤ 4 * naf.length → ∀ (qr : Point × Point) (A : (curve modp b).Point),
      Represents modp b qr.1 A →
      ∃ qr2, ECC_PointMult_loop modp naf p minus_p cnt qr = .ok qr2 ∧
        Represents modp b qr2.1 (((2 : Int) ^ cnt) • A +
          (∑ j ∈ Finset.range cnt, nafDigit (nafSign naf j) * 2 ^ j) • Point.some h) := by
  intro cnt
  induction cnt with
  | zero =>
    intro _ qr A hA
    refine ⟨qr, rfl, ?_⟩
    simpa using hA
  | succ i ih =>
    intro hc qr A hA
    obtain ⟨qr1, hs, hr1⟩ := ECC_PointMult_step_represents naf p minus_p h hpx hpy hpz
      hmx hmy hmz i (by omega) qr A hA
    obtain ⟨qr2, hl, hr2⟩ := ih (by omega) qr1 _ hr1
    refine ⟨qr2, ?_, ?_⟩
    · rw [ECC_PointMult_loop, hs]; exact hl
    · rw [Finset.sum_range_succ, ← loop_algebra]
      exact hr2

theorem ECC_PointMult_acc_represents [Fact modp.Prime] (hm : modp < 2 ^ 256) (P : Point)
    (hz : P.z = 1) (hy : P.y ≤ modp)
    (h : (curve modp b).Nonsingular (P.x : ZMod modp) (P.y : ZMod modp))
    (n : List Nat) (hn : LimbsWF n) (hlt : limbsValue n < 2 ^ 256 - 1) :
    ∃ q n2, ECC_PointMult_acc modp P n = .ok (q, n2) ∧
      Represents modp b q (limbsValue n • Point.some h) ∧
      LimbsWF n2 ∧ limbsValue n2 = 0 := by
  have hp : 0 < modp := (Fact.out : modp.Prime).pos
  obtain ⟨naf, n2, he, hwf, hv, hlen, hsig⟩ := ECC_NAF_spec n hn hlt
  have hnum : (nafCodes ECC_NAF_fuel (limbsValue n)).length ≤ 4 * naf.length := by
    have := nafCodes_length_le ECC_NAF_fuel 256 (limbsValue n) (by omega)
    rw [hlen]
    simp only [NAF_BYTES]
    omega
  have h0 : Represents modp b (p_256_init_point, p_256_init_point).1
      (0 : (curve modp b).Point) := ⟨hp, rfl⟩
  obtain ⟨qr, hl, hrep⟩ := ECC_PointMult_loop_represents naf P
    ⟨multiprecision_copy P.x, multiprecision_sub modp P.y, 1⟩ h rfl rfl hz rfl
    (cast_multiprecision_sub P.y hm hy) rfl _ hnum _ _ h0
  refine ⟨qr.1, n2, ?_, ?_, hwf, hv⟩
  · simp only [ECC_PointMult_acc, he, hl]
  · rw [sum_codes _ (nafSign naf) hsig,
      nafCodes_value ECC_NAF_fuel 256 _ (Or.inr ⟨by omega, by decide⟩),
      zsmul_zero, zero_add, natCast_zsmul] at hrep
    exact hrep

theorem ECC_PointMult_finish_cast [Fact modp.Prime] (q : Point) (hz : (q.z : ZMod modp) ≠ 0) :
    ((ECC_PointMult_finish modp q).x : ZMod modp) = q.x * ((q.z : ZMod modp)⁻¹) ^ 2 ∧
    ((ECC_PointMult_finish modp q).y : ZMod modp) = q.y * ((q.z : ZMod modp)⁻¹) ^ 3 ∧
    ((ECC_PointMult_finish modp q).z : ZMod modp) = ((q.z : ZMod modp)⁻¹) ^ 3 ∧
    (ECC_PointMult_finish modp q).x < modp ∧ (ECC_PointMult_finish modp q).y < modp ∧
    (ECC_PointMult_finish modp q).z < modp := by
  have hp : 0 < modp := (Fact.out : modp.Prime).pos
  simp only [ECC_PointMult_finish]
  refine ⟨?_, ?_, ?_, mult_mod_lt _ _ _ hp, mult_mod_lt _ _ _ hp, mult_mod_lt _ _ _ hp⟩
  · simp only [cast_mult_mod, cast_squa_mod, cast_inv_mod _ hz]; ring
  · simp only [cast_mult_mod, cast_squa_mod, cast_inv_mod _ hz]; ring
  · simp only [cast_mult_mod, cast_squa_mod, cast_inv_mod _ hz]; ring

/-- The function `ECC_PointMult_Bin_NAF` returns the affine coordinates of
`k • P` whenever that multiple is not the point at infinity. -/
theorem ECC_PointMult_spec [Fact modp.Prime] (hm : modp < 2 ^ 256) (P : Point)
    (hz : P.z = 1) (hy : P.y ≤ modp)
    (h : (curve modp b).Nonsingular (P.x : ZMod modp) (P.y : ZMod modp))
    (n : List Nat) (hn : LimbsWF n) (hlt : limbsValue n < 2 ^ 256 - 1)
    (hne : limbsValue n • Point.some h ≠ 0) :
    ∃ (q : Point) (n2 : List Nat)
      (h2 : (curve modp b).Nonsingular (q.x : ZMod modp) (q.y : ZMod modp)),
      ECC_PointMult_Bin_NAF modp P n = .ok (q, n2) ∧ q.x < modp ∧ q.y < modp ∧
      limbsValue n • Point.some h = Point.some h2 := by
  obtain ⟨q, n2, he, hrep, _, _⟩ := ECC_PointMult_acc_represents (b := b) hm P hz hy h n hn hlt
  generalize limbsValue n • Point.some h = A at hrep hne ⊢
  cases A with
  | zero => exact absurd rfl hne
  | @some x2 y2 h2 =>
    obtain ⟨hzlt, hz0, hX, hY⟩ := hrep
    have hzc : (q.z : ZMod modp) ≠ 0 := cast_ne_zero_of_lt hz0 hzlt
    obtain ⟨fx, fy, _, fxlt, fylt, _⟩ := ECC_PointMult_finish_cast q hzc
    have ex : ((ECC_PointMult_finish modp q).x : ZMod modp) = x2 := by
      rw [fx, hX]; field_simp
    have ey : ((ECC_PointMult_finish modp q).y : ZMod modp) = y2 := by
      rw [fy, hY]; field_simp
    subst ex ey
    exact ⟨ECC_PointMult_finish modp q, n2, h2, by simp only [ECC_PointMult_Bin_NAF, he],
      fxlt, fylt, rfl⟩

/-! ## Primality of the P-256 modulus and of the order of the base point -/

/-- Lucas primality test, from a checked certificate and the primality of
the factors of `p - 1`. -/
theorem lucas_cert (p a : Nat) (fs : List (Nat × Nat)) (hc : lucasCheck p a fs = true)
    (hpr : List.Forall (fun qe => Nat.Prime qe.1) fs) : p.Prime := by
  simp only [lucasCheck, Bool.and_eq_true, decide_eq_true_eq, List.all_eq_true] at hc
  obtain ⟨⟨⟨hp, hprod⟩, hpow⟩, hord⟩ := hc
  have hcast : ∀ e, e ≤ p → ((a : ZMod p) ^ e = 1 ↔ powModAux p a e p = 1) := by
    intro e he
    rw [powModAux_eq p p a e he, ← Nat.cast_pow, ← ZMod.natCast_mod,
      ← Nat.cast_one (R := ZMod p), cast_eq_iff_of_lt (Nat.mod_lt _ (by omega)) hp]
  apply lucas_primality p (a : ZMod p)
  · exact (hcast _ (Nat.sub_le _ _)).mpr hpow
  · intro q hq hdvd
    rw [← hprod] at hdvd
    obtain ⟨r, hr, hqr⟩ := (Prime.dvd_prod_iff (Nat.prime_iff.mp hq)).mp hdvd
    obtain ⟨qe, hqe, rfl⟩ := List.mem_map.mp hr
    have hqp : Nat.Prime qe.1 := (List.forall_iff_forall_mem.mp hpr) qe hqe
    have : q = qe.1 := (Nat.prime_dvd_prime_iff_eq hq hqp).mp (hq.dvd_of_dvd_pow hqr)
    subst this
    intro h1
    exact hord qe hqe ((hcast _ (le_trans (Nat.div_le_self _ _) (Nat.sub_le _ _))).mp h1)

theorem prime_6700417 : Nat.Prime 6700417 :=
  lucas_cert 6700417 5 [(2, 7), (3, 1), (17449, 1)] (by decide)
    ⟨by norm_num, by norm_num, by norm_num⟩

theorem prime_204061199 : Nat.Prime 204061199 :=
  lucas_cert 204061199 11 [(2, 1), (11, 1), (23, 1), (107, 1), (3769, 1)] (by decide)
    ⟨by norm_num, by norm_num, by norm_num, by norm_num, by norm_num⟩

theorem prime_34282281433 : Nat.Prime 34282281433 :=
  lucas_cert 34282281433 17 [(2, 3), (3, 1), (7, 1), (204061199, 1)] (by decide)
    ⟨by norm_num, by norm_num, by norm_num, prime_204061199⟩

theorem prime_66417393611 : Nat.Prime 66417393611 :=
  lucas_cert 66417393611 6 [(2, 1), (5, 1), (53, 1), (173, 1), (197, 1), (3677, 1)] (by decide)
    ⟨by norm_num, by norm_num, by norm_num, by norm_num, by norm_num, by norm_num⟩

theorem prime_11290956913871 : Nat.Prime 11290956913871 :=
  lucas_cert 11290956913871 13 [(2, 1), (5, 1), (17, 1), (66417393611, 1)] (by decide)
    ⟨by norm_num, by norm_num, by norm_num, prime_66417393611⟩

theorem prime_46076956964474543 : Nat.Prime 46076956964474543 :=
  lucas_cert 46076956964474543 5 [(2, 1), (23, 1), (18169, 1), (78283, 1), (704251, 1)] (by decide)
    ⟨by norm_num, by norm_num, by norm_num, by norm_num, by norm_num⟩

theorem prime_774023187263532362759620327192479577272145303 : Nat.Prime 774023187263532362759620327192479577272145303 :=
  lucas_cert 774023187263532362759620327192479577272145303 3 [(2, 1), (3, 2), (2411, 1), (34282281433, 1), (11290956913871, 1), (46076956964474543, 1)] (by decide)
    ⟨by norm_num, by norm_num, by norm_num, prime_34282281433, prime_11290956913871, prime_46076956964474543⟩

theorem prime_835945042244614951780389953367877943453916927241 : Nat.Prime 835945042244614951780389953367877943453916927241 :=
  lucas_cert 835945042244614951780389953367877943453916927241 11 [(2, 3), (3, 3), (5, 1), (774023187263532362759620327192479577272145303, 1)] (by decide)
    ⟨by norm_num, by norm_num, by norm_num, prime_774023187263532362759620327192479577272145303⟩

theorem curve_p256_p_prime : Nat.Prime curve_p256_p :=
  lucas_cert curve_p256_p 6 [(2, 1), (3, 1), (5, 2), (17, 1), (257, 1), (641, 1), (1531, 1), (65537, 1), (490463, 1), (6700417, 1), (835945042244614951780389953367877943453916927241, 1)] (by decide)
    ⟨by norm_num, by norm_num, by norm_num, by norm_num, by norm_num, by norm_num, by norm_num, by norm_num, by norm_num, prime_6700417, prime_835945042244614951780389953367877943453916927241⟩

theorem prime_9350987 : Nat.Prime 9350987 :=
  lucas_cert 9350987 2 [(2, 1), (17, 1), (229, 1), (1201, 1)] (by decide)
    ⟨by norm_num, by norm_num, by norm_num, by norm_num⟩

theorem prime_187019741 : Nat.Prime 187019741 :=
  lucas_cert 187019741 2 [(2, 2), (5, 1), (9350987, 1)] (by decide)
    ⟨by norm_num, by norm_num, prime_9350987⟩

theorem prime_311245691 : Nat.Prime 311245691 :=
  lucas_cert 311245691 2 [(2, 1), (5, 1), (7, 1), (17, 1), (29, 2), (311, 1)] (by decide)
    ⟨by norm_num, by norm_num, by norm_num, by norm_num, by norm_num, by norm_num⟩

theorem prime_622491383 : Nat.Prime 622491383 :=
  lucas_cert 622491383 5 [(2, 1), (311245691, 1)] (by decide)
    ⟨by norm_num, prime_311245691⟩

theorem prime_3969899 : Nat.Prime 3969899 :=
  lucas_cert 3969899 2 [(2, 1), (19, 1), (104471, 1)] (by decide)
    ⟨by norm_num, by norm_num, by norm_num⟩

theorem prime_1002328039319 : Nat.Prime 1002328039319 :=
  lucas_cert 1002328039319 19 [(2, 1), (126241, 1), (3969899, 1)] (by decide)
    ⟨by norm_num, by norm_num, prime_3969899⟩

theorem prime_191039911 : Nat.Prime 191039911 :=
  lucas_cert 191039911 3 [(2, 1), (3, 1), (5, 1), (41, 1), (155317, 1)] (by decide)
    ⟨by norm_num, by norm_num, by norm_num, by norm_num, by norm_num⟩

theorem prime_208150935158385979 : Nat.Prime 208150935158385979 :=
  lucas_cert 208150935158385979 2 [(2, 1), (3, 1), (11, 1), (43, 1), (127, 1), (3023, 1), (191039911, 1)] (by decide)
    ⟨by norm_num, by norm_num, by norm_num, by norm_num, by norm_num, by norm_num, prime_191039911⟩

theorem prime_2624747550333869278416773953 : Nat.Prime 2624747550333869278416773953 :=
  lucas_cert 2624747550333869278416773953 7 [(2, 6), (3, 2), (1297, 1), (16879, 1), (208150935158385979, 1)] (by decide)
    ⟨by norm_num, by norm_num, by norm_num, by norm_num, prime_208150935158385979⟩

theorem curve_p256_n_prime : Nat.Prime curve_p256_n :=
  lucas_cert curve_p256_n 7 [(2, 4), (3, 1), (71, 1), (131, 1), (373, 1), (3407, 1), (17449, 1), (38189, 1), (187019741, 1), (622491383, 1), (1002328039319, 1), (2624747550333869278416773953, 1)] (by decide)
    ⟨by norm_num, by norm_num, by norm_num, by norm_num, by norm_num, by norm_num, by norm_num, by norm_num, prime_187019741, prime_622491383, prime_1002328039319, prime_2624747550333869278416773953⟩

/-! ## The base point of P-256 -/

theorem smul_ne_zero_of_prime_order {G : Type*} [AddGroup G] (A : G) (ord : Nat)
    (hord : ord.Prime) (hA : ord • A = 0) (hA0 : A ≠ 0) (k : Nat) (hk : ¬ ord ∣ k) :
    k • A ≠ 0 := by
  have hdvd : addOrderOf A ∣ ord := addOrderOf_dvd_of_nsmul_eq_zero hA
  have hone : addOrderOf A ≠ 1 := by
    intro h1
    exact hA0 (AddMonoid.addOrderOf_eq_one_iff.mp h1)
  have heq : addOrderOf A = ord := by
    rcases (Nat.dvd_prime hord).mp hdvd with h | h
    · exact absurd h hone
    · exact h
  intro hk0
  apply hk
  rw [← heq]
  exact addOrderOf_dvd_of_nsmul_eq_zero hk0

theorem nonsingular_of_validate {modp b : Nat} (hp : 0 < modp) (P : Point)
    (hv : ECC_ValidatePoint modp b P = true) (hy : ((2 * P.y : Nat) : ZMod modp) ≠ 0) :
    (curve modp b).Nonsingular (P.x : ZMod modp) (P.y : ZMod modp) := by
  rw [ECC_ValidatePoint_cast modp b hp] at hv
  rw [nonsingular_iff]
  refine ⟨?_, Or.inr ?_⟩
  · rw [equation_iff]
    simp only [curve]
    linear_combination hv
  · simp only [curve]
    intro h
    apply hy
    push_cast
    linear_combination h

theorem validate_of_equation {modp b : Nat} (hp : 0 < modp) (P : Point)
    (h : (curve modp b).Equation (P.x : ZMod modp) (P.y : ZMod modp)) :
    ECC_ValidatePoint modp b P = true := by
  rw [ECC_ValidatePoint_cast modp b hp]
  rw [equation_iff] at h
  simp only [curve] at h
  linear_combination h

theorem curve_p256_G_nonsingular :
    (curve curve_p256_p curve_p256_b).Nonsingular
      (curve_p256_G.x : ZMod curve_p256_p) (curve_p256_G.y : ZMod curve_p256_p) := by
  apply nonsingular_of_validate (by decide) curve_p256_G (by decide)
  rw [Ne, ZMod.natCast_zmod_eq_zero_iff_dvd]
  decide

set_option maxRecDepth 1000000 in
theorem accZ_order : accZ curve_p256_p curve_p256_G (limbsOfValue 8 curve_p256_n) = some 0 := by
  decide!

/-- The base point of P-256 is annihilated by `curve_p256_n`: the verified
loop of `ECC_PointMult_Bin_NAF`, run on that scalar, ends with `Z = 0`. -/
theorem curve_p256_G_order :
    haveI : Fact (Nat.Prime curve_p256_p) := ⟨curve_p256_p_prime⟩
    curve_p256_n • Point.some curve_p256_G_nonsingular = 0 := by
  haveI : Fact (Nat.Prime curve_p256_p) := ⟨curve_p256_p_prime⟩
  have hv : limbsValue (limbsOfValue 8 curve_p256_n) = curve_p256_n :=
    limbsValue_limbsOfValue 8 curve_p256_n (by decide)
  obtain ⟨q, n2, he, hrep, _, _⟩ := ECC_PointMult_acc_represents (b := curve_p256_b)
    (by decide) curve_p256_G rfl (by decide) curve_p256_G_nonsingular
    (limbsOfValue 8 curve_p256_n) (limbsOfValue_wf _) (by rw [hv]; decide)
  have hz : q.z = 0 := by
    have h := accZ_order
    unfold accZ at h
    rw [he] at h
    simpa using h
  rw [hv] at hrep
  generalize curve_p256_n • Point.some curve_p256_G_nonsingular = A at hrep ⊢
  cases A with
  | zero => rfl
  | some h2 => exact absurd hz hrep.2.1


/-! ## Scalar multiplication and group order -/

theorem smul_ne_zero_of_lt_order {G : Type*} [AddGroup G] (A : G) (ord : Nat)
    (hord : ord.Prime) (hA : ord • A = 0) (hA0 : A ≠ 0) (k : Nat) (h1 : 1 ≤ k)
    (h2 : k < ord) : k • A ≠ 0 := by
  apply smul_ne_zero_of_prime_order A ord hord hA hA0
  intro hdvd
  have := Nat.le_of_dvd (by omega) hdvd
  omega

theorem ECC_PointMult_second {modp b : Nat} [Fact modp.Prime] (hm : modp < 2 ^ 256)
    (G : Point) (hy : G.y < modp) (hz : G.z = 1)
    (h : (curve modp b).Nonsingular (G.x : ZMod modp) (G.y : ZMod modp))
    (ord : Nat) (hord : ord.Prime) (hord256 : ord < 2 ^ 256) (hG : ord • Point.some h = 0)
    (u v : List Nat) (hu : LimbsWF u) (hu1 : 1 ≤ limbsValue u) (hu2 : limbsValue u < ord)
    (hv : LimbsWF v) (hv1 : 1 ≤ limbsValue v) (hv2 : limbsValue v < ord) :
    ∃ (q : Point) (hq : (curve modp b).Nonsingular (q.x : ZMod modp) (q.y : ZMod modp)),
      ECC_PointMult_chain_affine modp G u v = .ok q ∧ q.x < modp ∧ q.y < modp ∧
      limbsValue v • limbsValue u • Point.some h = Point.some hq := by
  obtain ⟨q1, n1, hq1, e1, _, hy1, k1⟩ := ECC_PointMult_spec hm G hz (Nat.le_of_lt hy) h u hu
    (by omega) (smul_ne_zero_of_lt_order _ ord hord hG (Point.some_ne_zero h) _ hu1 hu2)
  have hP : ord • Point.some hq1 = 0 := by
    rw [← k1, smul_comm, hG, nsmul_zero]
  obtain ⟨q2, n2, hq2, e2, hx2, hy2, k2⟩ := ECC_PointMult_spec hm ⟨q1.x, q1.y, 1⟩ rfl
    (Nat.le_of_lt hy1) hq1 v hv (by omega)
    (smul_ne_zero_of_lt_order _ ord hord hP (Point.some_ne_zero hq1) _ hv1 hv2)
  refine ⟨q2, hq2, ?_, hx2, hy2, ?_⟩
  · simp only [ECC_PointMult_chain_affine, e1, e2]
  · rw [k1]; exact k2

theorem ECC_NAF_zero :
    ECC_NAF (List.replicate NAF_BYTES 0) [0, 0, 0, 0, 0, 0, 0, 0] =
      .ok (List.replicate NAF_BYTES 0, 0, [0, 0, 0, 0, 0, 0, 0, 0]) := by
  decide

/-! ## The claims -/

/-- C1. Scalar multiplication is correct.  Let `modp` be a prime below
`2^256`, `P = (x, y, 1)` a point of the curve `y^2 = x^3 - 3x + b` over
`ZMod modp` with canonical `y`, and `ord` the (prime) order of the group, so
that `ord • P = 0`.  For every scalar `k` with `1 ≤ k < ord`, held in the
8-limb buffer `n`, `ECC_PointMult_Bin_NAF` returns a point `q` whose
canonical `(q.x, q.y)` are the affine coordinates of the group multiple
`k • P`. -/
theorem ECC_PointMult_Bin_NAF_correct (modp b : Nat) [Fact modp.Prime] (hm : modp < 2 ^ 256)
    (P : Point) (hy : P.y < modp) (hz : P.z = 1)
    (h : (curve modp b).Nonsingular (P.x : ZMod modp) (P.y : ZMod modp))
    (ord : Nat) (hord : ord.Prime) (hord256 : ord < 2 ^ 256) (hP : ord • Point.some h = 0)
    (n : List Nat) (hn : LimbsWF n) (h1 : 1 ≤ limbsValue n) (h2 : limbsValue n < ord) :
    ∃ (q : Point) (n2 : List Nat)
      (hq : (curve modp b).Nonsingular (q.x : ZMod modp) (q.y : ZMod modp)),
      ECC_PointMult_Bin_NAF modp P n = .ok (q, n2) ∧ q.x < modp ∧ q.y < modp ∧
      limbsValue n • Point.some h = Point.some hq := by
  have hlt : limbsValue n < 2 ^ 256 - 1 := by omega
  have hne : limbsValue n • Point.some h ≠ 0 :=
    smul_ne_zero_of_lt_order _ ord hord hP (Point.some_ne_zero h) _ h1 h2
  exact ECC_PointMult_spec hm P hz (Nat.le_of_lt hy) h n hn hlt hne

/-- Witness of C1: the base point of P-256 and the scalar 5. -/
theorem ECC_PointMult_Bin_NAF_correct_witness :
    haveI : Fact (Nat.Prime curve_p256_p) := ⟨curve_p256_p_prime⟩
    curve_p256_p < 2 ^ 256 ∧ curve_p256_G.y < curve_p256_p ∧ curve_p256_G.z = 1 ∧
    Nat.Prime curve_p256_n ∧ curve_p256_n < 2 ^ 256 ∧
    curve_p256_n • Point.some curve_p256_G_nonsingular = 0 ∧
    LimbsWF [5, 0, 0, 0, 0, 0, 0, 0] ∧ 1 ≤ limbsValue [5, 0, 0, 0, 0, 0, 0, 0] ∧
    limbsValue [5, 0, 0, 0, 0, 0, 0, 0] < curve_p256_n ∧
    ∃ (q : Point) (n2 : List Nat)
      (hq : (curve curve_p256_p curve_p256_b).Nonsingular
        (q.x : ZMod curve_p256_p) (q.y : ZMod curve_p256_p)),
      ECC_PointMult_Bin_NAF curve_p256_p curve_p256_G [5, 0, 0, 0, 0, 0, 0, 0] = .ok (q, n2) ∧
      q.x < curve_p256_p ∧ q.y < curve_p256_p ∧
      limbsValue [5, 0, 0, 0, 0, 0, 0, 0] • Point.some curve_p256_G_nonsingular
        = Point.some hq :=
  ⟨by decide, by decide, rfl, curve_p256_n_prime, by decide, curve_p256_G_order,
    by decide, by decide, by decide,
    @ECC_PointMult_Bin_NAF_correct curve_p256_p curve_p256_b ⟨curve_p256_p_prime⟩
      (by decide) curve_p256_G (by decide) rfl curve_p256_G_nonsingular curve_p256_n
      curve_p256_n_prime (by decide) curve_p256_G_order [5, 0, 0, 0, 0, 0, 0, 0]
      (by decide) (by decide) (by decide)⟩

/-- C2. For every pair of values `(x, y)`, `ECC_ValidatePoint` returns true
if and only if `y^2 ≡ x^3 - 3x + b (mod p)`; the value it returns is the
comparison of `((x^2 - 3) * x + b) mod p` with `y^2 mod p`. -/
theorem ECC_ValidatePoint_iff (modp b : Nat) (hp : 0 < modp) (pt : Point) :
    (ECC_ValidatePoint modp b pt = true ↔
      (pt.y : Int) ^ 2 ≡ (pt.x : Int) ^ 3 - 3 * pt.x + b [ZMOD modp]) ∧
    ECC_ValidatePoint modp b pt =
      decide (Int.toNat ((((pt.x : Int) ^ 2 - 3) * pt.x + b) % modp) = pt.y ^ 2 % modp) := by
  have h1 : (ECC_ValidatePoint modp b pt = true ↔
      (pt.y : Int) ^ 2 ≡ (pt.x : Int) ^ 3 - 3 * pt.x + b [ZMOD modp]) := by
    rw [ECC_ValidatePoint_cast modp b hp pt, ← ZMod.intCast_eq_intCast_iff]
    push_cast
    rfl
  refine ⟨h1, ?_⟩
  rw [Bool.eq_iff_iff, h1, decide_eq_true_eq]
  have hp' : (0 : Int) < modp := by exact_mod_cast hp
  have hnn : 0 ≤ (((pt.x : Int) ^ 2 - 3) * pt.x + b) % modp := Int.emod_nonneg _ hp'.ne'
  rw [← Int.ofNat_inj, Int.toNat_of_nonneg hnn]
  push_cast
  constructor
  · intro h
    have := h.symm
    unfold Int.ModEq at this
    rw [← this]
    congr 1; ring
  · intro h
    unfold Int.ModEq
    rw [← h]
    congr 1; ring

/-- Witness of C2: the P-256 modulus and base point. -/
theorem ECC_ValidatePoint_iff_witness :
    0 < curve_p256_p ∧
    ((ECC_ValidatePoint curve_p256_p curve_p256_b curve_p256_G = true ↔
      (curve_p256_G.y : Int) ^ 2 ≡
        (curve_p256_G.x : Int) ^ 3 - 3 * curve_p256_G.x + curve_p256_b [ZMOD curve_p256_p]) ∧
    ECC_ValidatePoint curve_p256_p curve_p256_b curve_p256_G =
      decide (Int.toNat ((((curve_p256_G.x : Int) ^ 2 - 3) * curve_p256_G.x + curve_p256_b)
        % curve_p256_p) = curve_p256_G.y ^ 2 % curve_p256_p)) :=
  ⟨by decide, ECC_ValidatePoint_iff curve_p256_p curve_p256_b (by decide) curve_p256_G⟩

/-- C3, as stated, fails: for the zero scalar and the P-256 base point the
call returns `(0, 0, 0)`, which `ECC_ValidatePoint` rejects. -/
theorem ECC_PointMult_zero_scalar_invalid :
    ∃ q n, ECC_PointMult_Bin_NAF curve_p256_p curve_p256_G [0, 0, 0, 0, 0, 0, 0, 0]
        = .ok (q, n) ∧
      ECC_ValidatePoint curve_p256_p curve_p256_b q = false :=
  ⟨⟨0, 0, 0⟩, [0, 0, 0, 0, 0, 0, 0, 0], by decide, by decide⟩

/-- C3, amended.  For the P-256 base point `G` and every 8-limb scalar `k`
below `2^256 - 1` other than `0` and the order `n` of `G` (the scalars with
`k • G` at infinity), the point returned by `ECC_PointMult_Bin_NAF` is
accepted by `ECC_ValidatePoint`. -/
theorem ECC_PointMult_G_valid (n : List Nat) (hn : LimbsWF n)
    (hlt : limbsValue n < 2 ^ 256 - 1) (h0 : limbsValue n ≠ 0)
    (hN : limbsValue n ≠ curve_p256_n) :
    ∃ q n2, ECC_PointMult_Bin_NAF curve_p256_p curve_p256_G n = .ok (q, n2) ∧
      ECC_ValidatePoint curve_p256_p curve_p256_b q = true := by
  haveI : Fact (Nat.Prime curve_p256_p) := ⟨curve_p256_p_prime⟩
  have hnd : ¬ curve_p256_n ∣ limbsValue n := by
    rintro ⟨c, hc⟩
    unfold curve_p256_n at hc hN
    rcases c with _ | _ | c <;> omega
  have hne := smul_ne_zero_of_prime_order _ curve_p256_n curve_p256_n_prime
    curve_p256_G_order (Point.some_ne_zero curve_p256_G_nonsingular) _ hnd
  obtain ⟨q, n2, hq, he, _, _, _⟩ := ECC_PointMult_spec (b := curve_p256_b) (by decide)
    curve_p256_G rfl (by decide) curve_p256_G_nonsingular n hn hlt hne
  exact ⟨q, n2, he, validate_of_equation (by decide) q hq.1⟩

/-- Witness of the amended C3: the scalar 5. -/
theorem ECC_PointMult_G_valid_witness :
    LimbsWF [5, 0, 0, 0, 0, 0, 0, 0] ∧ limbsValue [5, 0, 0, 0, 0, 0, 0, 0] < 2 ^ 256 - 1 ∧
    limbsValue [5, 0, 0, 0, 0, 0, 0, 0] ≠ 0 ∧
    limbsValue [5, 0, 0, 0, 0, 0, 0, 0] ≠ curve_p256_n ∧
    ∃ q n2, ECC_PointMult_Bin_NAF curve_p256_p curve_p256_G [5, 0, 0, 0, 0, 0, 0, 0]
        = .ok (q, n2) ∧
      ECC_ValidatePoint curve_p256_p curve_p256_b q = true :=
  ⟨by decide, by decide, by decide, by decide,
    ECC_PointMult_G_valid [5, 0, 0, 0, 0, 0, 0, 0] (by decide) (by decide) (by decide)
      (by decide)⟩

/-- C4, as stated, fails: with the P-256 base point, multiplying by 2 and
handing the returned point (whose `z` field is not 1) to a multiplication by
1 gives another `x` than multiplying by 1 and then by 2. -/
theorem ECC_PointMult_chain_asymmetric :
    ∃ q1 q2,
      ECC_PointMult_chain curve_p256_p curve_p256_G
        [2, 0, 0, 0, 0, 0, 0, 0] [1, 0, 0, 0, 0, 0, 0, 0] = .ok q1 ∧
      ECC_PointMult_chain curve_p256_p curve_p256_G
        [1, 0, 0, 0, 0, 0, 0, 0] [2, 0, 0, 0, 0, 0, 0, 0] = .ok q2 ∧
      q1.x ≠ q2.x :=
  ⟨⟨7009169566475620468018030168326351859376415638856231095723739732080569240163,
     27173932704986951700876538967667342912279058486506194645285340240134399205981,
     70871577430244200286180626220071534458940657406907081085150459243368865600125⟩,
   ⟨56515219790691171413109057904011688695424810155802929973526481321309856242040,
     3377031843712258259223711451491452598088675519751548567112458094635497583569,
     54563939061988417564253505930717058424313337266673854069669345026333367589152⟩,
   by decide!, by decide!, by decide⟩

/-- C4, amended.  Shared-secret symmetry holds when the base point of the
second call is rebuilt from the affine coordinates of the first result with
`Z = 1`: for the P-256 base point and private scalars `a`, `b` in `[1, n)`,
both orders of multiplication return the same `x` and the same `y`. -/
theorem ECC_PointMult_chain_affine_symmetric (a b : List Nat)
    (ha : LimbsWF a) (ha1 : 1 ≤ limbsValue a) (ha2 : limbsValue a < curve_p256_n)
    (hb : LimbsWF b) (hb1 : 1 ≤ limbsValue b) (hb2 : limbsValue b < curve_p256_n) :
    ∃ q1 q2,
      ECC_PointMult_chain_affine curve_p256_p curve_p256_G b a = .ok q1 ∧
      ECC_PointMult_chain_affine curve_p256_p curve_p256_G a b = .ok q2 ∧
      q1.x = q2.x ∧ q1.y = q2.y := by
  haveI : Fact (Nat.Prime curve_p256_p) := ⟨curve_p256_p_prime⟩
  obtain ⟨q1, hq1, e1, hx1, hy1, k1⟩ := ECC_PointMult_second (b := curve_p256_b) (by decide)
    curve_p256_G (by decide) rfl curve_p256_G_nonsingular curve_p256_n curve_p256_n_prime
    (by decide) curve_p256_G_order b a hb hb1 hb2 ha ha1 ha2
  obtain ⟨q2, hq2, e2, hx2, hy2, k2⟩ := ECC_PointMult_second (b := curve_p256_b) (by decide)
    curve_p256_G (by decide) rfl curve_p256_G_nonsingular curve_p256_n curve_p256_n_prime
    (by decide) curve_p256_G_order a b ha ha1 ha2 hb hb1 hb2
  rw [smul_comm, k1] at k2
  have hinj := WeierstrassCurve.Affine.Point.some.inj k2
  exact ⟨q1, q2, e1, e2, (cast_eq_iff_of_lt hx1 hx2).mp hinj.1,
    (cast_eq_iff_of_lt hy1 hy2).mp hinj.2⟩

/-- Witness of the amended C4: the scalars 5 and `2^32 + 7`. -/
theorem ECC_PointMult_chain_affine_symmetric_witness :
    LimbsWF [5, 0, 0, 0, 0, 0, 0, 0] ∧ 1 ≤ limbsValue [5, 0, 0, 0, 0, 0, 0, 0] ∧
    limbsValue [5, 0, 0, 0, 0, 0, 0, 0] < curve_p256_n ∧
    LimbsWF [7, 1, 0, 0, 0, 0, 0, 0] ∧ 1 ≤ limbsValue [7, 1, 0, 0, 0, 0, 0, 0] ∧
    limbsValue [7, 1, 0, 0, 0, 0, 0, 0] < curve_p256_n ∧
    ∃ q1 q2,
      ECC_PointMult_chain_affine curve_p256_p curve_p256_G
        [7, 1, 0, 0, 0, 0, 0, 0] [5, 0, 0, 0, 0, 0, 0, 0] = .ok q1 ∧
      ECC_PointMult_chain_affine curve_p256_p curve_p256_G
        [5, 0, 0, 0, 0, 0, 0, 0] [7, 1, 0, 0, 0, 0, 0, 0] = .ok q2 ∧
      q1.x = q2.x ∧ q1.y = q2.y :=
  ⟨by decide, by decide, by decide, by decide, by decide, by decide,
    ECC_PointMult_chain_affine_symmetric [5, 0, 0, 0, 0, 0, 0, 0] [7, 1, 0, 0, 0, 0, 0, 0]
      (by decide) (by decide) (by decide) (by decide) (by decide) (by decide)⟩

/-- C6. NAF round-trip: for every 8-limb scalar `k < 2^256 - 1`, `ECC_NAF`
on a cleared buffer returns, and the signed digits read back from `naf`
(code 1 is `+1`, code 3 is `-1`, code 0 is `0`; digit `i` in bits
`2 * (i mod 4)` of byte `i / 4`) satisfy `Σ digit_i * 2^i = k` over
`i < NumNAF`. -/
theorem ECC_NAF_roundtrip (k : List Nat) (hk : LimbsWF k)
    (hlt : limbsValue k < 2 ^ 256 - 1) :
    ∃ naf NumNAF k2, ECC_NAF (List.replicate NAF_BYTES 0) k = .ok (naf, NumNAF, k2) ∧
      (∑ i ∈ Finset.range NumNAF, nafDigit (nafSign naf i) * 2 ^ i)
        = (limbsValue k : Int) := by
  obtain ⟨naf, k2, he, _, _, _, hsig⟩ := ECC_NAF_spec k hk hlt
  refine ⟨naf, _, k2, he, ?_⟩
  rw [sum_codes _ (nafSign naf) hsig]
  exact nafCodes_value ECC_NAF_fuel 256 _ (Or.inr ⟨by omega, by decide⟩)

/-- Witness of C6: the scalar 7. -/
theorem ECC_NAF_roundtrip_witness :
    LimbsWF [7, 0, 0, 0, 0, 0, 0, 0] ∧ limbsValue [7, 0, 0, 0, 0, 0, 0, 0] < 2 ^ 256 - 1 ∧
    ∃ naf NumNAF k2, ECC_NAF (List.replicate NAF_BYTES 0) [7, 0, 0, 0, 0, 0, 0, 0]
        = .ok (naf, NumNAF, k2) ∧
      (∑ i ∈ Finset.range NumNAF, nafDigit (nafSign naf i) * 2 ^ i)
        = (limbsValue [7, 0, 0, 0, 0, 0, 0, 0] : Int) :=
  ⟨by decide, by decide, ECC_NAF_roundtrip [7, 0, 0, 0, 0, 0, 0, 0] (by decide) (by decide)⟩

/-- C7. Non-adjacency: for every 8-limb scalar `k < 2^256 - 1`, in the digit
string produced by `ECC_NAF` no two consecutive positions `i`, `i + 1` below
`NumNAF` both hold a nonzero digit, and every digit code is 0, 1 or 3. -/
theorem ECC_NAF_nonadjacent (k : List Nat) (hk : LimbsWF k)
    (hlt : limbsValue k < 2 ^ 256 - 1) :
    ∃ naf NumNAF k2, ECC_NAF (List.replicate NAF_BYTES 0) k = .ok (naf, NumNAF, k2) ∧
      (∀ i, i + 1 < NumNAF → nafSign naf i = 0 ∨ nafSign naf (i + 1) = 0) ∧
      (∀ i, i < NumNAF → nafSign naf i = 0 ∨ nafSign naf i = 1 ∨ nafSign naf i = 3) := by
  obtain ⟨naf, k2, he, _, _, _, hsig⟩ := ECC_NAF_spec k hk hlt
  refine ⟨naf, _, k2, he, ?_, ?_⟩
  · intro i hi
    rw [hsig i (by omega), hsig (i + 1) hi]
    exact nafCodes_nonadjacent _ _ i
  · intro i hi
    rw [hsig i hi]
    apply nafCodes_mem ECC_NAF_fuel (limbsValue k)
    rw [List.getD_eq_getElem?_getD, List.getElem?_eq_getElem hi]
    exact List.getElem_mem _

/-- Witness of C7: the scalar 7. -/
theorem ECC_NAF_nonadjacent_witness :
    LimbsWF [7, 0, 0, 0, 0, 0, 0, 0] ∧ limbsValue [7, 0, 0, 0, 0, 0, 0, 0] < 2 ^ 256 - 1 ∧
    ∃ naf NumNAF k2, ECC_NAF (List.replicate NAF_BYTES 0) [7, 0, 0, 0, 0, 0, 0, 0]
        = .ok (naf, NumNAF, k2) ∧
      (∀ i, i + 1 < NumNAF → nafSign naf i = 0 ∨ nafSign naf (i + 1) = 0) ∧
      (∀ i, i < NumNAF → nafSign naf i = 0 ∨ nafSign naf i = 1 ∨ nafSign naf i = 3) :=
  ⟨by decide, by decide, ECC_NAF_nonadjacent [7, 0, 0, 0, 0, 0, 0, 0] (by decide) (by decide)⟩

/-- C8. The point at infinity is a two-sided identity of `ECC_Add`: with
`Q.z = 0` the output is `P` (all of `x`, `y`, `z`); with `P.z = 0` and
`Q.z ≠ 0` the output is `Q`; when both are infinity the output is `P`. -/
theorem ECC_Add_infinity (modp : Nat) (r P Q : Point) :
    (Q.z = 0 → (ECC_Add modp r P Q).1 = P) ∧
    (P.z = 0 → Q.z ≠ 0 → (ECC_Add modp r P Q).1 = Q) ∧
    (P.z = 0 → Q.z = 0 → (ECC_Add modp r P Q).1 = P) := by
  refine ⟨?_, ?_, ?_⟩
  · intro hq
    rw [ECC_Add_branch_q_inf r P Q hq]
  · intro hp hq
    rw [ECC_Add_branch_p_inf r P Q hq hp]
  · intro _ hq
    rw [ECC_Add_branch_q_inf r P Q hq]

/-- Witness of C8: the three cases on concrete points, modulus P-256. -/
theorem ECC_Add_infinity_witness :
    (ECC_Add curve_p256_p ⟨9, 9, 9⟩ ⟨1, 2, 3⟩ ⟨4, 5, 0⟩).1 = ⟨1, 2, 3⟩ ∧
    (ECC_Add curve_p256_p ⟨9, 9, 9⟩ ⟨1, 2, 0⟩ ⟨4, 5, 6⟩).1 = ⟨4, 5, 6⟩ ∧
    (ECC_Add curve_p256_p ⟨9, 9, 9⟩ ⟨1, 2, 0⟩ ⟨4, 5, 0⟩).1 = ⟨1, 2, 0⟩ :=
  ⟨(ECC_Add_infinity curve_p256_p ⟨9, 9, 9⟩ ⟨1, 2, 3⟩ ⟨4, 5, 0⟩).1 rfl,
    (ECC_Add_infinity curve_p256_p ⟨9, 9, 9⟩ ⟨1, 2, 0⟩ ⟨4, 5, 6⟩).2.1 rfl (by decide),
    (ECC_Add_infinity curve_p256_p ⟨9, 9, 9⟩ ⟨1, 2, 0⟩ ⟨4, 5, 0⟩).2.2 rfl rfl⟩

/-- C9. For every point `P` with `P.z = 0`, whatever its `x` and `y`,
`ECC_Double(q, P)` yields the point at infinity: `q.z = 0` after the call. -/
theorem ECC_Double_infinity (modp : Nat) (q P : Point) (h : P.z = 0) :
    (ECC_Double modp q P).z = 0 := by
  simp [ECC_Double, multiprecision_iszero, h, multiprecision_init]

/-- Witness of C9: a point with `z = 0` and arbitrary `x`, `y`. -/
theorem ECC_Double_infinity_witness :
    (⟨1, 2, 0⟩ : Point).z = 0 ∧ (ECC_Double curve_p256_p ⟨9, 9, 9⟩ ⟨1, 2, 0⟩).z = 0 :=
  ⟨rfl, ECC_Double_infinity curve_p256_p ⟨9, 9, 9⟩ ⟨1, 2, 0⟩ rfl⟩

/-- C10, as stated, fails: for the P-256 base point written in Jacobian
coordinates with `Z = 2`, `ECC_Add(r, P, P)` does not dispatch to doubling;
its output differs from that of `ECC_Double(r, P)`, also as a projective
point (`X_add * Z_dbl^2` and `X_dbl * Z_add^2` differ modulo `p`). -/
theorem ECC_Add_self_ne_Double_z_two :
    (ECC_Add curve_p256_p ⟨0, 0, 0⟩ curve_p256_G_z2 curve_p256_G_z2).1 ≠
      ECC_Double curve_p256_p ⟨0, 0, 0⟩ curve_p256_G_z2 ∧
    ((ECC_Add curve_p256_p ⟨0, 0, 0⟩ curve_p256_G_z2 curve_p256_G_z2).1.x *
        (ECC_Double curve_p256_p ⟨0, 0, 0⟩ curve_p256_G_z2).z ^ 2) % curve_p256_p ≠
      ((ECC_Double curve_p256_p ⟨0, 0, 0⟩ curve_p256_G_z2).x *
        (ECC_Add curve_p256_p ⟨0, 0, 0⟩ curve_p256_G_z2 curve_p256_G_z2).1.z ^ 2)
          % curve_p256_p := by
  constructor <;> decide

/-- C10, amended.  For every point `P` with `Z = 1`, the form `ECC_Add`
requires of its second operand, `ECC_Add(r, P, P)` detects the equal
operands and leaves in `r` exactly what `ECC_Double(r, P)` leaves. -/
theorem ECC_Add_self_of_z_one (modp : Nat) (hp : 1 < modp) (r P : Point) (hz : P.z = 1) :
    (ECC_Add modp r P P).1 = ECC_Double modp r P := by
  have h1 : 1 % modp = 1 := Nat.mod_eq_of_lt hp
  have hsub : ∀ a : Nat, (a + (modp - a % modp)) % modp = 0 := by
    intro a
    have : a % modp < modp := Nat.mod_lt _ (by omega)
    rw [← Nat.mod_add_mod, Nat.add_sub_cancel' (Nat.le_of_lt this), Nat.mod_self]
  simp [ECC_Add, multiprecision_iszero, hz, multiprecision_mersenns_squa_mod,
    multiprecision_mersenns_mult_mod, multiprecision_sub_mod, h1, hsub]

/-- Witness of the amended C10: the P-256 base point. -/
theorem ECC_Add_self_of_z_one_witness :
    1 < curve_p256_p ∧ curve_p256_G.z = 1 ∧
    (ECC_Add curve_p256_p ⟨0, 0, 0⟩ curve_p256_G curve_p256_G).1 =
      ECC_Double curve_p256_p ⟨0, 0, 0⟩ curve_p256_G :=
  ⟨by decide, rfl, ECC_Add_self_of_z_one curve_p256_p (by decide) ⟨0, 0, 0⟩ curve_p256_G rfl⟩

/-! ## Lemmas for the frame, bound and termination claims -/

theorem limbs_eq_zero_of_value : ∀ (k : List Nat), limbsValue k = 0 →
    k = List.replicate k.length 0 := by
  intro k
  induction k with
  | nil => intro _; rfl
  | cons l ls ih =>
    intro h
    rw [limbsValue] at h
    have hl : l = 0 := by omega
    have hls : limbsValue ls = 0 := by
      have : 2 ^ 32 * limbsValue ls = 0 := by omega
      simpa using this
    rw [List.length_cons, List.replicate_succ, hl, ← ih hls]

theorem limbs_zero_of_wf {k : List Nat} (h : LimbsWF k) (hv : limbsValue k = 0) :
    k = [0, 0, 0, 0, 0, 0, 0, 0] := by
  have := limbs_eq_zero_of_value k hv
  rw [h.1] at this
  exact this

theorem ECC_PointMult_step_ok (modp : Nat) (naf : List Nat) (p minus_p : Point) (i : Nat)
    (hi : i / 4 < naf.length) (qr : Point × Point) :
    ∃ qr2, ECC_PointMult_step modp naf p minus_p i qr = .ok qr2 := by
  unfold ECC_PointMult_step
  simp only [hi, if_true]
  split_ifs <;> exact ⟨_, rfl⟩

theorem ECC_PointMult_loop_ok (modp : Nat) (naf : List Nat) (p minus_p : Point) :
    ∀ (cnt : Nat), cnt ≤ 4 * naf.length → ∀ (qr : Point × Point),
      ∃ qr2, ECC_PointMult_loop modp naf p minus_p cnt qr = .ok qr2 := by
  intro cnt
  induction cnt with
  | zero => intro _ qr; exact ⟨qr, rfl⟩
  | succ i ih =>
    intro hc qr
    obtain ⟨qr1, h1⟩ := ECC_PointMult_step_ok modp naf p minus_p i (by omega) qr
    obtain ⟨qr2, h2⟩ := ih (by omega) qr1
    exact ⟨qr2, by rw [ECC_PointMult_loop, h1]; exact h2⟩

theorem nafNext_lt (v : Nat) (hv : v ≠ 0) : nafNext v < v := by
  unfold nafNext
  split_ifs <;> omega

theorem nafNext_cases (v : Nat) :
    nafNext v = v / 2 ∨ nafNext v = (v - 1) / 2 ∨ nafNext v = (v + 1) / 2 := by
  unfold nafNext
  split_ifs
  · right; left; rfl
  · right; right; rfl
  · left; rfl

theorem nafCodes_succ (fuel v : Nat) (hv : v ≠ 0) :
    ∃ s, nafCodes (fuel + 1) v = s :: nafCodes fuel (nafNext v) := by
  by_cases h2 : v % 2 = 1
  · by_cases h4 : v % 4 = 1
    · exact ⟨1, by rw [nafCodes, if_neg hv, if_pos h2, if_pos h4, nafNext, if_pos h2,
        if_pos h4]⟩
    · exact ⟨3, by rw [nafCodes, if_neg hv, if_pos h2, if_neg h4, nafNext, if_pos h2,
        if_neg h4]⟩
  · exact ⟨0, by rw [nafCodes, if_neg hv, if_neg h2, nafNext, if_neg h2]⟩

theorem nafCodes_length_iterate : ∀ (fuel m v : Nat),
    (v = 0 ∨ (v ≤ 2 ^ m ∧ m + 1 ≤ fuel)) →
    nafNext^[(nafCodes fuel v).length] v = 0 ∧
    ∀ j, j < (nafCodes fuel v).length → nafNext^[j] v ≠ 0 := by
  intro fuel
  induction fuel with
  | zero =>
    intro m v h
    rcases h with rfl | ⟨_, h⟩
    · simp [nafCodes]
    · omega
  | succ f ih =>
    intro m v h
    by_cases h0 : v = 0
    · subst h0
      simp [nafCodes]
    · rcases h with h | ⟨hle, hf⟩
      · exact absurd h h0
      obtain ⟨s, hs⟩ := nafCodes_succ f v h0
      have hnext : nafNext v = 0 ∨ (nafNext v ≤ 2 ^ (m - 1) ∧ (m - 1) + 1 ≤ f) := by
        by_cases hm : m = 0
        · left
          subst hm
          have h1 : v = 1 := by
            have : v ≤ 1 := by simpa using hle
            omega
          subst h1
          decide
        · right
          have hpow : 2 ^ m = 2 * 2 ^ (m - 1) := by
            rw [← Nat.pow_succ']; congr 1; omega
          refine ⟨?_, by omega⟩
          unfold nafNext
          split_ifs <;> omega
      obtain ⟨i1, i2⟩ := ih (m - 1) (nafNext v) hnext
      rw [hs, List.length_cons]
      refine ⟨?_, ?_⟩
      · rw [Function.iterate_succ_apply]; exact i1
      · intro j hj
        cases j with
        | zero => simpa using h0
        | succ j =>
          rw [Function.iterate_succ_apply]
          exact i2 j (by omega)

theorem ECC_NAF_step_value {k : List Nat} (h : LimbsWF k)
    (hlt : limbsValue k + 1 < 2 ^ 256) :
    ∃ s k2, ECC_NAF_digit k = .ok (s, k2) ∧
      limbsValue (multiprecision_rshift k2) = nafNext (limbsValue k) := by
  obtain ⟨d0, d1, d3, _⟩ := ECC_NAF_digit_spec h
  by_cases h2 : limbsValue k % 2 = 1
  · by_cases h4 : limbsValue k % 4 = 1
    · obtain ⟨k2, he, hwf, hval⟩ := d1 h4
      refine ⟨1, k2, he, ?_⟩
      rw [(rshift_value hwf).1, hval, nafNext, if_pos h2, if_pos h4]
    · have h43 : limbsValue k % 4 = 3 := by omega
      obtain ⟨k2, he, hwf, hval⟩ := d3 h43 hlt
      refine ⟨3, k2, he, ?_⟩
      rw [(rshift_value hwf).1, hval, nafNext, if_pos h2, if_neg h4]
  · have h20 : limbsValue k % 2 = 0 := by omega
    refine ⟨0, k, d0 h20, ?_⟩
    rw [(rshift_value h).1, nafNext, if_neg h2]

/-- For every modulus and base point, a scalar below `2^256 - 1` makes
`ECC_PointMult_Bin_NAF` return, with the scalar buffer left all-zero. -/
theorem ECC_PointMult_returns (modp : Nat) (p : Point) (n : List Nat) (hn : LimbsWF n)
    (hlt : limbsValue n < 2 ^ 256 - 1) :
    ∃ q, ECC_PointMult_Bin_NAF modp p n = .ok (q, [0, 0, 0, 0, 0, 0, 0, 0]) := by
  obtain ⟨naf, n2, he, hwf, hv, hlen, _⟩ := ECC_NAF_spec n hn hlt
  have hnum : (nafCodes ECC_NAF_fuel (limbsValue n)).length ≤ 4 * naf.length := by
    have := nafCodes_length_le ECC_NAF_fuel 256 (limbsValue n) (by omega)
    rw [hlen]
    simp only [NAF_BYTES]
    omega
  obtain ⟨qr, hl⟩ := ECC_PointMult_loop_ok modp naf p
    ⟨multiprecision_copy p.x, multiprecision_sub modp p.y, 1⟩ _ hnum
    (p_256_init_point, p_256_init_point)
  refine ⟨ECC_PointMult_finish modp qr.1, ?_⟩
  simp only [ECC_PointMult_Bin_NAF, ECC_PointMult_acc, he, hl, limbs_zero_of_wf hwf hv]

/-! ## Lemmas for the formula claims -/

theorem ECC_Double_lt (modp : Nat) (hp : 0 < modp) (q0 q : Point) (hz : q.z ≠ 0) :
    (ECC_Double modp q0 q).x < modp ∧ (ECC_Double modp q0 q).y < modp := by
  simp only [ECC_Double, multiprecision_iszero, hz, decide_False, Bool.false_eq_true,
    if_false]
  exact ⟨sub_mod_lt _ _ _ hp, sub_mod_lt _ _ _ hp⟩

theorem cast_ECC_Add_t1 (modp : Nat) (hm : 0 < modp) (P Q : Point) :
    (ECC_Add_t1 modp P Q : ZMod modp) = ECC_Add_H modp P Q := by
  unfold ECC_Add_t1 ECC_Add_H
  rw [cast_sub_mod _ _ _ hm, cast_mult_mod, cast_squa_mod]
  ring

theorem cast_ECC_Add_t2 (modp : Nat) (hm : 0 < modp) (P Q : Point) :
    (ECC_Add_t2 modp P Q : ZMod modp) = ECC_Add_R modp P Q := by
  unfold ECC_Add_t2 ECC_Add_R
  rw [cast_sub_mod _ _ _ hm, cast_mult_mod, cast_mult_mod, cast_squa_mod]
  ring

theorem ECC_Add_t1_eq_zero_iff (modp : Nat) (hm : 0 < modp) (P Q : Point) :
    ECC_Add_t1 modp P Q = 0 ↔ ECC_Add_H modp P Q = 0 := by
  have hlt : ECC_Add_t1 modp P Q < modp := sub_mod_lt _ _ _ hm
  rw [← cast_ECC_Add_t1 modp hm, ← cast_eq_iff_of_lt hlt hm]
  simp

theorem ECC_Add_t2_eq_zero_iff (modp : Nat) (hm : 0 < modp) (P Q : Point) :
    ECC_Add_t2 modp P Q = 0 ↔ ECC_Add_R modp P Q = 0 := by
  have hlt : ECC_Add_t2 modp P Q < modp := sub_mod_lt _ _ _ hm
  rw [← cast_ECC_Add_t2 modp hm, ← cast_eq_iff_of_lt hlt hm]
  simp

theorem ECC_Add_lt (modp : Nat) (hm : 0 < modp) (r p q : Point) (hq : q.z ≠ 0)
    (hp : p.z ≠ 0) (h1 : ECC_Add_t1 modp p q ≠ 0) :
    (ECC_Add modp r p q).1.x < modp ∧ (ECC_Add modp r p q).1.y < modp := by
  unfold ECC_Add_t1 at h1
  simp only [ECC_Add, multiprecision_iszero, hq, hp, h1, decide_False,
    Bool.false_eq_true, if_false]
  exact ⟨sub_mod_lt _ _ _ hm, sub_mod_lt _ _ _ hm⟩

theorem ECC_Double_z_lt (modp : Nat) (hm : 0 < modp) (q0 q : Point) :
    (ECC_Double modp q0 q).z < modp := by
  unfold ECC_Double
  split_ifs
  · exact hm
  · exact lshift_mod_lt _ _ hm

theorem ECC_Add_z_lt (modp : Nat) (hm : 0 < modp) (r p q : Point) (hp : p.z < modp)
    (hq : q.z < modp) : (ECC_Add modp r p q).1.z < modp := by
  unfold ECC_Add
  simp only [p_256_copy_point]
  split_ifs
  · exact hp
  · exact hq
  · exact ECC_Double_z_lt modp hm r q
  · exact hm
  · exact mult_mod_lt _ _ _ hm

theorem ECC_PointMult_step_z_lt (modp : Nat) (hm : 1 < modp) (naf : List Nat)
    (p minus_p : Point) (hp : p.z < modp) (hmp : minus_p.z < modp) (i : Nat)
    (qr qr2 : Point × Point)
    (h : ECC_PointMult_step modp naf p minus_p i qr = .ok qr2) : qr2.1.z < modp := by
  have hm0 : 0 < modp := by omega
  have hd := ECC_Double_z_lt modp hm0 qr.1 (p_256_copy_point qr.1)
  unfold ECC_PointMult_step at h
  simp only [p_256_copy_point] at h hd
  split_ifs at h
  · injection h with h; rw [← h]; exact ECC_Add_z_lt modp hm0 _ _ _ hd hp
  · injection h with h; rw [← h]; exact ECC_Add_z_lt modp hm0 _ _ _ hd hmp
  · injection h with h; rw [← h]; exact hd

theorem ECC_PointMult_loop_z_lt (modp : Nat) (hm : 1 < modp) (naf : List Nat)
    (p minus_p : Point) (hp : p.z < modp) (hmp : minus_p.z < modp) :
    ∀ (cnt : Nat) (qr qr2 : Point × Point), qr.1.z < modp →
      ECC_PointMult_loop modp naf p minus_p cnt qr = .ok qr2 → qr2.1.z < modp := by
  intro cnt
  induction cnt with
  | zero =>
    intro qr qr2 h0 h
    unfold ECC_PointMult_loop at h
    injection h with h
    rw [← h]; exact h0
  | succ i ih =>
    intro qr qr2 _ h
    unfold ECC_PointMult_loop at h
    cases hs : ECC_PointMult_step modp naf p minus_p i qr with
    | error e => rw [hs] at h; simp at h
    | ok qr1 =>
      rw [hs] at h
      exact ih qr1 qr2 (ECC_PointMult_step_z_lt modp hm naf p minus_p hp hmp i qr qr1 hs) h

theorem ECC_PointMult_acc_z_lt (modp : Nat) (hm : 1 < modp) (p : Point) (hp : p.z < modp)
    (n n2 : List Nat) (acc : Point) (h : ECC_PointMult_acc modp p n = .ok (acc, n2)) :
    acc.z < modp := by
  unfold ECC_PointMult_acc at h
  simp only at h
  cases he : ECC_NAF (List.replicate NAF_BYTES 0) n with
  | error e => rw [he] at h; simp at h
  | ok res =>
    obtain ⟨naf, num, k2⟩ := res
    rw [he] at h
    simp only at h
    cases hl : ECC_PointMult_loop modp naf p
        ⟨multiprecision_copy p.x, multiprecision_sub modp p.y, 1⟩ num
        (p_256_init_point, p_256_init_point) with
    | error e => rw [hl] at h; simp at h
    | ok qr =>
      rw [hl] at h
      simp only at h
      injection h with h
      have h1 : qr.1 = acc := (Prod.mk.inj h).1
      rw [← h1]
      exact ECC_PointMult_loop_z_lt modp hm naf p _ hp hm num _ qr (by
        show (0 : Nat) < modp
        omega) hl

theorem inv_mod_mul_self {modp : Nat} [Fact modp.Prime] (z : Nat) (hz : z ≠ 0)
    (hlt : z < modp) : (z * multiprecision_inv_mod z modp) % modp = 1 := by
  have hpr : modp.Prime := Fact.out
  have hzc : (z : ZMod modp) ≠ 0 := cast_ne_zero_of_lt hz hlt
  have h1 : ((z * multiprecision_inv_mod z modp : Nat) : ZMod modp) = ((1 : Nat) : ZMod modp) := by
    rw [Nat.cast_mul, cast_inv_mod z hzc, Nat.cast_one]
    exact mul_inv_cancel₀ hzc
  rw [ZMod.natCast_eq_natCast_iff'] at h1
  rw [h1]
  exact Nat.mod_eq_of_lt hpr.one_lt

/-! ## The argument buffers the functions only read -/

theorem ECC_Add_mem_eq (modp : Nat) (r p q : Point) :
    ECC_Add_mem modp r p q = ((ECC_Add modp r p q).1, (ECC_Add modp r p q).2, q) := by
  unfold ECC_Add_mem ECC_Add
  simp only
  split_ifs <;> rfl

theorem ECC_PointMult_step_mem_eq (modp : Nat) (naf : List Nat) (i : Nat)
    (q r p minus_p : Point) :
    ECC_PointMult_step_mem modp naf i (q, r, p, minus_p) =
      match ECC_PointMult_step modp naf p minus_p i (q, r) with
      | .error e => .error e
      | .ok qr => .ok (qr.1, qr.2, p, minus_p) := by
  unfold ECC_PointMult_step_mem ECC_PointMult_step
  simp only [ECC_Add_mem_eq]
  split_ifs <;> rfl

theorem ECC_PointMult_loop_mem_eq (modp : Nat) (naf : List Nat) (p minus_p : Point) :
    ∀ (cnt : Nat) (q r : Point),
      ECC_PointMult_loop_mem modp naf cnt (q, r, p, minus_p) =
        match ECC_PointMult_loop modp naf p minus_p cnt (q, r) with
        | .error e => .error e
        | .ok qr => .ok (qr.1, qr.2, p, minus_p) := by
  intro cnt
  induction cnt with
  | zero => intro q r; rfl
  | succ i ih =>
    intro q r
    rw [ECC_PointMult_loop_mem, ECC_PointMult_loop, ECC_PointMult_step_mem_eq]
    cases hs : ECC_PointMult_step modp naf p minus_p i (q, r) with
    | error e => rfl
    | ok qr => exact ih qr.1 qr.2

/-- The buffer-level function agrees with `ECC_PointMult_Bin_NAF` on `q` and
`n`, and leaves the base point as it was. -/
theorem ECC_PointMult_Bin_NAF_mem_eq (modp : Nat) (p : Point) (n : List Nat) :
    ECC_PointMult_Bin_NAF_mem modp p n =
      match ECC_PointMult_Bin_NAF modp p n with
      | .error e => .error e
      | .ok (q, n2) => .ok (q, p, n2) := by
  unfold ECC_PointMult_Bin_NAF_mem ECC_PointMult_Bin_NAF ECC_PointMult_acc
  simp only
  cases he : ECC_NAF (List.replicate NAF_BYTES 0) n with
  | error e => rfl
  | ok res =>
    obtain ⟨naf, num, k2⟩ := res
    simp only
    rw [ECC_PointMult_loop_mem_eq]
    cases hl : ECC_PointMult_loop modp naf p
        ⟨multiprecision_copy p.x, multiprecision_sub modp p.y, 1⟩ num
        (p_256_init_point, p_256_init_point) with
    | error e => rfl
    | ok qr => rfl

/-! ## The claims C11 to C20 -/

/-- C11, as stated, fails: this point of P-256 passes `ECC_ValidatePoint`,
and so does the point with `x` perturbed by 1 (it lies on the curve as well,
since `3 x^2 + 3 x - 2 ≡ 0`). -/
theorem ECC_ValidatePoint_accepts_x_plus_one :
    ECC_ValidatePoint curve_p256_p curve_p256_b
      ⟨0xc2d4e5b3062ee290251b94dc8b2cb44f4800d9442352323d93dccd858584daa3,
       0x67f71800eb046fb7de105cfbbb66fb4693369198f6ba0b3d84ab1a6bf7fe7b19, 1⟩ = true ∧
    ECC_ValidatePoint curve_p256_p curve_p256_b
      ⟨0xc2d4e5b3062ee290251b94dc8b2cb44f4800d9442352323d93dccd858584daa3 + 1,
       0x67f71800eb046fb7de105cfbbb66fb4693369198f6ba0b3d84ab1a6bf7fe7b19, 1⟩ = true := by
  constructor <;> decide

/-- C11, amended.  For every point `(x, y)` of the curve
`y^2 = x^3 - 3x + b (mod p)`, `ECC_ValidatePoint` is true; the point with
`x` replaced by `x ± 1` is rejected unless `3 x^2 ± 3 x - 2 ≡ 0 (mod p)`,
and the point with `y` replaced by `y ± 1` is rejected unless
`2 y ± 1 ≡ 0 (mod p)`, the cases in which the perturbed point is itself on
the curve. -/
theorem ECC_ValidatePoint_perturbed (modp b : Nat) (hp : 0 < modp) (x y z : Nat)
    (hv : (y : ZMod modp) ^ 2 = (x : ZMod modp) ^ 3 - 3 * x + b) :
    ECC_ValidatePoint modp b ⟨x, y, z⟩ = true ∧
    (ECC_ValidatePoint modp b ⟨x + 1, y, z⟩ = true ↔
      3 * (x : ZMod modp) ^ 2 + 3 * x - 2 = 0) ∧
    (1 ≤ x → (ECC_ValidatePoint modp b ⟨x - 1, y, z⟩ = true ↔
      3 * (x : ZMod modp) ^ 2 - 3 * x - 2 = 0)) ∧
    (ECC_ValidatePoint modp b ⟨x, y + 1, z⟩ = true ↔ 2 * (y : ZMod modp) + 1 = 0) ∧
    (1 ≤ y → (ECC_ValidatePoint modp b ⟨x, y - 1, z⟩ = true ↔
      2 * (y : ZMod modp) - 1 = 0)) := by
  refine ⟨?_, ?_, ?_, ?_, ?_⟩
  · rw [ECC_ValidatePoint_cast modp b hp]; exact hv
  · rw [ECC_ValidatePoint_cast modp b hp]
    push_cast
    constructor
    · intro h; linear_combination hv - h
    · intro h; linear_combination hv - h
  · intro hx
    rw [ECC_ValidatePoint_cast modp b hp]
    show _ ^ 2 = ((x - 1 : Nat) : ZMod modp) ^ 3 - 3 * ((x - 1 : Nat) : ZMod modp) + _ ↔ _
    rw [Nat.cast_sub hx]
    push_cast
    constructor
    · intro h; linear_combination h - hv
    · intro h; linear_combination hv + h
  · rw [ECC_ValidatePoint_cast modp b hp]
    push_cast
    constructor
    · intro h; linear_combination h - hv
    · intro h; linear_combination hv + h
  · intro hy
    rw [ECC_ValidatePoint_cast modp b hp]
    show ((y - 1 : Nat) : ZMod modp) ^ 2 = _ ↔ _
    rw [Nat.cast_sub hy]
    push_cast
    constructor
    · intro h; linear_combination hv - h
    · intro h; linear_combination hv - h

/-- Witness of the amended C11: the P-256 base point. -/
theorem ECC_ValidatePoint_perturbed_witness :
    0 < curve_p256_p ∧
    ((curve_p256_G.y : ZMod curve_p256_p) ^ 2 =
      (curve_p256_G.x : ZMod curve_p256_p) ^ 3 - 3 * curve_p256_G.x + curve_p256_b) ∧
    ECC_ValidatePoint curve_p256_p curve_p256_b ⟨curve_p256_G.x, curve_p256_G.y, 1⟩ = true ∧
    (ECC_ValidatePoint curve_p256_p curve_p256_b ⟨curve_p256_G.x, curve_p256_G.y + 1, 1⟩
      = true ↔ 2 * (curve_p256_G.y : ZMod curve_p256_p) + 1 = 0) :=
  have hv := (ECC_ValidatePoint_cast curve_p256_p curve_p256_b (by decide) curve_p256_G).mp
    (by decide)
  ⟨by decide, hv,
    (ECC_ValidatePoint_perturbed curve_p256_p curve_p256_b (by decide)
      curve_p256_G.x curve_p256_G.y 1 hv).1,
    (ECC_ValidatePoint_perturbed curve_p256_p curve_p256_b (by decide)
      curve_p256_G.x curve_p256_G.y 1 hv).2.2.2.1⟩

/-- C12, as stated, fails: after multiplying the P-256 base point by the
scalar 1 the scalar buffer no longer holds 1. -/
theorem ECC_PointMult_clears_scalar_one :
    ∃ q n2, ECC_PointMult_Bin_NAF curve_p256_p curve_p256_G [1, 0, 0, 0, 0, 0, 0, 0]
        = .ok (q, n2) ∧ n2 ≠ [1, 0, 0, 0, 0, 0, 0, 0] :=
  ⟨curve_p256_G, [0, 0, 0, 0, 0, 0, 0, 0], by decide, by decide⟩

/-- C12, amended.  `ECC_PointMult_Bin_NAF` writes its output point and
the scalar buffer: for every modulus, base point and 8-limb scalar below
`2^256 - 1` the call returns with all 8 limbs of `n` zero, so a nonzero
scalar is not preserved; the base point `p`, behind a `const` pointer,
holds after the call the values it held before. -/
theorem ECC_PointMult_consumes_scalar (modp : Nat) (p : Point) (n : List Nat)
    (hn : LimbsWF n) (hlt : limbsValue n < 2 ^ 256 - 1) :
    ∃ q n2, ECC_PointMult_Bin_NAF_mem modp p n = .ok (q, p, n2) ∧
      ECC_PointMult_Bin_NAF modp p n = .ok (q, n2) ∧
      n2 = [0, 0, 0, 0, 0, 0, 0, 0] ∧ (limbsValue n ≠ 0 → n2 ≠ n) := by
  obtain ⟨q, hq⟩ := ECC_PointMult_returns modp p n hn hlt
  refine ⟨q, _, ?_, hq, rfl, ?_⟩
  · rw [ECC_PointMult_Bin_NAF_mem_eq, hq]
  · intro hv heq
    apply hv
    rw [← heq]
    rfl

/-- Witness of the amended C12: the P-256 base point and the scalar 5. -/
theorem ECC_PointMult_consumes_scalar_witness :
    LimbsWF [5, 0, 0, 0, 0, 0, 0, 0] ∧ limbsValue [5, 0, 0, 0, 0, 0, 0, 0] < 2 ^ 256 - 1 ∧
    ∃ q n2, ECC_PointMult_Bin_NAF_mem curve_p256_p curve_p256_G [5, 0, 0, 0, 0, 0, 0, 0]
        = .ok (q, curve_p256_G, n2) ∧
      ECC_PointMult_Bin_NAF curve_p256_p curve_p256_G [5, 0, 0, 0, 0, 0, 0, 0]
        = .ok (q, n2) ∧
      n2 = [0, 0, 0, 0, 0, 0, 0, 0] ∧
      (limbsValue [5, 0, 0, 0, 0, 0, 0, 0] ≠ 0 → n2 ≠ [5, 0, 0, 0, 0, 0, 0, 0]) :=
  ⟨by decide, by decide,
    ECC_PointMult_consumes_scalar curve_p256_p curve_p256_G [5, 0, 0, 0, 0, 0, 0, 0]
      (by decide) (by decide)⟩

/-- C13, as stated, fails: the scalar `3 * 2^254` has 257 NAF digits
(`-1` at position 254 and `+1` at position 256). -/
theorem ECC_NAF_257_digits :
    ∃ naf NumNAF k2,
      ECC_NAF (List.replicate NAF_BYTES 0) [0, 0, 0, 0, 0, 0, 0, 0xC0000000]
        = .ok (naf, NumNAF, k2) ∧ ¬ NumNAF ≤ 256 :=
  ⟨List.replicate 63 0 ++ [48, 1], 257, [0, 0, 0, 0, 0, 0, 0, 0], by decide, by decide⟩

/-- C13, amended.  For every 8-limb scalar below `2^256 - 1`, `ECC_NAF`
emits at most 257 digits, so the double-and-add loop of
`ECC_PointMult_Bin_NAF`, which makes `NumNAF` passes, runs at most 257
times. -/
theorem ECC_NAF_at_most_257_digits (k : List Nat) (hk : LimbsWF k)
    (hlt : limbsValue k < 2 ^ 256 - 1) :
    ∃ naf NumNAF k2, ECC_NAF (List.replicate NAF_BYTES 0) k = .ok (naf, NumNAF, k2) ∧
      NumNAF ≤ 257 := by
  obtain ⟨naf, k2, he, _, _, _, _⟩ := ECC_NAF_spec k hk hlt
  exact ⟨naf, _, k2, he, nafCodes_length_le ECC_NAF_fuel 256 (limbsValue k) (by omega)⟩

/-- Witness of the amended C13: the scalar `3 * 2^254`. -/
theorem ECC_NAF_at_most_257_digits_witness :
    LimbsWF [0, 0, 0, 0, 0, 0, 0, 0xC0000000] ∧
    limbsValue [0, 0, 0, 0, 0, 0, 0, 0xC0000000] < 2 ^ 256 - 1 ∧
    ∃ naf NumNAF k2,
      ECC_NAF (List.replicate NAF_BYTES 0) [0, 0, 0, 0, 0, 0, 0, 0xC0000000]
        = .ok (naf, NumNAF, k2) ∧ NumNAF ≤ 257 :=
  ⟨by decide, by decide,
    ECC_NAF_at_most_257_digits [0, 0, 0, 0, 0, 0, 0, 0xC0000000] (by decide) (by decide)⟩

/-- C14. For every Jacobian point `P = (X1, Y1, Z1)` with `Z1 ≠ 0`,
`ECC_Double` computes, modulo the prime `p` and in canonical range, the
doubling formulas for `a = -3`: with `M = 3 (X1 - Z1^2) (X1 + Z1^2)` and
`S = 4 X1 Y1^2`, `X3 = M^2 - 2S`, `Y3 = M (S - X3) - 8 Y1^4`,
`Z3 = 2 Y1 Z1`; and when `P` stands for the group element `A` of the curve,
the result stands for `2 • A`. -/
theorem ECC_Double_formulas (modp b : Nat) [Fact modp.Prime] (q0 P : Point)
    (hz : P.z ≠ 0) :
    ((ECC_Double modp q0 P).x : ZMod modp) =
      ECC_Double_M modp P ^ 2 - 2 * ECC_Double_S modp P ∧
    ((ECC_Double modp q0 P).y : ZMod modp) =
      ECC_Double_M modp P * (ECC_Double_S modp P - ((ECC_Double modp q0 P).x : ZMod modp))
        - 8 * (P.y : ZMod modp) ^ 4 ∧
    ((ECC_Double modp q0 P).z : ZMod modp) = 2 * (P.y : ZMod modp) * (P.z : ZMod modp) ∧
    (ECC_Double modp q0 P).x < modp ∧ (ECC_Double modp q0 P).y < modp ∧
    (ECC_Double modp q0 P).z < modp ∧
    ∀ A : (curve modp b).Point, Represents modp b P A →
      Represents modp b (ECC_Double modp q0 P) (2 • A) := by
  have hp : 0 < modp := (Fact.out : modp.Prime).pos
  obtain ⟨hx, hy, hz3, hzlt⟩ := ECC_Double_cast hp q0 P hz
  obtain ⟨hxlt, hylt⟩ := ECC_Double_lt modp hp q0 P hz
  refine ⟨?_, ?_, hz3, hxlt, hylt, hzlt, ?_⟩
  · rw [hx, ECC_Double_M, ECC_Double_S]
  · rw [hy, hx, ECC_Double_M, ECC_Double_S]
  · intro A hA
    rw [two_nsmul]
    exact ECC_Double_represents q0 P A hA

/-- Witness of C14: the P-256 base point. -/
theorem ECC_Double_formulas_witness :
    haveI : Fact (Nat.Prime curve_p256_p) := ⟨curve_p256_p_prime⟩
    curve_p256_G.z ≠ 0 ∧
    ((ECC_Double curve_p256_p ⟨0, 0, 0⟩ curve_p256_G).z : ZMod curve_p256_p) =
      2 * (curve_p256_G.y : ZMod curve_p256_p) * (curve_p256_G.z : ZMod curve_p256_p) ∧
    ∀ A : (curve curve_p256_p curve_p256_b).Point,
      Represents curve_p256_p curve_p256_b curve_p256_G A →
      Represents curve_p256_p curve_p256_b
        (ECC_Double curve_p256_p ⟨0, 0, 0⟩ curve_p256_G) (2 • A) :=
  ⟨by decide,
    (@ECC_Double_formulas curve_p256_p curve_p256_b ⟨curve_p256_p_prime⟩ ⟨0, 0, 0⟩
      curve_p256_G (by decide)).2.2.1,
    (@ECC_Double_formulas curve_p256_p curve_p256_b ⟨curve_p256_p_prime⟩ ⟨0, 0, 0⟩
      curve_p256_G (by decide)).2.2.2.2.2.2⟩

/-- C15. For every Jacobian point `P = (X1, Y1, Z1)` with `Z1 ≠ 0` and
every `Q = (x2, y2)` with `Z = 1`, writing `H = x2 Z1^2 - X1` and
`R = y2 Z1^3 - Y1` modulo the prime `p`, with `H ≠ 0`, `ECC_Add` returns in
canonical range `X3 = R^2 - H^3 - 2 X1 H^2`,
`Y3 = R (X1 H^2 - X3) - Y1 H^3`, `Z3 = Z1 H`; and when `P` stands for the
group element `A` and `Q` is a point of the curve, the result stands for
`A + Q`. -/
theorem ECC_Add_formulas (modp b : Nat) [Fact modp.Prime] (r P Q : Point)
    (hz : P.z ≠ 0) (hq : Q.z = 1) (hH : ECC_Add_H modp P Q ≠ 0) :
    ((ECC_Add modp r P Q).1.x : ZMod modp) =
      ECC_Add_R modp P Q ^ 2 - ECC_Add_H modp P Q ^ 3
        - 2 * (P.x : ZMod modp) * ECC_Add_H modp P Q ^ 2 ∧
    ((ECC_Add modp r P Q).1.y : ZMod modp) =
      ECC_Add_R modp P Q *
          ((P.x : ZMod modp) * ECC_Add_H modp P Q ^ 2 - ((ECC_Add modp r P Q).1.x : ZMod modp))
        - (P.y : ZMod modp) * ECC_Add_H modp P Q ^ 3 ∧
    ((ECC_Add modp r P Q).1.z : ZMod modp) = (P.z : ZMod modp) * ECC_Add_H modp P Q ∧
    (ECC_Add modp r P Q).1.x < modp ∧ (ECC_Add modp r P Q).1.y < modp ∧
    (ECC_Add modp r P Q).1.z < modp ∧
    ∀ (A : (curve modp b).Point)
      (hQ : (curve modp b).Nonsingular (Q.x : ZMod modp) (Q.y : ZMod modp)),
      Represents modp b P A →
      Represents modp b (ECC_Add modp r P Q).1 (A + Point.some hQ) := by
  have hm : 0 < modp := (Fact.out : modp.Prime).pos
  have hq0 : Q.z ≠ 0 := by rw [hq]; exact one_ne_zero
  have h1 : ECC_Add_t1 modp P Q ≠ 0 := fun h => hH ((ECC_Add_t1_eq_zero_iff modp hm P Q).mp h)
  obtain ⟨hx, hy, hz3, hzlt⟩ := ECC_Add_cast hm r P Q hq0 hz h1
  obtain ⟨hxlt, hylt⟩ := ECC_Add_lt modp hm r P Q hq0 hz h1
  rw [cast_ECC_Add_t1 modp hm, cast_ECC_Add_t2 modp hm] at hx hy
  rw [cast_ECC_Add_t1 modp hm] at hz3
  refine ⟨hx, ?_, hz3, hxlt, hylt, hzlt, ?_⟩
  · rw [hy, hx]
  · intro A hQ hA
    exact ECC_Add_represents r P Q A hQ rfl rfl hq hA

/-- Witness of C15: the double of the P-256 base point plus the base point. -/
theorem ECC_Add_formulas_witness :
    haveI : Fact (Nat.Prime curve_p256_p) := ⟨curve_p256_p_prime⟩
    (ECC_Double curve_p256_p ⟨0, 0, 0⟩ curve_p256_G).z ≠ 0 ∧ curve_p256_G.z = 1 ∧
    ECC_Add_H curve_p256_p (ECC_Double curve_p256_p ⟨0, 0, 0⟩ curve_p256_G) curve_p256_G
      ≠ 0 ∧
    ((ECC_Add curve_p256_p ⟨0, 0, 0⟩ (ECC_Double curve_p256_p ⟨0, 0, 0⟩ curve_p256_G)
        curve_p256_G).1.z : ZMod curve_p256_p) =
      ((ECC_Double curve_p256_p ⟨0, 0, 0⟩ curve_p256_G).z : ZMod curve_p256_p) *
        ECC_Add_H curve_p256_p (ECC_Double curve_p256_p ⟨0, 0, 0⟩ curve_p256_G)
          curve_p256_G :=
  have hH : ECC_Add_H curve_p256_p (ECC_Double curve_p256_p ⟨0, 0, 0⟩ curve_p256_G)
      curve_p256_G ≠ 0 := fun h =>
    absurd ((ECC_Add_t1_eq_zero_iff curve_p256_p (by decide) _ _).mpr h) (by decide)
  ⟨by decide, rfl, hH,
    (@ECC_Add_formulas curve_p256_p curve_p256_b ⟨curve_p256_p_prime⟩ ⟨0, 0, 0⟩
      (ECC_Double curve_p256_p ⟨0, 0, 0⟩ curve_p256_G) curve_p256_G (by decide) rfl
      hH).2.2.1⟩

/-- C16. For non-infinity `P` (Jacobian) and `Q` with equal affine `x` and
different `y` (`x2 Z1^2 ≡ X1` and `y2 Z1^3 ≢ Y1` modulo `p`), `ECC_Add`
returns the point at infinity: only `r.z` is written, with 0.  The case is
tested after the two point-at-infinity checks: with `Q.z = 0` the output is
`P`, and with `P.z = 0`, `Q.z ≠ 0` it is `Q`, whatever `H` and `R` are. -/
theorem ECC_Add_opposite (modp : Nat) (hm : 0 < modp) (r P Q : Point) :
    (P.z ≠ 0 → Q.z ≠ 0 → ECC_Add_H modp P Q = 0 → ECC_Add_R modp P Q ≠ 0 →
      (ECC_Add modp r P Q).1 = { r with z := 0 } ∧ (ECC_Add modp r P Q).1.z = 0) ∧
    (Q.z = 0 → (ECC_Add modp r P Q).1 = P) ∧
    (P.z = 0 → Q.z ≠ 0 → (ECC_Add modp r P Q).1 = Q) := by
  refine ⟨?_, ?_, ?_⟩
  · intro hP hQ hH hR
    have h1 := (ECC_Add_t1_eq_zero_iff modp hm P Q).mpr hH
    have h2 : ECC_Add_t2 modp P Q ≠ 0 := fun h =>
      hR ((ECC_Add_t2_eq_zero_iff modp hm P Q).mp h)
    rw [ECC_Add_branch_opposite r P Q hQ hP h1 h2]
    exact ⟨rfl, rfl⟩
  · intro hQ
    rw [ECC_Add_branch_q_inf r P Q hQ]
  · intro hP hQ
    rw [ECC_Add_branch_p_inf r P Q hQ hP]

/-- Witness of C16: the P-256 base point and its negative. -/
theorem ECC_Add_opposite_witness :
    0 < curve_p256_p ∧
    (ECC_Add curve_p256_p ⟨7, 8, 9⟩ curve_p256_G
      ⟨curve_p256_G.x, curve_p256_p - curve_p256_G.y, 1⟩).1 = ⟨7, 8, 0⟩ ∧
    (ECC_Add curve_p256_p ⟨7, 8, 9⟩ curve_p256_G
      ⟨curve_p256_G.x, curve_p256_p - curve_p256_G.y, 1⟩).1.z = 0 :=
  ⟨by decide,
    (ECC_Add_opposite curve_p256_p (by decide) ⟨7, 8, 9⟩ curve_p256_G
      ⟨curve_p256_G.x, curve_p256_p - curve_p256_G.y, 1⟩).1 (by decide) (by decide)
      ((ECC_Add_t1_eq_zero_iff curve_p256_p (by decide) _ _).mp (by decide))
      (fun h => absurd ((ECC_Add_t2_eq_zero_iff curve_p256_p (by decide) _ _).mpr h)
        (by decide))⟩

/-- C17 fails on the code at the scalar `2^256 - 1` (all limbs
`0xFFFFFFFF`, so `k mod 4 = 3`): after `k[0]` wraps to 0 the carry loop
wraps limbs 1 to 7 and goes on to index 8, outside the 8-limb buffer, so
the digit step and `ECC_NAF` leave the defined behaviour. -/
theorem ECC_NAF_carry_leaves_buffer :
    limbsValue [0xFFFFFFFF, 0xFFFFFFFF, 0xFFFFFFFF, 0xFFFFFFFF,
      0xFFFFFFFF, 0xFFFFFFFF, 0xFFFFFFFF, 0xFFFFFFFF] % 4 = 3 ∧
    ECC_NAF_carry KEY_LENGTH_DWORDS_P256
      [0, 0xFFFFFFFF, 0xFFFFFFFF, 0xFFFFFFFF,
        0xFFFFFFFF, 0xFFFFFFFF, 0xFFFFFFFF, 0xFFFFFFFF] 1 = .error .outOfBounds ∧
    ECC_NAF_digit [0xFFFFFFFF, 0xFFFFFFFF, 0xFFFFFFFF, 0xFFFFFFFF,
      0xFFFFFFFF, 0xFFFFFFFF, 0xFFFFFFFF, 0xFFFFFFFF] = .error .outOfBounds ∧
    ECC_NAF (List.replicate NAF_BYTES 0) [0xFFFFFFFF, 0xFFFFFFFF, 0xFFFFFFFF, 0xFFFFFFFF,
      0xFFFFFFFF, 0xFFFFFFFF, 0xFFFFFFFF, 0xFFFFFFFF] = .error .outOfBounds := by
  refine ⟨by decide, by decide, by decide, by decide⟩

/-- C18. For every 8-limb scalar `k < 2^256 - 1` the `while` loop of
`ECC_NAF` terminates.  One pass turns the value `v ≠ 0` of the buffer into
`nafNext v`, which is `v / 2`, `(v - 1) / 2` or `(v + 1) / 2` and is
strictly below `v`; the loop stops the first time that value is zero, and
`NumNAF` is the number of passes, each with one right shift:
`nafNext^[NumNAF] k = 0`, `nafNext^[j] k ≠ 0` for `j < NumNAF`, and
`NumNAF = 0` for `k = 0`. -/
theorem ECC_NAF_terminates (k : List Nat) (hk : LimbsWF k)
    (hlt : limbsValue k < 2 ^ 256 - 1) :
    (∃ naf NumNAF k2, ECC_NAF (List.replicate NAF_BYTES 0) k = .ok (naf, NumNAF, k2) ∧
      limbsValue k2 = 0 ∧ nafNext^[NumNAF] (limbsValue k) = 0 ∧
      (∀ j, j < NumNAF → nafNext^[j] (limbsValue k) ≠ 0) ∧
      (limbsValue k = 0 → NumNAF = 0)) ∧
    (∀ c : List Nat, LimbsWF c → limbsValue c ≠ 0 → limbsValue c + 1 < 2 ^ 256 →
      ∃ s c2, ECC_NAF_digit c = .ok (s, c2) ∧
        limbsValue (multiprecision_rshift c2) = nafNext (limbsValue c) ∧
        nafNext (limbsValue c) < limbsValue c ∧
        (nafNext (limbsValue c) = limbsValue c / 2 ∨
          nafNext (limbsValue c) = (limbsValue c - 1) / 2 ∨
          nafNext (limbsValue c) = (limbsValue c + 1) / 2)) := by
  constructor
  · obtain ⟨naf, k2, he, _, hv, _, _⟩ := ECC_NAF_spec k hk hlt
    obtain ⟨i1, i2⟩ := nafCodes_length_iterate ECC_NAF_fuel 256 (limbsValue k)
      (Or.inr ⟨by omega, by decide⟩)
    refine ⟨naf, _, k2, he, hv, i1, i2, ?_⟩
    intro h0
    rw [h0]
    rfl
  · intro c hc hv hlt2
    obtain ⟨s, c2, he, hval⟩ := ECC_NAF_step_value hc hlt2
    exact ⟨s, c2, he, hval, nafNext_lt _ hv, nafNext_cases _⟩

/-- Witness of C18: the scalar 7. -/
theorem ECC_NAF_terminates_witness :
    LimbsWF [7, 0, 0, 0, 0, 0, 0, 0] ∧ limbsValue [7, 0, 0, 0, 0, 0, 0, 0] < 2 ^ 256 - 1 ∧
    ∃ naf NumNAF k2, ECC_NAF (List.replicate NAF_BYTES 0) [7, 0, 0, 0, 0, 0, 0, 0]
        = .ok (naf, NumNAF, k2) ∧
      limbsValue k2 = 0 ∧ nafNext^[NumNAF] (limbsValue [7, 0, 0, 0, 0, 0, 0, 0]) = 0 ∧
      (∀ j, j < NumNAF → nafNext^[j] (limbsValue [7, 0, 0, 0, 0, 0, 0, 0]) ≠ 0) ∧
      (limbsValue [7, 0, 0, 0, 0, 0, 0, 0] = 0 → NumNAF = 0) :=
  ⟨by decide, by decide,
    (ECC_NAF_terminates [7, 0, 0, 0, 0, 0, 0, 0] (by decide) (by decide)).1⟩

/-- C19. For every accumulator `(X, Y, Z)` with `Z ≠ 0` left by the
double-and-add loop (prime modulus, base point with canonical `z`), the
final step of `ECC_PointMult_Bin_NAF` outputs `q.x = X (Z^-1)^2 mod p` and
`q.y = Y (Z^-1)^3 mod p`, where `Z^-1`, the value of
`multiprecision_inv_mod`, satisfies `Z * Z^-1 mod p = 1`. -/
theorem ECC_PointMult_finish_affine (modp : Nat) [Fact modp.Prime] (p : Point)
    (hpz : p.z < modp) (n n2 : List Nat) (acc : Point)
    (hacc : ECC_PointMult_acc modp p n = .ok (acc, n2)) (hz : acc.z ≠ 0) :
    ∃ q, ECC_PointMult_Bin_NAF modp p n = .ok (q, n2) ∧
      (acc.z * multiprecision_inv_mod acc.z modp) % modp = 1 ∧
      q.x = (acc.x * multiprecision_inv_mod acc.z modp ^ 2) % modp ∧
      q.y = (acc.y * multiprecision_inv_mod acc.z modp ^ 3) % modp := by
  have hlt : acc.z < modp :=
    ECC_PointMult_acc_z_lt modp (Fact.out : modp.Prime).one_lt p hpz n n2 acc hacc
  refine ⟨ECC_PointMult_finish modp acc, by simp only [ECC_PointMult_Bin_NAF, hacc],
    inv_mod_mul_self acc.z hz hlt, ?_, ?_⟩
  · simp only [ECC_PointMult_finish, multiprecision_mersenns_mult_mod,
      multiprecision_mersenns_squa_mod]
    rw [Nat.mul_mod_mod, pow_two]
  · simp only [ECC_PointMult_finish, multiprecision_mersenns_mult_mod,
      multiprecision_mersenns_squa_mod]
    have e : (multiprecision_inv_mod acc.z modp * multiprecision_inv_mod acc.z modp % modp
        * multiprecision_inv_mod acc.z modp) % modp
        = multiprecision_inv_mod acc.z modp ^ 3 % modp := by
      rw [Nat.mod_mul_mod, pow_succ, pow_two]
    rw [e, Nat.mul_mod_mod]

/-- Witness of C19: the P-256 base point and the scalar 2, whose
accumulator is the Jacobian double of the base point. -/
theorem ECC_PointMult_finish_affine_witness :
    haveI : Fact (Nat.Prime curve_p256_p) := ⟨curve_p256_p_prime⟩
    curve_p256_G.z < curve_p256_p ∧
    ECC_PointMult_acc curve_p256_p curve_p256_G [2, 0, 0, 0, 0, 0, 0, 0] =
      .ok (ECC_Double curve_p256_p curve_p256_G curve_p256_G, [0, 0, 0, 0, 0, 0, 0, 0]) ∧
    (ECC_Double curve_p256_p curve_p256_G curve_p256_G).z ≠ 0 ∧
    ∃ q, ECC_PointMult_Bin_NAF curve_p256_p curve_p256_G [2, 0, 0, 0, 0, 0, 0, 0]
        = .ok (q, [0, 0, 0, 0, 0, 0, 0, 0]) ∧
      ((ECC_Double curve_p256_p curve_p256_G curve_p256_G).z *
        multiprecision_inv_mod (ECC_Double curve_p256_p curve_p256_G curve_p256_G).z
          curve_p256_p) % curve_p256_p = 1 ∧
      q.x = ((ECC_Double curve_p256_p curve_p256_G curve_p256_G).x *
        multiprecision_inv_mod (ECC_Double curve_p256_p curve_p256_G curve_p256_G).z
          curve_p256_p ^ 2) % curve_p256_p ∧
      q.y = ((ECC_Double curve_p256_p curve_p256_G curve_p256_G).y *
        multiprecision_inv_mod (ECC_Double curve_p256_p curve_p256_G curve_p256_G).z
          curve_p256_p ^ 3) % curve_p256_p :=
  ⟨by decide, by decide, by decide,
    @ECC_PointMult_finish_affine curve_p256_p ⟨curve_p256_p_prime⟩ curve_p256_G (by decide)
      [2, 0, 0, 0, 0, 0, 0, 0] [0, 0, 0, 0, 0, 0, 0, 0]
      (ECC_Double curve_p256_p curve_p256_G curve_p256_G) (by decide) (by decide)⟩

/-- C20, as stated, fails: adding the P-256 base point to its Jacobian
double leaves another `z` in the first operand than the call received. -/
theorem ECC_Add_overwrites_p_z :
    (ECC_Add curve_p256_p ⟨0, 0, 0⟩ (ECC_Double curve_p256_p ⟨0, 0, 0⟩ curve_p256_G)
        curve_p256_G).2.z ≠
      (ECC_Double curve_p256_p ⟨0, 0, 0⟩ curve_p256_G).z := by
  decide

/-- C20, amended.  Of the three buffers of `ECC_Add(r, P, Q)`, `Q` (behind
a `const` pointer) holds after the call the values it held before, and so
do `P.x` and `P.y`; `P` is left as it was when `Q` or `P` is at infinity or
`H = 0`; in the general branch `P.z` is used as scratch space and ends as
`H^3 Y1 mod p`. -/
theorem ECC_Add_frame (modp : Nat) (r P Q : Point) :
    ECC_Add_mem modp r P Q = ((ECC_Add modp r P Q).1, (ECC_Add modp r P Q).2, Q) ∧
    (ECC_Add_mem modp r P Q).2.2 = Q ∧
    (ECC_Add modp r P Q).2.x = P.x ∧ (ECC_Add modp r P Q).2.y = P.y ∧
    ((Q.z = 0 ∨ P.z = 0 ∨ ECC_Add_t1 modp P Q = 0) → (ECC_Add modp r P Q).2 = P) ∧
    (Q.z ≠ 0 → P.z ≠ 0 → ECC_Add_t1 modp P Q ≠ 0 →
      (ECC_Add modp r P Q).2.z =
        (ECC_Add_t1 modp P Q ^ 3 % modp * P.y) % modp) := by
  refine ⟨ECC_Add_mem_eq modp r P Q, by rw [ECC_Add_mem_eq], ?_⟩
  by_cases hq : Q.z = 0
  · rw [ECC_Add_branch_q_inf r P Q hq]
    exact ⟨rfl, rfl, fun _ => rfl, fun h => absurd hq h⟩
  by_cases hp : P.z = 0
  · rw [ECC_Add_branch_p_inf r P Q hq hp]
    exact ⟨rfl, rfl, fun _ => rfl, fun _ h => absurd hp h⟩
  by_cases h1 : ECC_Add_t1 modp P Q = 0
  · by_cases h2 : ECC_Add_t2 modp P Q = 0
    · rw [ECC_Add_branch_double r P Q hq hp h1 h2]
      exact ⟨rfl, rfl, fun _ => rfl, fun _ _ h => absurd h1 h⟩
    · rw [ECC_Add_branch_opposite r P Q hq hp h1 h2]
      exact ⟨rfl, rfl, fun _ => rfl, fun _ _ h => absurd h1 h⟩
  · have h1c := h1
    unfold ECC_Add_t1 at h1c
    refine ⟨?_, ?_, ?_, ?_⟩
    · simp only [ECC_Add, multiprecision_iszero, hq, hp, h1c, decide_False,
        Bool.false_eq_true, if_false]
    · simp only [ECC_Add, multiprecision_iszero, hq, hp, h1c, decide_False,
        Bool.false_eq_true, if_false]
    · rintro (h | h | h)
      · exact absurd h hq
      · exact absurd h hp
      · exact absurd h h1
    · intro _ _ _
      simp only [ECC_Add, multiprecision_iszero, hq, hp, h1c, decide_False,
        Bool.false_eq_true, if_false]
      unfold ECC_Add_t1
      simp only [multiprecision_mersenns_mult_mod, multiprecision_mersenns_squa_mod]
      congr 2
      rw [Nat.mod_mul_mod, pow_succ, pow_two]

/-- Witness of the amended C20: the general branch on the Jacobian double
of the P-256 base point and the base point. -/
theorem ECC_Add_frame_witness :
    (ECC_Add_mem curve_p256_p ⟨0, 0, 0⟩ (ECC_Double curve_p256_p ⟨0, 0, 0⟩ curve_p256_G)
        curve_p256_G).2.2 = curve_p256_G ∧
    (ECC_Add curve_p256_p ⟨0, 0, 0⟩ (ECC_Double curve_p256_p ⟨0, 0, 0⟩ curve_p256_G)
        curve_p256_G).2.x = (ECC_Double curve_p256_p ⟨0, 0, 0⟩ curve_p256_G).x ∧
    (ECC_Add curve_p256_p ⟨0, 0, 0⟩ (ECC_Double curve_p256_p ⟨0, 0, 0⟩ curve_p256_G)
        curve_p256_G).2.y = (ECC_Double curve_p256_p ⟨0, 0, 0⟩ curve_p256_G).y :=
  ⟨(ECC_Add_frame curve_p256_p ⟨0, 0, 0⟩
      (ECC_Double curve_p256_p ⟨0, 0, 0⟩ curve_p256_G) curve_p256_G).2.1,
    (ECC_Add_frame curve_p256_p ⟨0, 0, 0⟩
      (ECC_Double curve_p256_p ⟨0, 0, 0⟩ curve_p256_G) curve_p256_G).2.2.1,
    (ECC_Add_frame curve_p256_p ⟨0, 0, 0⟩
      (ECC_Double curve_p256_p ⟨0, 0, 0⟩ curve_p256_G) curve_p256_G).2.2.2.1⟩

/-! ## The cubic `x^3 - 3x + b` of P-256 has no root -/

theorem cubicMul_eval (modp b : Nat) (hm : 0 < modp) (A B : Nat × Nat × Nat)
    (r : ZMod modp) (hr : r ^ 3 - 3 * r + (b : ZMod modp) = 0) :
    cubicEval modp (cubicMul modp b A B) r = cubicEval modp A r * cubicEval modp B r := by
  obtain ⟨a0, a1, a2⟩ := A
  obtain ⟨b0, b1, b2⟩ := B
  have hnb : ((modp - b % modp : Nat) : ZMod modp) = -(b : ZMod modp) := by
    rw [Nat.cast_sub (Nat.le_of_lt (Nat.mod_lt _ hm)), ZMod.natCast_self, ZMod.natCast_mod]
    ring
  simp only [cubicMul, cubicEval, ZMod.natCast_mod, Nat.cast_add, Nat.cast_mul,
    Nat.cast_ofNat, hnb]
  linear_combination (-((a1 : ZMod modp) * b2 + a2 * b1) - a2 * b2 * r) * hr

theorem cubicEval_one (modp : Nat) (r : ZMod modp) :
    cubicEval modp (1 % modp, 0, 0) r = 1 := by
  simp [cubicEval, ZMod.natCast_mod]

theorem cubicPow_eval (modp b : Nat) (hm : 0 < modp) (r : ZMod modp)
    (hr : r ^ 3 - 3 * r + (b : ZMod modp) = 0) :
    ∀ (fuel : Nat) (A : Nat × Nat × Nat) (e : Nat), e ≤ fuel →
      cubicEval modp (cubicPow modp b fuel A e) r = cubicEval modp A r ^ e := by
  intro fuel
  induction fuel with
  | zero =>
    intro A e he
    have : e = 0 := by omega
    subst this
    rw [cubicPow, cubicEval_one, pow_zero]
  | succ f ih =>
    intro A e he
    rw [cubicPow]
    by_cases h0 : e = 0
    · rw [if_pos h0, cubicEval_one, h0, pow_zero]
    · rw [if_neg h0]
      have hh := ih (cubicMul modp b A A) (e / 2) (by omega)
      rw [cubicMul_eval modp b hm A A r hr] at hh
      by_cases h1 : e % 2 = 1
      · simp only [h1, if_true]
        rw [cubicMul_eval modp b hm _ _ r hr, hh, ← pow_two, ← pow_mul, ← pow_succ']
        congr 1
        omega
      · simp only [h1, if_false]
        rw [hh, ← pow_two, ← pow_mul]
        congr 1
        omega

theorem curve_p256_cubic_no_root (x : ZMod curve_p256_p) :
    x ^ 3 - 3 * x + (curve_p256_b : ZMod curve_p256_p) ≠ 0 := by
  haveI : Fact (Nat.Prime curve_p256_p) := ⟨curve_p256_p_prime⟩
  intro hr
  have hg : cubicPow curve_p256_p curve_p256_b curve_p256_p (0, 1, 0) curve_p256_p =
      (66434390973925144466073271287821796038003695194169110494110089305650096453661,
       12402202686218762177567235911775779164004716598278868847786114277539554646091 + 1,
       24678849118215552148312087830792888746041224110560601850711771001608500700145) := by
    decide!
  have hU : cubicMul curve_p256_p curve_p256_b
      (76626890310466861426869089647039036757962535851890885406097439786770458211455,
       74462945259064871768191128030512052509059297803194871526163573358218695456204,
       34768139465301476436978405170953382516735956999154666452188405812258086013549)
      (66434390973925144466073271287821796038003695194169110494110089305650096453661,
       12402202686218762177567235911775779164004716598278868847786114277539554646091,
       24678849118215552148312087830792888746041224110560601850711771001608500700145) =
      (1 % curve_p256_p, 0, 0) := by
    decide!
  have h1 := cubicPow_eval curve_p256_p curve_p256_b (by decide) x hr curve_p256_p (0, 1, 0)
    curve_p256_p (Nat.le_refl _)
  have hX : cubicEval curve_p256_p (0, 1, 0) x = x := by simp [cubicEval]
  rw [hg, hX, ZMod.pow_card] at h1
  have h2 := cubicMul_eval curve_p256_p curve_p256_b (by decide)
    (76626890310466861426869089647039036757962535851890885406097439786770458211455,
       74462945259064871768191128030512052509059297803194871526163573358218695456204,
       34768139465301476436978405170953382516735956999154666452188405812258086013549)
    (66434390973925144466073271287821796038003695194169110494110089305650096453661,
       12402202686218762177567235911775779164004716598278868847786114277539554646091,
       24678849118215552148312087830792888746041224110560601850711771001608500700145) x hr
  rw [hU, cubicEval_one] at h2
  have hD : cubicEval curve_p256_p
      (66434390973925144466073271287821796038003695194169110494110089305650096453661,
       12402202686218762177567235911775779164004716598278868847786114277539554646091,
       24678849118215552148312087830792888746041224110560601850711771001608500700145) x = 0 := by
    simp only [cubicEval, Nat.cast_add, Nat.cast_one] at h1 ⊢
    linear_combination h1
  rw [hD, mul_zero] at h2
  exact one_ne_zero h2

/-! ## The Jacobian curve equation along the double-and-add loop -/

theorem jacobianEq_iff (modp b : Nat) (P : Point) :
    JacobianEq modp b P ↔
      (P.y : ZMod modp) ^ 2 =
        (P.x : ZMod modp) ^ 3 - 3 * P.x * (P.z : ZMod modp) ^ 4 + b * (P.z : ZMod modp) ^ 6 := by
  unfold JacobianEq
  rw [← ZMod.natCast_eq_natCast_iff']
  push_cast
  constructor <;> intro h <;> linear_combination h

theorem jacobianEq_of_z_one (modp b : Nat) (hm : 0 < modp) (Q : Point) (hz : Q.z = 1) :
    JacobianEq modp b Q ↔ ECC_ValidatePoint modp b Q = true := by
  rw [jacobianEq_iff, ECC_ValidatePoint_cast modp b hm, hz]
  push_cast
  constructor <;> intro h <;> linear_combination h

theorem ECC_Double_jacobian (modp b : Nat) (hm : 0 < modp) (q0 P : Point) (hz : P.z ≠ 0)
    (h : JacobianEq modp b P) : JacobianEq modp b (ECC_Double modp q0 P) := by
  rw [jacobianEq_iff] at h ⊢
  obtain ⟨hx, hy, hz3, _⟩ := ECC_Double_cast hm q0 P hz
  rw [hx, hy, hz3]
  linear_combination (64 * (P.y : ZMod modp) ^ 6) * h

theorem ECC_Add_jacobian (modp b : Nat) (hm : 0 < modp) (r P Q : Point) (hq : Q.z ≠ 0)
    (hp : P.z ≠ 0) (h1 : ECC_Add_t1 modp P Q ≠ 0) (hP : JacobianEq modp b P)
    (hQ : ECC_ValidatePoint modp b Q = true) :
    JacobianEq modp b (ECC_Add modp r P Q).1 := by
  rw [jacobianEq_iff] at hP ⊢
  rw [ECC_ValidatePoint_cast modp b hm] at hQ
  obtain ⟨hx, hy, hz3, _⟩ := ECC_Add_cast hm r P Q hq hp h1
  rw [hx, hy, hz3, cast_ECC_Add_t1 modp hm, cast_ECC_Add_t2 modp hm]
  unfold ECC_Add_H ECC_Add_R
  linear_combination
    (((((Q.y : ZMod modp) * (P.z : ZMod modp) ^ 3 - P.y) ^ 2
        - ((Q.x : ZMod modp) * (P.z : ZMod modp) ^ 2 - P.x) ^ 3
        - 2 * P.x * ((Q.x : ZMod modp) * (P.z : ZMod modp) ^ 2 - P.x) ^ 2)
        - ((Q.x : ZMod modp) * (P.z : ZMod modp) ^ 2 - P.x) ^ 2 * P.x)
      * ((Q.x : ZMod modp) * (P.z : ZMod modp) ^ 2 - P.x) ^ 3 * (P.z : ZMod modp) ^ 6) * hQ
    + (((Q.x : ZMod modp) * (P.z : ZMod modp) ^ 2 - P.x) ^ 6
      - ((((Q.y : ZMod modp) * (P.z : ZMod modp) ^ 3 - P.y) ^ 2
        - ((Q.x : ZMod modp) * (P.z : ZMod modp) ^ 2 - P.x) ^ 3
        - 2 * P.x * ((Q.x : ZMod modp) * (P.z : ZMod modp) ^ 2 - P.x) ^ 2)
        - ((Q.x : ZMod modp) * (P.z : ZMod modp) ^ 2 - P.x) ^ 2 * P.x)
      * ((Q.x : ZMod modp) * (P.z : ZMod modp) ^ 2 - P.x) ^ 3) * hP

/-- The result of `ECC_Double` has `Z = 0` or lies on the Jacobian curve when
its operand does. -/
theorem ECC_Double_inv (modp b : Nat) (hm : 0 < modp) (q0 P : Point)
    (h : P.z = 0 ∨ JacobianEq modp b P) :
    (ECC_Double modp q0 P).z = 0 ∨ JacobianEq modp b (ECC_Double modp q0 P) := by
  by_cases hz : P.z = 0
  · left
    simp [ECC_Double, multiprecision_iszero, hz, multiprecision_init]
  · right
    exact ECC_Double_jacobian modp b hm q0 P hz (h.resolve_left hz)

/-- The result of `ECC_Add` has `Z = 0` or lies on the Jacobian curve when
its first operand does and the second is a point of the curve with `Z = 1`. -/
theorem ECC_Add_inv (modp b : Nat) (hm : 0 < modp) (r P Q : Point) (hqz : Q.z = 1)
    (hQ : ECC_ValidatePoint modp b Q = true) (h : P.z = 0 ∨ JacobianEq modp b P) :
    (ECC_Add modp r P Q).1.z = 0 ∨ JacobianEq modp b (ECC_Add modp r P Q).1 := by
  have hq : Q.z ≠ 0 := by rw [hqz]; exact one_ne_zero
  have hQj : JacobianEq modp b Q := (jacobianEq_of_z_one modp b hm Q hqz).mpr hQ
  by_cases hz : P.z = 0
  · right
    rw [ECC_Add_branch_p_inf r P Q hq hz]
    exact hQj
  · by_cases h1 : ECC_Add_t1 modp P Q = 0
    · by_cases h2 : ECC_Add_t2 modp P Q = 0
      · right
        rw [ECC_Add_branch_double r P Q hq hz h1 h2]
        exact ECC_Double_jacobian modp b hm r Q hq hQj
      · left
        rw [ECC_Add_branch_opposite r P Q hq hz h1 h2]
    · right
      exact ECC_Add_jacobian modp b hm r P Q hq hz h1 (h.resolve_left hz) hQ

theorem ECC_PointMult_step_inv (modp b : Nat) (hm : 0 < modp) (naf : List Nat)
    (p minus_p : Point) (hpz : p.z = 1) (hp : ECC_ValidatePoint modp b p = true)
    (hmz : minus_p.z = 1) (hmp : ECC_ValidatePoint modp b minus_p = true) (i : Nat)
    (qr qr2 : Point × Point) (hI : qr.1.z = 0 ∨ JacobianEq modp b qr.1)
    (h : ECC_PointMult_step modp naf p minus_p i qr = .ok qr2) :
    qr2.1.z = 0 ∨ JacobianEq modp b qr2.1 := by
  have hd := ECC_Double_inv modp b hm qr.1 (p_256_copy_point qr.1) hI
  unfold ECC_PointMult_step at h
  simp only [p_256_copy_point] at h hd
  split_ifs at h
  · injection h with h; rw [← h]; exact ECC_Add_inv modp b hm _ _ p hpz hp hd
  · injection h with h; rw [← h]; exact ECC_Add_inv modp b hm _ _ minus_p hmz hmp hd
  · injection h with h; rw [← h]; exact hd

theorem ECC_PointMult_loop_inv (modp b : Nat) (hm : 0 < modp) (naf : List Nat)
    (p minus_p : Point) (hpz : p.z = 1) (hp : ECC_ValidatePoint modp b p = true)
    (hmz : minus_p.z = 1) (hmp : ECC_ValidatePoint modp b minus_p = true) :
    ∀ (cnt : Nat) (qr qr2 : Point × Point), (qr.1.z = 0 ∨ JacobianEq modp b qr.1) →
      ECC_PointMult_loop modp naf p minus_p cnt qr = .ok qr2 →
      (qr2.1.z = 0 ∨ JacobianEq modp b qr2.1) := by
  intro cnt
  induction cnt with
  | zero =>
    intro qr qr2 h0 h
    unfold ECC_PointMult_loop at h
    injection h with h
    rw [← h]; exact h0
  | succ i ih =>
    intro qr qr2 h0 h
    unfold ECC_PointMult_loop at h
    cases hs : ECC_PointMult_step modp naf p minus_p i qr with
    | error e => rw [hs] at h; simp at h
    | ok qr1 =>
      rw [hs] at h
      exact ih qr1 qr2
        (ECC_PointMult_step_inv modp b hm naf p minus_p hpz hp hmz hmp i qr qr1 h0 hs) h

theorem ECC_PointMult_minus_p_valid (modp b : Nat) (hm : 0 < modp) (hm256 : modp < 2 ^ 256)
    (p : Point) (hpy : p.y ≤ modp) (hp : ECC_ValidatePoint modp b p = true) :
    ECC_ValidatePoint modp b (ECC_PointMult_minus_p modp p) = true := by
  rw [ECC_ValidatePoint_cast modp b hm] at hp ⊢
  simp only [ECC_PointMult_minus_p, multiprecision_copy]
  rw [cast_multiprecision_sub p.y hm256 hpy]
  linear_combination hp

theorem ECC_PointMult_acc_eq (modp : Nat) (p : Point) (n : List Nat) :
    ECC_PointMult_acc modp p n =
      match ECC_NAF (List.replicate NAF_BYTES 0) n with
      | .error e => .error e
      | .ok (naf, NumNaf, n) =>
        match ECC_PointMult_loop modp naf p (ECC_PointMult_minus_p modp p) NumNaf
            (p_256_init_point, p_256_init_point) with
        | .error e => .error e
        | .ok (q, _) => .ok (q, n) := rfl

theorem ECC_PointMult_acc_inv (modp b : Nat) (hm : 0 < modp) (hm256 : modp < 2 ^ 256)
    (p : Point) (hpz : p.z = 1) (hpy : p.y ≤ modp) (hp : ECC_ValidatePoint modp b p = true)
    (n n2 : List Nat) (acc : Point) (h : ECC_PointMult_acc modp p n = .ok (acc, n2)) :
    acc.z = 0 ∨ JacobianEq modp b acc := by
  rw [ECC_PointMult_acc_eq] at h
  cases he : ECC_NAF (List.replicate NAF_BYTES 0) n with
  | error e => rw [he] at h; simp at h
  | ok res =>
    obtain ⟨naf, num, k2⟩ := res
    rw [he] at h
    simp only at h
    cases hl : ECC_PointMult_loop modp naf p (ECC_PointMult_minus_p modp p) num
        (p_256_init_point, p_256_init_point) with
    | error e => rw [hl] at h; simp at h
    | ok qr =>
      rw [hl] at h
      simp only at h
      injection h with h
      have h1 : qr.1 = acc := (Prod.mk.inj h).1
      rw [← h1]
      exact ECC_PointMult_loop_inv modp b hm naf p _ hpz hp rfl
        (ECC_PointMult_minus_p_valid modp b hm hm256 p hpy hp) num _ qr (Or.inl rfl) hl

set_option maxRecDepth 1000000 in
theorem ECC_PointMult_acc_order :
    ECC_PointMult_acc curve_p256_p curve_p256_G (limbsOfValue 8 curve_p256_n) =
      .ok (⟨0x22fb45d01bd5a7d3860b95372fce3a6132d9b68edc40f7145657ecc5d5a1a56a,
            0xa0a8d2a38d1638dffb6c02b734fc10396638f3346c47870284b6d7963cfea14a, 0⟩,
           [0, 0, 0, 0, 0, 0, 0, 0]) := by
  decide!

/-! ## Bit length and number of NAF digits -/

theorem bitLengthAux_zero (fuel : Nat) : bitLengthAux fuel 0 = 0 := by
  cases fuel <;> simp [bitLengthAux]

theorem bitLengthAux_spec : ∀ (fuel n : Nat), n ≤ fuel → n ≠ 0 →
    1 ≤ bitLengthAux fuel n ∧ 2 ^ (bitLengthAux fuel n - 1) ≤ n ∧
      n < 2 ^ bitLengthAux fuel n := by
  intro fuel
  induction fuel with
  | zero => intro n h h0; omega
  | succ f ih =>
    intro n hle h0
    rw [bitLengthAux, if_neg h0]
    by_cases h1 : n / 2 = 0
    · rw [h1, bitLengthAux_zero]
      have : n = 1 := by omega
      subst this
      simp
    · obtain ⟨hb, hlo, hhi⟩ := ih (n / 2) (by omega) h1
      refine ⟨by omega, ?_, ?_⟩
      · rw [Nat.add_sub_cancel]
        have e : 2 ^ bitLengthAux f (n / 2) = 2 * 2 ^ (bitLengthAux f (n / 2) - 1) := by
          rw [← Nat.pow_succ']; congr 1; omega
        omega
      · rw [Nat.pow_succ]
        omega

theorem most_signbits_eq_size (k : List Nat) :
    multiprecision_most_signbits k = Nat.size (limbsValue k) := by
  unfold multiprecision_most_signbits
  by_cases h0 : limbsValue k = 0
  · rw [h0, bitLengthAux_zero, Nat.size_zero]
  · obtain ⟨hb, hlo, hhi⟩ := bitLengthAux_spec _ _ (Nat.le_refl _) h0
    apply Nat.le_antisymm
    · have := Nat.lt_size.mpr hlo
      omega
    · exact Nat.size_le.mpr hhi

theorem two_pow_facts (l : Nat) :
    (2 ^ l % 3 = 1 ∨ 2 ^ l % 3 = 2) ∧ (2 ^ l % 2 = 0 ∨ 2 ^ l = 1) := by
  induction l with
  | zero => simp
  | succ l ih =>
    rw [Nat.pow_succ]
    omega

theorem nafCodes_zero (fuel : Nat) : nafCodes fuel 0 = [] := by
  cases fuel <;> simp [nafCodes]

/-- The number `L` of NAF digits of `v ≥ 1` satisfies `2^L ≤ 3 v < 2^(L+1)`. -/
theorem nafCodes_length_bounds : ∀ (fuel m v : Nat), v ≠ 0 → v ≤ 2 ^ m → m + 1 ≤ fuel →
    2 ^ (nafCodes fuel v).length ≤ 3 * v ∧ 3 * v < 2 ^ ((nafCodes fuel v).length + 1) := by
  intro fuel
  induction fuel with
  | zero => intro m v _ _ h; omega
  | succ f ih =>
    intro m v hv hle hf
    obtain ⟨s, hs⟩ := nafCodes_succ f v hv
    rw [hs, List.length_cons]
    by_cases hw : nafNext v = 0
    · rw [hw, nafCodes_zero]
      have h1 : v = 1 := by
        unfold nafNext at hw
        split_ifs at hw <;> omega
      subst h1
      simp
    · have hm : m ≠ 0 := by
        intro h0
        subst h0
        have h1 : v = 1 := by
          have : v ≤ 1 := by simpa using hle
          omega
        apply hw
        rw [h1]
        rfl
      have hpow : 2 ^ m = 2 * 2 ^ (m - 1) := by
        rw [← Nat.pow_succ']; congr 1; omega
      have hwle : nafNext v ≤ 2 ^ (m - 1) := by
        unfold nafNext
        split_ifs <;> omega
      obtain ⟨hlo, hhi⟩ := ih (m - 1) (nafNext v) hw hwle (by omega)
      obtain ⟨h3, h2⟩ := two_pow_facts (nafCodes f (nafNext v)).length
      generalize (nafCodes f (nafNext v)).length = l at hlo hhi h3 h2 ⊢
      rw [Nat.pow_succ, Nat.pow_succ, Nat.pow_succ] at *
      generalize 2 ^ l = a at hlo hhi h3 h2 ⊢
      unfold nafNext at hlo hhi hw
      split_ifs at hlo hhi hw <;> omega

theorem nafCodes_length_bitlen (fuel m v bl : Nat) (hv : v ≠ 0) (hle : v ≤ 2 ^ m)
    (hf : m + 1 ≤ fuel) (hb : 1 ≤ bl) (hlo : 2 ^ (bl - 1) ≤ v) (hhi : v < 2 ^ bl) :
    (nafCodes fuel v).length = bl ∨ (nafCodes fuel v).length = bl + 1 := by
  obtain ⟨h1, h2⟩ := nafCodes_length_bounds fuel m v hv hle hf
  generalize (nafCodes fuel v).length = L at h1 h2 ⊢
  have e : 2 ^ bl = 2 * 2 ^ (bl - 1) := by
    rw [← Nat.pow_succ']; congr 1; omega
  have hU : L < bl + 2 := by
    by_contra hcon
    have := Nat.pow_le_pow_right (show 0 < 2 by decide) (show bl + 2 ≤ L by omega)
    rw [Nat.pow_succ, Nat.pow_succ] at this
    omega
  have hL : bl < L + 1 := by
    by_contra hcon
    have := Nat.pow_le_pow_right (show 0 < 2 by decide) (show L + 1 ≤ bl by omega)
    omega
  omega

/-! ## Validation of the all-zero point -/

theorem ECC_ValidatePoint_zero (modp b : Nat) (hm : 0 < modp) (z : Nat) :
    ECC_ValidatePoint modp b ⟨0, 0, z⟩ = false ↔ b % modp ≠ 0 := by
  rw [← Bool.not_eq_true, ECC_ValidatePoint_cast modp b hm]
  simp only [Nat.cast_zero]
  rw [Ne, ← Nat.dvd_iff_mod_eq_zero, ← ZMod.natCast_zmod_eq_zero_iff_dvd]
  constructor
  · intro h hb
    apply h
    rw [hb]; ring
  · intro h hb
    apply h
    linear_combination -hb

/-! ## The claims C21 to C26 -/

/-- C21, as stated, fails: for the base point `(5, 0)`, whose `y = 0` is
canonical, the `y` of the precomputed negated point is the modulus `p` itself,
which is not in `[0, p)`. -/
theorem ECC_PointMult_minus_p_noncanonical :
    (⟨5, 0, 1⟩ : Point).y < curve_p256_p ∧
    (ECC_PointMult_minus_p curve_p256_p ⟨5, 0, 1⟩).y = curve_p256_p ∧
    ¬ (ECC_PointMult_minus_p curve_p256_p ⟨5, 0, 1⟩).y < curve_p256_p := by
  refine ⟨by decide, by decide, by decide⟩

/-- C21, amended.  For every base point `(x, y)` with canonical `y` in
`[0, p)` (modulus below `2^256`), the negated point precomputed by
`ECC_PointMult_Bin_NAF` (the `minus_p` its loop runs with) has the same `x`,
`Z = 1` and `y`-coordinate `p - y`: congruent to `-y` modulo `p`, at most `p`,
and below `p` exactly when `y ≠ 0`.  No point of the P-256 curve has `y = 0`,
so for a base point on that curve the value is canonical. -/
theorem ECC_PointMult_minus_p_spec (modp : Nat) (hm : modp < 2 ^ 256) (p : Point)
    (hy : p.y < modp) :
    (∀ n, ECC_PointMult_acc modp p n =
      match ECC_NAF (List.replicate NAF_BYTES 0) n with
      | .error e => .error e
      | .ok (naf, NumNaf, n) =>
        match ECC_PointMult_loop modp naf p (ECC_PointMult_minus_p modp p) NumNaf
            (p_256_init_point, p_256_init_point) with
        | .error e => .error e
        | .ok (q, _) => .ok (q, n)) ∧
    (ECC_PointMult_minus_p modp p).x = p.x ∧
    (ECC_PointMult_minus_p modp p).z = 1 ∧
    (ECC_PointMult_minus_p modp p).y = modp - p.y ∧
    (((ECC_PointMult_minus_p modp p).y : Nat) : ZMod modp) = -(p.y : ZMod modp) ∧
    (ECC_PointMult_minus_p modp p).y ≤ modp ∧
    ((ECC_PointMult_minus_p modp p).y < modp ↔ p.y ≠ 0) ∧
    (∀ g : Point, g.y < curve_p256_p →
      ECC_ValidatePoint curve_p256_p curve_p256_b g = true →
      (ECC_PointMult_minus_p curve_p256_p g).y < curve_p256_p) := by
  have e : ∀ (m : Nat) (g : Point), m < 2 ^ 256 → g.y < m →
      (ECC_PointMult_minus_p m g).y = m - g.y := by
    intro m g hm hg
    simp only [ECC_PointMult_minus_p, multiprecision_sub]
    have : g.y % 2 ^ 256 = g.y := Nat.mod_eq_of_lt (by omega)
    rw [this]
    have h2 : m + (2 ^ 256 - g.y) = (m - g.y) + 2 ^ 256 := by omega
    rw [h2, Nat.add_mod_right]
    exact Nat.mod_eq_of_lt (by omega)
  refine ⟨fun n => rfl, rfl, rfl, e modp p hm hy, ?_, ?_, ?_, ?_⟩
  · exact cast_multiprecision_sub p.y hm (Nat.le_of_lt hy)
  · rw [e modp p hm hy]; omega
  · rw [e modp p hm hy]; omega
  · intro g hg hv
    rw [ECC_ValidatePoint_cast curve_p256_p curve_p256_b (by decide)] at hv
    have hg0 : g.y ≠ 0 := by
      intro h0
      rw [h0] at hv
      apply curve_p256_cubic_no_root (g.x : ZMod curve_p256_p)
      push_cast at hv
      linear_combination -hv
    rw [e curve_p256_p g (by decide) hg]
    omega

/-- Witness of the amended C21: the P-256 base point. -/
theorem ECC_PointMult_minus_p_spec_witness :
    curve_p256_p < 2 ^ 256 ∧ curve_p256_G.y < curve_p256_p ∧
    (ECC_PointMult_minus_p curve_p256_p curve_p256_G).x = curve_p256_G.x ∧
    (ECC_PointMult_minus_p curve_p256_p curve_p256_G).z = 1 ∧
    (ECC_PointMult_minus_p curve_p256_p curve_p256_G).y = curve_p256_p - curve_p256_G.y :=
  ⟨by decide, by decide,
    (ECC_PointMult_minus_p_spec curve_p256_p (by decide) curve_p256_G (by decide)).2.1,
    (ECC_PointMult_minus_p_spec curve_p256_p (by decide) curve_p256_G (by decide)).2.2.1,
    (ECC_PointMult_minus_p_spec curve_p256_p (by decide) curve_p256_G (by decide)).2.2.2.1⟩

/-- C22. For every Jacobian point `P` on the P-256 curve whose `Z` is not
zero as a field element, `ECC_Double` returns a point with `Z ≠ 0`:
`Z3 = 2 Y1 Z1 (mod p)`, `Y1` is not zero modulo `p` because no point of the
curve has `y = 0` (the cubic `x^3 - 3x + b` has no root modulo `p`), and so
`Z3` is not zero, as a field element and as a buffer. -/
theorem ECC_Double_z_ne_zero (q0 P : Point) (hz : (P.z : ZMod curve_p256_p) ≠ 0)
    (hP : JacobianEq curve_p256_p curve_p256_b P) :
    (∀ x y : ZMod curve_p256_p, y ^ 2 = x ^ 3 - 3 * x + curve_p256_b → y ≠ 0) ∧
    (P.y : ZMod curve_p256_p) ≠ 0 ∧
    ((ECC_Double curve_p256_p q0 P).z : ZMod curve_p256_p) =
      2 * (P.y : ZMod curve_p256_p) * (P.z : ZMod curve_p256_p) ∧
    ((ECC_Double curve_p256_p q0 P).z : ZMod curve_p256_p) ≠ 0 ∧
    (ECC_Double curve_p256_p q0 P).z ≠ 0 := by
  haveI : Fact (Nat.Prime curve_p256_p) := ⟨curve_p256_p_prime⟩
  have hz0 : P.z ≠ 0 := by
    intro h
    apply hz
    rw [h, Nat.cast_zero]
  have hny : ∀ x y : ZMod curve_p256_p, y ^ 2 = x ^ 3 - 3 * x + curve_p256_b → y ≠ 0 := by
    intro x y h hy
    apply curve_p256_cubic_no_root x
    rw [hy] at h
    linear_combination -h
  have hY : (P.y : ZMod curve_p256_p) ≠ 0 := by
    rw [jacobianEq_iff] at hP
    intro hy
    have hX : (P.x : ZMod curve_p256_p) =
        ((P.x : ZMod curve_p256_p) * ((P.z : ZMod curve_p256_p)⁻¹) ^ 2) *
          (P.z : ZMod curve_p256_p) ^ 2 := by
      field_simp
    have h6 : (P.z : ZMod curve_p256_p) ^ 6 *
        (((P.x : ZMod curve_p256_p) * ((P.z : ZMod curve_p256_p)⁻¹) ^ 2) ^ 3
          - 3 * ((P.x : ZMod curve_p256_p) * ((P.z : ZMod curve_p256_p)⁻¹) ^ 2)
          + curve_p256_b) = 0 := by
      generalize (P.x : ZMod curve_p256_p) * ((P.z : ZMod curve_p256_p)⁻¹) ^ 2 = x at hX
      rw [hy, hX] at hP
      linear_combination -hP
    rcases mul_eq_zero.mp h6 with h | h
    · exact hz (pow_eq_zero_iff (by norm_num) |>.mp h)
    · exact curve_p256_cubic_no_root _ h
  obtain ⟨_, _, hz3, _⟩ := @ECC_Double_cast curve_p256_p (by decide) q0 P hz0
  have h2 : (2 : ZMod curve_p256_p) ≠ 0 := by
    have : ((2 : Nat) : ZMod curve_p256_p) ≠ 0 := by
      rw [Ne, ZMod.natCast_zmod_eq_zero_iff_dvd]
      decide
    simpa using this
  have hne : ((ECC_Double curve_p256_p q0 P).z : ZMod curve_p256_p) ≠ 0 := by
    rw [hz3]
    exact mul_ne_zero (mul_ne_zero h2 hY) hz
  refine ⟨hny, hY, hz3, hne, ?_⟩
  intro h
  apply hne
  rw [h, Nat.cast_zero]

/-- Witness of C22: the P-256 base point. -/
theorem ECC_Double_z_ne_zero_witness :
    (curve_p256_G.z : ZMod curve_p256_p) ≠ 0 ∧
    JacobianEq curve_p256_p curve_p256_b curve_p256_G ∧
    (ECC_Double curve_p256_p ⟨0, 0, 0⟩ curve_p256_G).z ≠ 0 :=
  ⟨cast_ne_zero_of_lt (by decide) (by decide), by decide,
    (ECC_Double_z_ne_zero ⟨0, 0, 0⟩ curve_p256_G
      (cast_ne_zero_of_lt (by decide) (by decide)) (by decide)).2.2.2.2⟩

/-- C23, as stated, fails: the P-256 base point is on the curve, and the
accumulator that the loop of `ECC_PointMult_Bin_NAF` leaves for the scalar
`curve_p256_n` (the last addition meets the opposite point and clears `Z`
only) does not satisfy the Jacobian curve equation. -/
theorem ECC_PointMult_acc_off_curve :
    ECC_ValidatePoint curve_p256_p curve_p256_b curve_p256_G = true ∧ curve_p256_G.z = 1 ∧
    ∃ acc n2, ECC_PointMult_acc curve_p256_p curve_p256_G (limbsOfValue 8 curve_p256_n) =
        .ok (acc, n2) ∧ ¬ JacobianEq curve_p256_p curve_p256_b acc :=
  ⟨by decide, rfl, _, _, ECC_PointMult_acc_order, by decide⟩

/-- C23, amended.  Let the base point `p` be a point of the curve
`y^2 = x^3 - 3x + b (mod modp)` with `Z = 1`.  If `P` with `Z1 ≠ 0` satisfies
the Jacobian curve equation `Y^2 = X^3 - 3 X Z^4 + b Z^6`, so does the result
of `ECC_Double(P)`, and so does the result of `ECC_Add(P, p)` in its general
branch (`H ≠ 0`); doubling the point at infinity in place leaves it as it is.
One pass of the loop of `ECC_PointMult_Bin_NAF` keeps the invariant
"`Z = 0` or the Jacobian curve equation holds" (the branches that return
infinity write `Z = 0` only), the initial accumulator has it, and so has
the accumulator the loop leaves. -/
theorem ECC_PointMult_jacobian_invariant (modp b : Nat) (hm : 0 < modp)
    (hm256 : modp < 2 ^ 256) (p : Point) (hpz : p.z = 1) (hpy : p.y ≤ modp)
    (hp : ECC_ValidatePoint modp b p = true) :
    (∀ q0 P : Point, P.z ≠ 0 → JacobianEq modp b P →
      JacobianEq modp b (ECC_Double modp q0 P)) ∧
    (∀ P : Point, P.z = 0 → ECC_Double modp P P = P) ∧
    (∀ r P : Point, P.z ≠ 0 → ECC_Add_H modp P p ≠ 0 → JacobianEq modp b P →
      JacobianEq modp b (ECC_Add modp r P p).1) ∧
    (∀ (naf : List Nat) (i : Nat) (qr qr2 : Point × Point),
      (qr.1.z = 0 ∨ JacobianEq modp b qr.1) →
      ECC_PointMult_step modp naf p (ECC_PointMult_minus_p modp p) i qr = .ok qr2 →
      (qr2.1.z = 0 ∨ JacobianEq modp b qr2.1)) ∧
    JacobianEq modp b p_256_init_point ∧
    (∀ (n n2 : List Nat) (acc : Point), ECC_PointMult_acc modp p n = .ok (acc, n2) →
      (acc.z = 0 ∨ JacobianEq modp b acc)) := by
  have hmp := ECC_PointMult_minus_p_valid modp b hm hm256 p hpy hp
  refine ⟨fun q0 P hz h => ECC_Double_jacobian modp b hm q0 P hz h, ?_, ?_,
    fun naf i qr qr2 hI h =>
      ECC_PointMult_step_inv modp b hm naf p _ hpz hp rfl hmp i qr qr2 hI h, ?_,
    fun n n2 acc h => ECC_PointMult_acc_inv modp b hm hm256 p hpz hpy hp n n2 acc h⟩
  · intro P hz
    cases P with
    | mk x y z =>
      simp only at hz
      subst hz
      rfl
  · intro r P hz hH hP
    have hq : p.z ≠ 0 := by rw [hpz]; exact one_ne_zero
    have h1 : ECC_Add_t1 modp P p ≠ 0 := fun h =>
      hH ((ECC_Add_t1_eq_zero_iff modp hm P p).mp h)
    exact ECC_Add_jacobian modp b hm r P p hq hz h1 hP hp
  · simp [JacobianEq, p_256_init_point]

/-- Witness of the amended C23: the P-256 curve and its base point. -/
theorem ECC_PointMult_jacobian_invariant_witness :
    0 < curve_p256_p ∧ curve_p256_p < 2 ^ 256 ∧ curve_p256_G.z = 1 ∧
    curve_p256_G.y ≤ curve_p256_p ∧
    ECC_ValidatePoint curve_p256_p curve_p256_b curve_p256_G = true ∧
    (∀ (n n2 : List Nat) (acc : Point),
      ECC_PointMult_acc curve_p256_p curve_p256_G n = .ok (acc, n2) →
      (acc.z = 0 ∨ JacobianEq curve_p256_p curve_p256_b acc)) :=
  ⟨by decide, by decide, rfl, by decide, by decide,
    (ECC_PointMult_jacobian_invariant curve_p256_p curve_p256_b (by decide) (by decide)
      curve_p256_G rfl (by decide) (by decide)).2.2.2.2.2⟩

/-- C24. For every 8-limb scalar `k < 2^256 - 1`, `ECC_NAF` returns a digit
count `NumNAF` that is the bit length of `k` (the value of
`multiprecision_most_signbits`, equal to `Nat.size k`) or the bit length plus
one, hence at most 257; every index `i / 4` with `i < NumNAF` is at most 64
and inside the 65-byte buffer `naf`, and `ECC_PointMult_Bin_NAF`, which reads
`naf` at the same indices, returns without leaving the buffer. -/
theorem ECC_NAF_digit_count (k : List Nat) (hk : LimbsWF k)
    (hlt : limbsValue k < 2 ^ 256 - 1) :
    ∃ naf NumNAF k2, ECC_NAF (List.replicate NAF_BYTES 0) k = .ok (naf, NumNAF, k2) ∧
      multiprecision_most_signbits k = Nat.size (limbsValue k) ∧
      (NumNAF = multiprecision_most_signbits k ∨
        NumNAF = multiprecision_most_signbits k + 1) ∧
      NumNAF ≤ 257 ∧ naf.length = 65 ∧
      (∀ i, i < NumNAF → i / 4 ≤ 64 ∧ i / 4 < naf.length) ∧
      ∀ (modp : Nat) (p : Point), ∃ q n2, ECC_PointMult_Bin_NAF modp p k = .ok (q, n2) := by
  obtain ⟨naf, k2, he, _, _, hlen, _⟩ := ECC_NAF_spec k hk hlt
  have h257 := nafCodes_length_le ECC_NAF_fuel 256 (limbsValue k) (by omega)
  refine ⟨naf, _, k2, he, most_signbits_eq_size k, ?_, h257, hlen, ?_, ?_⟩
  · by_cases h0 : limbsValue k = 0
    · left
      unfold multiprecision_most_signbits
      rw [h0, bitLengthAux_zero, nafCodes_zero]
      rfl
    · obtain ⟨hb, hlo, hhi⟩ := bitLengthAux_spec _ _ (Nat.le_refl (limbsValue k)) h0
      exact nafCodes_length_bitlen ECC_NAF_fuel 256 (limbsValue k) _ h0 (by omega)
        (by decide) hb hlo hhi
  · intro i hi
    rw [hlen]
    simp only [NAF_BYTES]
    omega
  · intro modp p
    obtain ⟨q, hq⟩ := ECC_PointMult_returns modp p k hk hlt
    exact ⟨q, _, hq⟩

/-- Witness of C24: the scalar `3 * 2^254`, of bit length 256, with 257
digits. -/
theorem ECC_NAF_digit_count_witness :
    LimbsWF [0, 0, 0, 0, 0, 0, 0, 0xC0000000] ∧
    limbsValue [0, 0, 0, 0, 0, 0, 0, 0xC0000000] < 2 ^ 256 - 1 ∧
    ∃ naf NumNAF k2,
      ECC_NAF (List.replicate NAF_BYTES 0) [0, 0, 0, 0, 0, 0, 0, 0xC0000000]
        = .ok (naf, NumNAF, k2) ∧
      multiprecision_most_signbits [0, 0, 0, 0, 0, 0, 0, 0xC0000000] =
        Nat.size (limbsValue [0, 0, 0, 0, 0, 0, 0, 0xC0000000]) ∧
      (NumNAF = multiprecision_most_signbits [0, 0, 0, 0, 0, 0, 0, 0xC0000000] ∨
        NumNAF = multiprecision_most_signbits [0, 0, 0, 0, 0, 0, 0, 0xC0000000] + 1) ∧
      NumNAF ≤ 257 ∧ naf.length = 65 ∧
      (∀ i, i < NumNAF → i / 4 ≤ 64 ∧ i / 4 < naf.length) ∧
      ∀ (modp : Nat) (p : Point), ∃ q n2,
        ECC_PointMult_Bin_NAF modp p [0, 0, 0, 0, 0, 0, 0, 0xC0000000] = .ok (q, n2) :=
  ⟨by decide, by decide,
    ECC_NAF_digit_count [0, 0, 0, 0, 0, 0, 0, 0xC0000000] (by decide) (by decide)⟩

/-- C25. The function `ECC_ValidatePoint` rejects the all-zero point on
P-256: for `x = 0` and `y = 0` (and any `z`) it returns false, because
`curve_p256_b` is not zero modulo `p` (for any modulus and constant the
answer at `(0, 0)` is false exactly when `b mod p ≠ 0`); the point that
`ECC_PointMult_Bin_NAF` returns for the zero scalar has `x = 0`, `y = 0` and
does not pass validation. -/
theorem ECC_ValidatePoint_rejects_zero (z : Nat) :
    ECC_ValidatePoint curve_p256_p curve_p256_b ⟨0, 0, z⟩ = false ∧
    curve_p256_b % curve_p256_p ≠ 0 ∧
    (∀ modp b : Nat, 0 < modp →
      (ECC_ValidatePoint modp b ⟨0, 0, z⟩ = false ↔ b % modp ≠ 0)) ∧
    (∀ q : Point, q.x = 0 → q.y = 0 →
      ECC_ValidatePoint curve_p256_p curve_p256_b q = false) ∧
    (∀ p : Point, ∃ q n2,
      ECC_PointMult_Bin_NAF curve_p256_p p [0, 0, 0, 0, 0, 0, 0, 0] = .ok (q, n2) ∧
      q.x = 0 ∧ q.y = 0 ∧ ECC_ValidatePoint curve_p256_p curve_p256_b q = false) := by
  have hb : curve_p256_b % curve_p256_p ≠ 0 := by decide
  have hq : ∀ q : Point, q.x = 0 → q.y = 0 →
      ECC_ValidatePoint curve_p256_p curve_p256_b q = false := by
    intro q hx hy
    cases q with
    | mk x y z2 =>
      simp only at hx hy
      subst hx hy
      exact (ECC_ValidatePoint_zero curve_p256_p curve_p256_b (by decide) z2).mpr hb
  refine ⟨(ECC_ValidatePoint_zero curve_p256_p curve_p256_b (by decide) z).mpr hb, hb,
    fun modp b hm => ECC_ValidatePoint_zero modp b hm z, hq, ?_⟩
  intro p
  have hacc : ECC_PointMult_acc curve_p256_p p [0, 0, 0, 0, 0, 0, 0, 0] =
      .ok (⟨0, 0, 0⟩, [0, 0, 0, 0, 0, 0, 0, 0]) := by
    simp only [ECC_PointMult_acc, ECC_NAF_zero, ECC_PointMult_loop, p_256_init_point]
  have hx : (ECC_PointMult_finish curve_p256_p ⟨0, 0, 0⟩).x = 0 := by
    simp [ECC_PointMult_finish, multiprecision_mersenns_mult_mod]
  have hy : (ECC_PointMult_finish curve_p256_p ⟨0, 0, 0⟩).y = 0 := by
    simp [ECC_PointMult_finish, multiprecision_mersenns_mult_mod]
  exact ⟨ECC_PointMult_finish curve_p256_p ⟨0, 0, 0⟩, _,
    by rw [ECC_PointMult_Bin_NAF, hacc], hx, hy, hq _ hx hy⟩

/-- C26. The `z` field of the point returned by `ECC_PointMult_Bin_NAF` is
not normalised to 1: for every accumulator `(X, Y, Z)` with `Z ≠ 0` left by
the loop (prime modulus, base point with canonical `z`), the output has
`q.z = (Z^-1)^3 mod p`, where `Z^-1`, the value of
`multiprecision_inv_mod`, satisfies `Z * Z^-1 mod p = 1`; so `q.z = 1`
exactly when `Z^3 ≡ 1 (mod p)`.  (For `Z = 0` there is no inverse.) -/
theorem ECC_PointMult_finish_z (modp : Nat) [Fact modp.Prime] (p : Point)
    (hpz : p.z < modp) (n n2 : List Nat) (acc : Point)
    (hacc : ECC_PointMult_acc modp p n = .ok (acc, n2)) (hz : acc.z ≠ 0) :
    ∃ q, ECC_PointMult_Bin_NAF modp p n = .ok (q, n2) ∧
      q.z = (multiprecision_inv_mod acc.z modp) ^ 3 % modp ∧
      (acc.z * multiprecision_inv_mod acc.z modp) % modp = 1 ∧
      (q.z = 1 ↔ acc.z ^ 3 % modp = 1) := by
  have hpr : modp.Prime := Fact.out
  have hlt : acc.z < modp :=
    ECC_PointMult_acc_z_lt modp hpr.one_lt p hpz n n2 acc hacc
  have hqz : (ECC_PointMult_finish modp acc).z =
      (multiprecision_inv_mod acc.z modp) ^ 3 % modp := by
    simp only [ECC_PointMult_finish, multiprecision_mersenns_squa_mod,
      multiprecision_mersenns_mult_mod]
    rw [Nat.mod_mul_mod, pow_succ, pow_two]
  have h1 : (1 : Nat) % modp = 1 := Nat.mod_eq_of_lt hpr.one_lt
  refine ⟨ECC_PointMult_finish modp acc, by simp only [ECC_PointMult_Bin_NAF, hacc], hqz,
    inv_mod_mul_self acc.z hz hlt, ?_⟩
  rw [hqz]
  have hzc : (acc.z : ZMod modp) ≠ 0 := cast_ne_zero_of_lt hz hlt
  have hi := cast_inv_mod acc.z hzc
  rw [← h1, ← ZMod.natCast_eq_natCast_iff', ← ZMod.natCast_eq_natCast_iff']
  push_cast
  rw [hi, inv_pow]
  constructor
  · intro h
    exact inv_eq_one.mp h
  · intro h
    rw [h, inv_one]

/-- Witness of C26: the P-256 base point and the scalar 2; the accumulator
is the Jacobian double of the base point, its `Z^3` is not 1 modulo `p`, and
the returned `z` is not 1. -/
theorem ECC_PointMult_finish_z_witness :
    haveI : Fact (Nat.Prime curve_p256_p) := ⟨curve_p256_p_prime⟩
    curve_p256_G.z < curve_p256_p ∧
    ECC_PointMult_acc curve_p256_p curve_p256_G [2, 0, 0, 0, 0, 0, 0, 0] =
      .ok (ECC_Double curve_p256_p curve_p256_G curve_p256_G, [0, 0, 0, 0, 0, 0, 0, 0]) ∧
    (ECC_Double curve_p256_p curve_p256_G curve_p256_G).z ≠ 0 ∧
    (ECC_Double curve_p256_p curve_p256_G curve_p256_G).z ^ 3 % curve_p256_p ≠ 1 ∧
    ∃ q, ECC_PointMult_Bin_NAF curve_p256_p curve_p256_G [2, 0, 0, 0, 0, 0, 0, 0]
        = .ok (q, [0, 0, 0, 0, 0, 0, 0, 0]) ∧
      q.z = (multiprecision_inv_mod (ECC_Double curve_p256_p curve_p256_G curve_p256_G).z
        curve_p256_p) ^ 3 % curve_p256_p ∧
      q.z ≠ 1 :=
  have h := @ECC_PointMult_finish_z curve_p256_p ⟨curve_p256_p_prime⟩
    curve_p256_G (by decide) [2, 0, 0, 0, 0, 0, 0, 0] [0, 0, 0, 0, 0, 0, 0, 0]
    (ECC_Double curve_p256_p curve_p256_G curve_p256_G) (by decide) (by decide)
  have h3 : (ECC_Double curve_p256_p curve_p256_G curve_p256_G).z ^ 3 % curve_p256_p ≠ 1 := by
    decide
  ⟨by decide, by decide, by decide, h3,
    h.elim fun q hq => ⟨q, hq.1, hq.2.1, fun h1 => h3 (hq.2.2.2.mp h1)⟩⟩

end Ecc
